import Mathlib

/-!
# Reversi engine (`src/reversi/game.cpp`): board analysis, stone placement, stability, search

Shallow embedding of the board logic of the Arduboy Reversi game.

* `uint8_t` rows and counters are natural numbers; every place where the C code
  truncates to 8 bits carries an explicit `% 256`.
* `int8_t` coordinates and `int` scores are integers. Scores are not reduced modulo `2^16`:
  under `EvalBounded` every value that `alphabeta` computes lies in
  `[-EVAL_INF, EVAL_INF]` (`alphabetaAux_bounds`).
* `for (;;)` / `while (true)` / `do ... while` loops are structural recursions on a
  fuel argument that return `none` when the fuel runs out; `isReversible_isSome`,
  `checkFixCond_isSome` and `checkFixedStones_terminates` show that the fuel used is
  never exhausted.
* The globals `animTable`, `animStones`, `thinkLed` and the LED/sound calls are
  written but never read by the board logic; they are not part of `BOARD_T` and
  are left out of the board functions. The writes of `isPlaceable` and `isReversible` to
  `animTable` and `animStones` are embedded on their own, over `ANIM_T`, by
  `flipBackAnim`, `isReversibleAnim` and `placeStoneAnim`.
* The header `data.h` is not among the sources: its constants and evaluation tables are the
  parameter `DATA_T`, and its bit-count table is modelled by `countBits`.
-/

namespace Reversi

/-! ## Data model -/

/-- Board width, `#define BOARD_W 8`. -/
def BOARD_W : Int := 8

/-- Board height, `#define BOARD_H 8`. -/
def BOARD_H : Int := 8

/-- Result of a half-line probe, `enum FIX_COND_T`. -/
inductive FIX_COND_T where
  | EXIST_EMPTY
  | NO_EMPTY
  | NEIGHBOR_FIXED
  deriving DecidableEq, Repr

/-- The board record `BOARD_T`: three arrays of eight row masks, six 8-bit counters
and two booleans. -/
structure BOARD_T where
  white : Nat → Nat
  black : Nat → Nat
  flag : Nat → Nat
  numStones : Nat
  numBlack : Nat
  numWhite : Nat
  numFixedBlack : Nat
  numFixedWhite : Nat
  numPlaceable : Nat
  isWhiteTurn : Bool
  isLastPassed : Bool

/-- A cursor position, `POS_T` (two 3-bit fields). -/
structure POS_T where
  x : Nat
  y : Nat
  deriving DecidableEq, Repr

/-- The board after `memset(&board, 0, sizeof(board))`. -/
def zeroBoard : BOARD_T :=
  { white := fun _ => 0, black := fun _ => 0, flag := fun _ => 0,
    numStones := 0, numBlack := 0, numWhite := 0, numFixedBlack := 0,
    numFixedWhite := 0, numPlaceable := 0, isWhiteTurn := false, isLastPassed := false }

/-- Assignment `a[y] = v` to one entry of a row array. -/
def setRow (a : Nat → Nat) (y : Nat) (v : Nat) : Nat → Nat :=
  fun k => if k = y then v else a k

/-- The mask `1 << x` of column `x`. -/
def bitOf (x : Int) : Nat := 1 <<< x.toNat

/-- The 8-bit complement `(uint8_t) ~v`. -/
def not8 (v : Nat) : Nat := (255 ^^^ v) % 256

/-- Modelled from the spec: `countBits(val)` is `pgm_read_byte(bitNumTable + val)` and the
table `bitNumTable` lives in `data.h`, which is not part of the sources; the spec uses the
result as the number of stones of a row mask, so the table is taken to hold the number of
set bits of each 8-bit index. -/
def countBits (val : Nat) : Nat :=
  ((List.range 8).filter (fun i => val.testBit i)).length

/-- The test `p->black[y] & b` for `b = 1 << x`. -/
def isBlackAt (p : BOARD_T) (x y : Int) : Bool := (p.black y.toNat &&& bitOf x) != 0

/-- The test `p->white[y] & b` for `b = 1 << x`. -/
def isWhiteAt (p : BOARD_T) (x y : Int) : Bool := (p.white y.toNat &&& bitOf x) != 0

/-- The test `p->flag[y] & b` for `b = 1 << x`. -/
def isFlagAt (p : BOARD_T) (x y : Int) : Bool := (p.flag y.toNat &&& bitOf x) != 0

/-- The bounds test `x < 0 || y < 0 || x >= BOARD_W || y >= BOARD_H`. -/
def offBoard (x y : Int) : Bool :=
  decide (x < 0) || decide (y < 0) || decide (x ≥ BOARD_W) || decide (y ≥ BOARD_H)

/-! ## Legality and reversal (`isReversible`, `isPlaceable`) -/

/-- The inner loop of `isReversible`:
`while (s-- > 0) { x -= vx; y -= vy; b = 1 << x; p->black[y] ^= b; p->white[y] ^= b; }`. -/
def flipBack (vx vy : Int) : Nat → BOARD_T → Int → Int → BOARD_T
  | 0, p, _, _ => p
  | s + 1, p, x, y =>
    let x := x - vx
    let y := y - vy
    let b := bitOf x
    let p := { p with black := setRow p.black y.toNat (p.black y.toNat ^^^ b) }
    let p := { p with white := setRow p.white y.toNat (p.white y.toNat ^^^ b) }
    flipBack vx vy s p x y

/-- The scanning loop `for (int s = 0; ; s++)` of `isReversible`, with the loop counter
`s` and the running position as arguments; `none` when the fuel is used up. -/
def isReversibleLoop (vx vy : Int) (isActual : Bool) :
    Nat → BOARD_T → Nat → Int → Int → Option (Bool × BOARD_T)
  | 0, _, _, _, _ => none
  | fuel + 1, p, s, x, y =>
    let x := x + vx
    let y := y + vy
    if offBoard x y then some (false, p)
    else
      let isBlack := isBlackAt p x y
      let isWhite := isWhiteAt p x y
      if !isBlack && !isWhite then some (false, p)
      else if isWhite == p.isWhiteTurn then
        if s = 0 then some (false, p)
        else if isActual then some (true, flipBack vx vy s p x y)
        else some (true, p)
      else isReversibleLoop vx vy isActual fuel p (s + 1) x y

/-- Function `isReversible(p, x, y, vx, vy, isActual)`: the result and the board it leaves. -/
def isReversible (p : BOARD_T) (x y vx vy : Int) (isActual : Bool) : Bool × BOARD_T :=
  (isReversibleLoop vx vy isActual 9 p 0 x y).getD (false, p)

/-- The eight `(vx, vy)` pairs in the order of the two nested loops of `isPlaceable`
(`vy` outer, `vx` inner, `(0, 0)` skipped). -/
def directions : List (Int × Int) :=
  [(-1, -1), (0, -1), (1, -1), (-1, 0), (1, 0), (-1, 1), (0, 1), (1, 1)]

/-- The direction loop of `isPlaceable`; the accumulator is `ret` and the board, and an
early `return true` (probe mode) stops the scan. -/
def isPlaceableLoop (x y : Int) (isActual : Bool) :
    List (Int × Int) → Bool → BOARD_T → Bool × BOARD_T
  | [], ret, p => (ret, p)
  | (vx, vy) :: ds, ret, p =>
    let r := isReversible p x y vx vy isActual
    if r.1 then
      if !isActual then (true, r.2)
      else isPlaceableLoop x y isActual ds true r.2
    else isPlaceableLoop x y isActual ds ret r.2

/-- Function `isPlaceable(p, x, y, isActual)`: the result and the board it leaves. -/
def isPlaceable (p : BOARD_T) (x y : Int) (isActual : Bool) : Bool × BOARD_T :=
  let p :=
    if isActual then
      let b := bitOf x
      let p :=
        if p.isWhiteTurn then { p with white := setRow p.white y.toNat (p.white y.toNat ||| b) }
        else { p with black := setRow p.black y.toNat (p.black y.toNat ||| b) }
      let p := { p with flag := setRow p.flag y.toNat (p.flag y.toNat &&& not8 b) }
      if p.isWhiteTurn then { p with numWhite := (p.numWhite + 1) % 256 }
      else { p with numBlack := (p.numBlack + 1) % 256 }
    else p
  isPlaceableLoop x y isActual directions false p

/-- The macro `placeStone(b, x, y)`, i.e. `isPlaceable(b, x, y, true)`; the board it leaves. -/
def placeStone (p : BOARD_T) (x y : Int) : BOARD_T := (isPlaceable p x y true).2

/-! ## Stability (`checkFixCond`, `isFixed`, `checkFixedStones`) -/

/-- The loop `while (true)` of `checkFixCond` with the running `ret`; `none` when the fuel
is used up. -/
def checkFixCondLoop (p : BOARD_T) (vx vy : Int) (isCheckingBlack : Bool) :
    Nat → FIX_COND_T → Int → Int → Option FIX_COND_T
  | 0, _, _, _ => none
  | fuel + 1, ret, x, y =>
    let x := x + vx
    let y := y + vy
    if offBoard x y then some ret
    else
      let isBlack := isBlackAt p x y
      let isWhite := isWhiteAt p x y
      if !isBlack && !isWhite then some FIX_COND_T.EXIST_EMPTY
      else if ret = FIX_COND_T.NEIGHBOR_FIXED then
        if isFlagAt p x y && (isBlack == isCheckingBlack) then some FIX_COND_T.NEIGHBOR_FIXED
        else checkFixCondLoop p vx vy isCheckingBlack fuel FIX_COND_T.NO_EMPTY x y
      else checkFixCondLoop p vx vy isCheckingBlack fuel ret x y

/-- Function `checkFixCond(p, x, y, vx, vy, isCheckingBlack)`. -/
def checkFixCond (p : BOARD_T) (x y vx vy : Int) (isCheckingBlack : Bool) : FIX_COND_T :=
  (checkFixCondLoop p vx vy isCheckingBlack 9 FIX_COND_T.NEIGHBOR_FIXED x y).getD
    FIX_COND_T.NEIGHBOR_FIXED

/-- The four `(vx, vy)` pairs visited by the loops of `isFixed`: `vy = -1` with
`vx = -1, 0, 1`, then `vy = 0` with `vx = -1`. -/
def fixLines : List (Int × Int) := [(-1, -1), (0, -1), (1, -1), (-1, 0)]

/-- The disqualifying combination of the two half-line probes of one line in `isFixed`. -/
def lineOpen (cond1 cond2 : FIX_COND_T) : Bool :=
  (cond1 = FIX_COND_T.EXIST_EMPTY && cond2 = FIX_COND_T.EXIST_EMPTY) ||
  (cond1 = FIX_COND_T.EXIST_EMPTY && cond2 = FIX_COND_T.NO_EMPTY) ||
  (cond1 = FIX_COND_T.NO_EMPTY && cond2 = FIX_COND_T.EXIST_EMPTY)

/-- Function `isFixed(p, x, y, isCheckingBlack)`: false as soon as one line is open. -/
def isFixed (p : BOARD_T) (x y : Int) (isCheckingBlack : Bool) : Bool :=
  fixLines.all (fun v =>
    !lineOpen (checkFixCond p x y v.1 v.2 isCheckingBlack)
      (checkFixCond p x y (-v.1) (-v.2) isCheckingBlack))

/-- The column loop of one row of `checkFixedStones`; the accumulator is the local `flag`
and `isUpdated`. -/
def fixedCell (p : BOARD_T) (y : Int) (black stones : Nat) (acc : Nat × Bool) (x : Nat) :
    Nat × Bool :=
  let b := bitOf x
  if (stones &&& b) != 0 then
    let isCheckingBlack := (black &&& b) != 0
    if (not8 acc.1 &&& b) != 0 && isFixed p x y isCheckingBlack then (acc.1 ||| b, true)
    else acc
  else acc

/-- The body of the row loop of `checkFixedStones`; the accumulator is the board and
`isUpdated`. -/
def fixedRow (acc : BOARD_T × Bool) (y : Nat) : BOARD_T × Bool :=
  let p := acc.1
  let black := p.black y
  let white := p.white y
  let stones := black ||| white
  if stones = 0 then acc
  else
    let r := (List.range 8).foldl (fixedCell p y black stones) (p.flag y, acc.2)
    let flag := r.1
    let p := { p with flag := setRow p.flag y flag }
    let p := { p with numFixedBlack := (p.numFixedBlack + countBits (black &&& flag)) % 256 }
    let p := { p with numFixedWhite := (p.numFixedWhite + countBits (white &&& flag)) % 256 }
    (p, r.2)

/-- One pass of the `do ... while (isUpdated)` loop of `checkFixedStones`. -/
def fixedPass (p : BOARD_T) : BOARD_T × Bool :=
  let p := { p with numFixedBlack := 0, numFixedWhite := 0 }
  (List.range 8).foldl fixedRow (p, false)

/-- The `do ... while (isUpdated)` loop of `checkFixedStones`; `none` when the fuel is
used up. -/
def checkFixedStonesLoop : Nat → BOARD_T → Option BOARD_T
  | 0, _ => none
  | fuel + 1, p =>
    let r := fixedPass p
    if r.2 then checkFixedStonesLoop fuel r.1 else some r.1

/-- Function `checkFixedStones(p)`. -/
def checkFixedStones (p : BOARD_T) : BOARD_T :=
  (checkFixedStonesLoop 65 p).getD p

/-! ## Whole-board analysis (`analyzeBoard`) -/

/-- The column loop of one row of `analyzeBoard`; the accumulator is the local `flag`. -/
def analyzeCell (p : BOARD_T) (y : Int) (black white : Nat) (flag : Nat) (x : Nat) : Nat :=
  let b := bitOf x
  if (not8 (black ||| white) &&& b) != 0 then
    if (isPlaceable p x y false).1 then flag ||| b else flag &&& not8 b
  else flag

/-- The body of the row loop of `analyzeBoard`. -/
def analyzeRow (p : BOARD_T) (y : Nat) : BOARD_T :=
  let black := p.black y
  let white := p.white y
  let p := { p with numBlack := (p.numBlack + countBits black) % 256 }
  let p := { p with numWhite := (p.numWhite + countBits white) % 256 }
  let flag := (List.range 8).foldl (analyzeCell p y black white) (p.flag y)
  let p := { p with flag := setRow p.flag y flag }
  { p with numPlaceable := (p.numPlaceable + countBits (not8 (black ||| white) &&& flag)) % 256 }

/-- Function `analyzeBoard(p)`. -/
def analyzeBoard (p : BOARD_T) : BOARD_T :=
  let p := { p with numBlack := 0, numWhite := 0, numPlaceable := 0 }
  let p := (List.range 8).foldl analyzeRow p
  let p := { p with numStones := (p.numBlack + p.numWhite) % 256 }
  checkFixedStones p

/-- Function `isGameOver(p)`. -/
def isGameOver (p : BOARD_T) : Bool :=
  p.numStones == 64 || p.numBlack == 0 || p.numWhite == 0 ||
    (p.isLastPassed && p.numPlaceable == 0)

/-! ## Specification vocabulary -/

/-- A cell of the 8x8 board. -/
def OnBoard (x y : Int) : Prop := 0 ≤ x ∧ x < 8 ∧ 0 ≤ y ∧ y < 8

instance instDecidableOnBoard (x y : Int) : Decidable (OnBoard x y) := by
  unfold OnBoard; infer_instance

/-- One of the eight compass steps. -/
def UnitDir (vx vy : Int) : Prop :=
  -1 ≤ vx ∧ vx ≤ 1 ∧ -1 ≤ vy ∧ vy ≤ 1 ∧ (vx ≠ 0 ∨ vy ≠ 0)

/-- The board invariant `black[y] & white[y] == 0` for all eight rows. -/
def DisjointMasks (p : BOARD_T) : Prop := ∀ y : Nat, y < 8 → p.black y &&& p.white y = 0

/-- The cell holds no stone. -/
def emptyAt (p : BOARD_T) (x y : Int) : Bool := !isBlackAt p x y && !isWhiteAt p x y

/-- The cell holds a stone of the side to move. -/
def ownAt (p : BOARD_T) (x y : Int) : Bool :=
  if p.isWhiteTurn then isWhiteAt p x y else isBlackAt p x y

/-- The cell holds a stone of the side that is not to move. -/
def oppAt (p : BOARD_T) (x y : Int) : Bool :=
  if p.isWhiteTurn then isBlackAt p x y else isWhiteAt p x y

/-- The flip condition of one direction with a run of `s` stones: the `s ≥ 1` cells next to
`(x, y)` in direction `(vx, vy)` are on the board and hold opposing stones, and the cell
after them is on the board and holds a stone of the side to move. -/
def FlipRun (p : BOARD_T) (x y vx vy : Int) (s : Nat) : Prop :=
  1 ≤ s ∧
  (∀ k : Nat, 1 ≤ k → k ≤ s →
    OnBoard (x + k * vx) (y + k * vy) ∧ oppAt p (x + k * vx) (y + k * vy) = true) ∧
  OnBoard (x + (s + 1 : Nat) * vx) (y + (s + 1 : Nat) * vy) ∧
  ownAt p (x + (s + 1 : Nat) * vx) (y + (s + 1 : Nat) * vy) = true

/-- The flip condition holds in direction `(vx, vy)` for some run length. -/
def Flippable (p : BOARD_T) (x y vx vy : Int) : Prop := ∃ s, FlipRun p x y vx vy s

/-- Legal placement: the cell is empty and some direction satisfies the flip condition. -/
def Legal (p : BOARD_T) (x y : Int) : Prop :=
  emptyAt p x y = true ∧ ∃ v ∈ directions, Flippable p x y v.1 v.2

/-- The placeable set of a board: bit `x` of `~(black[y] | white[y]) & flag[y]`. -/
def placeableAt (p : BOARD_T) (x y : Int) : Bool :=
  ((not8 (p.black y.toNat ||| p.white y.toNat) &&& p.flag y.toNat) &&& bitOf x) != 0

/-- Recursive form of the scan of `isReversible` seen from the running position: `n`
opposing stones follow, then a stone of the side to move. -/
def Run (p : BOARD_T) (vx vy : Int) : Nat → Int → Int → Prop
  | 0, x, y => OnBoard (x + vx) (y + vy) ∧ ownAt p (x + vx) (y + vy) = true
  | n + 1, x, y =>
    OnBoard (x + vx) (y + vy) ∧ oppAt p (x + vx) (y + vy) = true ∧
      Run p vx vy n (x + vx) (y + vy)

/-- The cell `(cx, cy)` lies in the run flipped from `(x, y)` in direction `(vx, vy)`. -/
def OnRun (p : BOARD_T) (x y vx vy cx cy : Int) : Prop :=
  ∃ s k : Nat, FlipRun p x y vx vy s ∧ 1 ≤ k ∧ k ≤ s ∧ cx = x + k * vx ∧ cy = y + k * vy

/-- The first phase of `analyzeBoard`: everything before the call of `checkFixedStones`. -/
def analyzeScan (p : BOARD_T) : BOARD_T :=
  let p := { p with numBlack := 0, numWhite := 0, numPlaceable := 0 }
  let p := (List.range 8).foldl analyzeRow p
  { p with numStones := (p.numBlack + p.numWhite) % 256 }

/-- The cell holds a stone. -/
def occupiedAt (p : BOARD_T) (x y : Int) : Bool := isBlackAt p x y || isWhiteAt p x y

/-- Frame of `checkFixedStones`: masks, turn and the counters of `analyzeBoard` are kept,
flag bits are never cleared, and new flag bits appear on occupied cells only. -/
def FlagsGrow (p q : BOARD_T) : Prop :=
  q.black = p.black ∧ q.white = p.white ∧ q.isWhiteTurn = p.isWhiteTurn ∧
  q.isLastPassed = p.isLastPassed ∧ q.numStones = p.numStones ∧ q.numBlack = p.numBlack ∧
  q.numWhite = p.numWhite ∧ q.numPlaceable = p.numPlaceable ∧
  ∀ r i : Nat, ((p.flag r).testBit i = true → (q.flag r).testBit i = true) ∧
    ((q.flag r).testBit i = true →
      (p.flag r).testBit i = true ∨ (p.black r ||| p.white r).testBit i = true)

/-- A board given by its eight black and white row masks and the side to move, with no
flag bits and all counters zero. -/
def boardOfRows (black white : List Nat) (isWhiteTurn : Bool) : BOARD_T :=
  { zeroBoard with
    black := fun y => black.getD y 0, white := fun y => white.getD y 0,
    isWhiteTurn := isWhiteTurn }

/-- The position reached by the four forced opening placements: black on (3,3) and (4,4),
white on (4,3) and (3,4), black to move. -/
def openingBoard : BOARD_T :=
  boardOfRows [0, 0, 0, 8, 16, 0, 0, 0] [0, 0, 0, 16, 8, 0, 0, 0] false

/-- The cell `(cx, cy)` lies in a run flipped by a placement at `(x, y)`, in some
direction. -/
def FlippedBy (p : BOARD_T) (x y cx cy : Int) : Prop :=
  ∃ v ∈ directions, OnRun p x y v.1 v.2 cx cy

/-- The two boards agree on everything except the two stone masks. -/
def SameAux (p q : BOARD_T) : Prop :=
  q.flag = p.flag ∧ q.isWhiteTurn = p.isWhiteTurn ∧ q.isLastPassed = p.isLastPassed ∧
  q.numStones = p.numStones ∧ q.numBlack = p.numBlack ∧ q.numWhite = p.numWhite ∧
  q.numFixedBlack = p.numFixedBlack ∧ q.numFixedWhite = p.numFixedWhite ∧
  q.numPlaceable = p.numPlaceable

/-- The first block of `isPlaceable` in placing mode (`if (isActual) { ... }`): the stone is
put on the cell, its flag bit is cleared and the counter of the side to move goes up. -/
def putStone (p : BOARD_T) (x y : Int) : BOARD_T :=
  let b := bitOf x
  let p :=
    if p.isWhiteTurn then { p with white := setRow p.white y.toNat (p.white y.toNat ||| b) }
    else { p with black := setRow p.black y.toNat (p.black y.toNat ||| b) }
  let p := { p with flag := setRow p.flag y.toNat (p.flag y.toNat &&& not8 b) }
  if p.isWhiteTurn then { p with numWhite := (p.numWhite + 1) % 256 }
  else { p with numBlack := (p.numBlack + 1) % 256 }

/-- The board part of the pass branch of `handlePlaying`:
`isWhiteTurn = !isWhiteTurn; isLastPassed = true; analyzeBoard(&board)`. -/
def passTurn (p : BOARD_T) : BOARD_T :=
  analyzeBoard { p with isWhiteTurn := !p.isWhiteTurn, isLastPassed := true }

/-- The board part of the last branch of `handleAnimation`, run after every placement:
`isWhiteTurn = !isWhiteTurn; isLastPassed = false; analyzeBoard(&board)`. The earlier frames
of the animation only step `numBlack` and `numWhite` for the display; `analyzeBoard` sets
both counters again. -/
def endOfMove (p : BOARD_T) : BOARD_T :=
  analyzeBoard { p with isWhiteTurn := !p.isWhiteTurn, isLastPassed := false }

/-- The board part of the first branch of `handlePlaying` (`numStones < 4`): the forced
placement at `(3,3)`, `(4,3)`, `(4,4)`, `(3,4)` for `numStones = 0, 1, 2, 3`. -/
def forcedPlacement (p : BOARD_T) : BOARD_T :=
  let numStones := p.numStones
  let x : Int := if numStones = 0 ∨ numStones = 3 then 3 else 4
  let y : Int := if numStones = 0 ∨ numStones = 1 then 3 else 4
  placeStone p x y

/-- The board after `initGame`: `memset` to zero, then `analyzeBoard`. -/
def initGame : BOARD_T := analyzeBoard zeroBoard

/-- Number of set bits of the eight rows of a mask array. -/
def maskCount (a : Nat → Nat) : Nat := ((List.range 8).map (fun y => countBits (a y))).sum

/-- Total number of stones on the board: set bits of the black masks plus set bits of the
white masks. -/
def stoneCount (p : BOARD_T) : Nat := maskCount p.black + maskCount p.white

/-- The placeable mask of a row: `~(black[y] | white[y]) & flag[y]`. -/
def placeableRow (p : BOARD_T) (y : Nat) : Nat := not8 (p.black y ||| p.white y) &&& p.flag y

/-- Number of cells in the placeable set. -/
def placeableCount (p : BOARD_T) : Nat := maskCount (placeableRow p)

/-- One forced opening move as the game loop runs it: the first branch of `handlePlaying`
(taken while `numStones < 4`) followed by the end of the animation in `handleAnimation`. -/
def openingStep (p : BOARD_T) : Option BOARD_T :=
  if p.numStones < 4 then some (endOfMove (forcedPlacement p)) else none

/-- The board after the four forced opening moves that follow `initGame`. -/
def afterOpening : Option BOARD_T :=
  (((some initGame).bind openingStep).bind openingStep).bind openingStep |>.bind openingStep

/-! ## Evaluation and search (`evaluateBit`, `evaluateBoard`, `alphabeta`, `cpuThinking`) -/

/-- The constants and tables of `data.h` that the evaluation and the search read. The header
is not part of the sources, so they are parameters of the embedding: the four `EVAL_*`
constants and the two tables `evalStonesTable[row][index]` and
`evalFixedStonesTable[row][index]` (four rows of 32 bytes each). -/
structure DATA_T where
  EVAL_INF : Int
  EVAL_WIN : Int
  EVAL_LOSE : Int
  EVAL_NOPLACEABLE : Int
  evalStonesTable : Nat → Nat → Int
  evalFixedStonesTable : Nat → Nat → Int

/-- The conversion `(int8_t) v` of an integer to a signed byte. -/
def toInt8 (v : Int) : Int := (v + 128) % 256 - 128

/-- Function `evaluateBit(pTable, value)`: the table entries of the low and of the high
nibble of `value`, read as signed bytes, added and returned as `int8_t`. -/
def evaluateBit (pTable : Nat → Int) (value : Nat) : Int :=
  toInt8 (toInt8 (pTable (value &&& 15)) + toInt8 (pTable (16 + ((value >>> 4) &&& 15))))

/-- The body of the row loop of `evaluateBoard`; the accumulator is `eval`. -/
def evaluateRow (D : DATA_T) (p : BOARD_T) (eval : Int) (y : Nat) : Int :=
  let black := p.black y
  let white := p.white y
  let flag := p.flag y
  let row := if y < 4 then y else 7 - y
  let eval := eval + evaluateBit (D.evalStonesTable row) (black &&& not8 flag)
  let eval := eval - evaluateBit (D.evalStonesTable row) (white &&& not8 flag)
  let eval := eval + evaluateBit (D.evalFixedStonesTable row) (black &&& flag)
  eval - evaluateBit (D.evalFixedStonesTable row) (white &&& flag)

/-- Function `evaluateBoard(p)`. The `int` accumulator is an unbounded integer. -/
def evaluateBoard (D : DATA_T) (p : BOARD_T) : Int :=
  let eval : Int :=
    if isGameOver p then
      if p.numBlack ≠ p.numWhite then
        (if p.numBlack > p.numWhite then D.EVAL_WIN else D.EVAL_LOSE)
      else 0
    else (List.range 8).foldl (evaluateRow D p) 0
  let eval := if p.isWhiteTurn then -eval else eval
  let eval := eval + p.numPlaceable
  if p.numPlaceable = 0 then eval + D.EVAL_NOPLACEABLE else eval

/-- The cells in the order of the two nested loops of `alphabeta`: rows `y = 0..7`, and
within a row `x = 0..7`. A row whose placeable mask is zero is skipped by the source; it has
no cell that passes the test `placeable & b`. -/
def scanCells : List (Nat × Nat) :=
  (List.range 8).flatMap (fun y => (List.range 8).map (fun x => (x, y)))

/-- The board handed to the recursive call of `alphabeta` for the placement `(x, y)`:
`tmpBoard = *p; placeStone(&tmpBoard, x, y); isWhiteTurn = !isWhiteTurn;
isLastPassed = false`. -/
def childBoard (p : BOARD_T) (x y : Nat) : BOARD_T :=
  let tmpBoard := placeStone p x y
  { tmpBoard with isWhiteTurn := !tmpBoard.isWhiteTurn, isLastPassed := false }

/-- The board handed to the recursive call of `alphabeta` after a pass:
`tmpBoard = *p; isWhiteTurn = !isWhiteTurn; isLastPassed = true`. -/
def passBoard (p : BOARD_T) : BOARD_T :=
  { p with isWhiteTurn := !p.isWhiteTurn, isLastPassed := true }

/-- The candidate loop of `alphabeta`. The state is the running `alpha` and the global
`cursorPos`; `search` is the recursive call at the decremented depth. The result is the
returned value `-alpha` and `cursorPos`. -/
def alphabetaLoop (search : BOARD_T → Int → Int → POS_T → Int × POS_T) (p : BOARD_T)
    (isRoot : Bool) (beta : Int) : List (Nat × Nat) → Int → POS_T → Int × POS_T
  | [], alpha, cursorPos => (-alpha, cursorPos)
  | (x, y) :: cells, alpha, cursorPos =>
    if placeableAt p x y then
      let r := search (childBoard p x y) (-beta) (-alpha) cursorPos
      let eval := r.1
      let cursorPos := r.2
      let cursorPos := if eval > alpha then (if isRoot then POS_T.mk x y else cursorPos)
        else cursorPos
      let alpha := if eval > alpha then eval else alpha
      if alpha ≥ beta then (-alpha, cursorPos)
      else alphabetaLoop search p isRoot beta cells alpha cursorPos
    else alphabetaLoop search p isRoot beta cells alpha cursorPos

/-- Function `alphabeta(p, depth, alpha, beta)` for `depth ≥ 0` given as a natural number.
`isRoot` stands for the call with `p == NULL`, which works on the global board without
analysing it again; `cursorPos` is the global the root call writes its move to. -/
def alphabetaAux (D : DATA_T) : Nat → Bool → BOARD_T → Int → Int → POS_T → Int × POS_T
  | 0, isRoot, p, _, _, cursorPos =>
    let p := if isRoot then p else analyzeBoard p
    (-(evaluateBoard D p), cursorPos)
  | depth + 1, isRoot, p, alpha, beta, cursorPos =>
    let p := if isRoot then p else analyzeBoard p
    if isGameOver p then (-(evaluateBoard D p), cursorPos)
    else if p.numPlaceable = 0 then
      let r := alphabetaAux D depth false (passBoard p) (-beta) (-alpha) cursorPos
      (-r.1, r.2)
    else
      alphabetaLoop (alphabetaAux D depth false) p isRoot beta scanCells alpha cursorPos

/-- Function `alphabeta(p, depth, alpha, beta)` with the `int8_t` depth: `depth-- <= 0`
returns the leaf evaluation for every `depth ≤ 0`. -/
def alphabeta (D : DATA_T) (isRoot : Bool) (p : BOARD_T) (depth : Int) (alpha beta : Int)
    (cursorPos : POS_T) : Int × POS_T :=
  alphabetaAux D depth.toNat isRoot p alpha beta cursorPos

/-- Function `cpuThinking()`: `alphabeta(NULL, 5, -EVAL_INF, EVAL_INF)` on the global board;
the result is the new `cursorPos`. -/
def cpuThinking (D : DATA_T) (board : BOARD_T) (cursorPos : POS_T) : POS_T :=
  (alphabeta D true board 5 (-D.EVAL_INF) D.EVAL_INF cursorPos).2

/-- The step of the candidate fold of `negamaxAux`. -/
def negamaxStep (value : BOARD_T → Int) (p : BOARD_T) (best : Int) (c : Nat × Nat) : Int :=
  if placeableAt p c.1 c.2 then max best (-(value (childBoard p c.1 c.2))) else best

/-- Depth-limited negamax without pruning, in the words of the specification: the leaf
evaluation at depth 0 and at terminal positions, the negated value of the passed position
when the side to move has no placement, and otherwise the best negated value over the
candidate placements in scan order, starting from `-EVAL_INF`. The value is from the point of
view of the side to move. -/
def negamaxAux (D : DATA_T) : Nat → Bool → BOARD_T → Int
  | 0, isRoot, p =>
    let p := if isRoot then p else analyzeBoard p
    evaluateBoard D p
  | depth + 1, isRoot, p =>
    let p := if isRoot then p else analyzeBoard p
    if isGameOver p then evaluateBoard D p
    else if p.numPlaceable = 0 then -(negamaxAux D depth false (passBoard p))
    else
      scanCells.foldl (negamaxStep (negamaxAux D depth false) p) (-D.EVAL_INF)

/-- Plain negamax with the `int8_t` depth of `alphabeta`. -/
def negamax (D : DATA_T) (isRoot : Bool) (p : BOARD_T) (depth : Int) : Int :=
  negamaxAux D depth.toNat isRoot p

/-- Relation between the value `r` that alpha-beta reports for a node (from the point of view
of the side to move) with the window `(alpha, beta)` and the negamax value `V` of the node:
both lie in `[-inf, inf]`, `r` is exact inside the window and on the same side as `V`
outside. -/
def Bounds (inf r V alpha beta : Int) : Prop :=
  -inf ≤ r ∧ r ≤ inf ∧ -inf ≤ V ∧ V ≤ inf ∧
  (V ≤ alpha → r ≤ alpha) ∧ (alpha < V → V < beta → r = V) ∧ (beta ≤ V → beta ≤ r)

/-- Every evaluation of a board whose `numPlaceable` is an 8-bit value lies strictly between
`-EVAL_INF` and `EVAL_INF`. -/
def EvalBounded (D : DATA_T) : Prop :=
  ∀ b : BOARD_T, b.numPlaceable < 256 →
    -D.EVAL_INF < evaluateBoard D b ∧ evaluateBoard D b < D.EVAL_INF

/-- The unpruned negamax score of the placement `c` on board `p` when `depth` further plies
are searched below it, from the point of view of the side that places. -/
def moveScore (D : DATA_T) (depth : Nat) (p : BOARD_T) (c : Nat × Nat) : Int :=
  -(negamaxAux D depth false (childBoard p c.1 c.2))

/-- Position of a cell in the scan order of `alphabeta` (rows first, then columns). -/
def scanIndex (c : Nat × Nat) : Nat := 8 * c.2 + c.1

/-- A sample of the constants of `data.h`, used to instantiate the theorems on the search:
32767 as infinity, ±9999 for won and lost games, a penalty of 32 for having no placement,
and small positional weights. -/
def sampleData : DATA_T where
  EVAL_INF := 32767
  EVAL_WIN := 9999
  EVAL_LOSE := -9999
  EVAL_NOPLACEABLE := -32
  evalStonesTable := fun row i => ((row + i) % 7 : Nat) - 3
  evalFixedStonesTable := fun row i => ((row * i) % 5 : Nat) + 4

/-! ## Specification vocabulary for stability -/

/-- Every cell of the board on the half-line from `(x, y)` in direction `(vx, vy)` holds a
stone. -/
def RayFull (p : BOARD_T) (x y vx vy : Int) : Prop :=
  ∀ k : Nat, 1 ≤ k → OnBoard (x + k * vx) (y + k * vy) →
    occupiedAt p (x + k * vx) (y + k * vy) = true

/-- The neighbour of `(x, y)` in direction `(vx, vy)` protects the stone: it is off the
board, or it holds a stone of the same colour that satisfies `S`. -/
def Anchored (S : Int → Int → Prop) (p : BOARD_T) (x y vx vy : Int) : Prop :=
  ¬ OnBoard (x + vx) (y + vy) ∨
  (occupiedAt p (x + vx) (y + vy) = true ∧ isBlackAt p (x + vx) (y + vy) = isBlackAt p x y ∧
    S (x + vx) (y + vy))

/-- The line through `(x, y)` with direction `(vx, vy)` cannot be used to flip the stone:
one of the two neighbours on the line protects it, or the whole line is full. -/
def LineSafe (S : Int → Int → Prop) (p : BOARD_T) (x y vx vy : Int) : Prop :=
  Anchored S p x y vx vy ∨ Anchored S p x y (-vx) (-vy) ∨
    (RayFull p x y vx vy ∧ RayFull p x y (-vx) (-vy))

/-- Stability of rank `n`: the stone at `(x, y)` is safe on all four lines, where the
protecting neighbours are stable of a smaller rank. -/
def StableN (p : BOARD_T) : Nat → Int → Int → Prop
  | 0, _, _ => False
  | n + 1, x, y =>
    OnBoard x y ∧ occupiedAt p x y = true ∧
      ∀ v ∈ fixLines, LineSafe (StableN p n) p x y v.1 v.2

/-- A stable stone: stable of some rank. -/
def Stable (p : BOARD_T) (x y : Int) : Prop := ∃ n, StableN p n x y

/-- Every flagged stone of the board is stable. -/
def FixedSound (p : BOARD_T) : Prop :=
  ∀ x y : Int, OnBoard x y → occupiedAt p x y = true → isFlagAt p x y = true → Stable p x y

/-- A turn of the game after the opening: a placement at a cell, or a pass. -/
inductive MOVE_T where
  | place (x y : Nat)
  | pass

/-- The board part of one turn as the game loop runs it: `placeStone` followed by the end of
the animation (`handleAnimation`: turn toggle, `isLastPassed = false`, `analyzeBoard`), or
the pass branch of `handlePlaying`. -/
def playMove (p : BOARD_T) : MOVE_T → BOARD_T
  | MOVE_T.place x y => endOfMove (placeStone p x y)
  | MOVE_T.pass => passTurn p

/-- The turn is one the game loop can take on board `p`: a placement at a cell of the
placeable set, or a pass when `numPlaceable` is zero. -/
def MoveLegal (p : BOARD_T) : MOVE_T → Prop
  | MOVE_T.place x y => x < 8 ∧ y < 8 ∧ placeableAt p x y = true
  | MOVE_T.pass => p.numPlaceable = 0

/-- Every turn of the sequence is legal on the board it is played on. -/
def LegalGame : BOARD_T → List MOVE_T → Prop
  | _, [] => True
  | p, m :: ms => MoveLegal p m ∧ LegalGame (playMove p m) ms

/-- The board after a sequence of turns. -/
def playMoves (p : BOARD_T) (ms : List MOVE_T) : BOARD_T := ms.foldl playMove p

/-- A small position with a stone in the corner: black on (0,0), white on (1,0), black to
move. -/
def cornerBoard : BOARD_T :=
  boardOfRows [1, 0, 0, 0, 0, 0, 0, 0] [2, 0, 0, 0, 0, 0, 0, 0] false

/-- Number of stones that are not flagged as fixed: the quantity that every repeating pass
of `checkFixedStones` decreases. -/
def unfixedCount (p : BOARD_T) : Nat :=
  maskCount (fun r => (p.black r ||| p.white r) &&& not8 (p.flag r))

/-- Board `q` has a flag bit on a stone where board `p` has none. -/
def NewBit (p q : BOARD_T) : Prop :=
  ∃ r i : Nat, r < 8 ∧ i < 8 ∧ (p.black r ||| p.white r).testBit i = true ∧
    (p.flag r).testBit i = false ∧ (q.flag r).testBit i = true


/-! ## Vocabulary for the end-to-end scenario, terminal positions and colour symmetry -/

/-- The starting position as the specification describes it: black on (3,4) and (4,3), white
on (3,3) and (4,4), black to move. -/
def specOpeningBoard : BOARD_T :=
  boardOfRows [0, 0, 0, 16, 8, 0, 0, 0] [0, 0, 0, 8, 16, 0, 0, 0] false

/-- A terminal position with a single black stone on (0,0) and black to move. -/
def loneBlackBoard : BOARD_T :=
  boardOfRows [1, 0, 0, 0, 0, 0, 0, 0] [0, 0, 0, 0, 0, 0, 0, 0] false

/-- The result of a finished game as `evaluateBoard` reads it off the two stone counts:
`EVAL_WIN` when black has more stones, `EVAL_LOSE` when white has more, `0` on a tie. -/
def terminalScore (D : DATA_T) (numBlack numWhite : Nat) : Int :=
  if numBlack ≠ numWhite then (if numBlack > numWhite then D.EVAL_WIN else D.EVAL_LOSE) else 0

/-- The colour-swapped counterpart of a board: the black and white masks exchanged and the
side to move toggled. -/
def swapColours (p : BOARD_T) : BOARD_T :=
  { p with black := p.white, white := p.black, isWhiteTurn := !p.isWhiteTurn }

/-- Board `q` shows the position of board `p` with the colours exchanged: the masks are
exchanged, the side to move is the other one, flags and `isLastPassed` agree. -/
def Swapped (p q : BOARD_T) : Prop :=
  q.black = p.white ∧ q.white = p.black ∧ q.flag = p.flag ∧
  q.isWhiteTurn = (!p.isWhiteTurn) ∧ q.isLastPassed = p.isLastPassed

/-! ## Animation parameters (`animTable`, `animStones`, `animCounter`) -/

/-- The animation globals: `int8_t animTable[BOARD_H][BOARD_W]`, indexed `[y][x]`, and the
`uint8_t` counters `animStones` and `animCounter`. -/
structure ANIM_T where
  animTable : Nat → Nat → Int
  animStones : Nat
  animCounter : Nat

/-- Assignment `t[y][x] = v` to one entry of the animation table. -/
def setCell (t : Nat → Nat → Int) (y x : Nat) (v : Int) : Nat → Nat → Int :=
  fun r c => if r = y ∧ c = x then v else t r c

/-- Function `resetAnimationParams()`: `memset(animTable, -1, sizeof(animTable))`,
`animStones = 0`, `animCounter = 0`. -/
def resetAnimationParams : ANIM_T :=
  { animTable := fun _ _ => -1, animStones := 0, animCounter := 0 }

/-- The animation part of the inner loop of `isReversible`:
`while (s-- > 0) { x -= vx; y -= vy; ...; animTable[y][x] = anim; anim -= 4; }` with the
`int8_t` variable `anim`. The board part of the same loop is `flipBack`. -/
def flipBackAnim (vx vy : Int) : Nat → ANIM_T → Int → Int → Int → ANIM_T
  | 0, a, _, _, _ => a
  | s + 1, a, anim, x, y =>
    let x := x - vx
    let y := y - vy
    let a := { a with animTable := setCell a.animTable y.toNat x.toNat anim }
    flipBackAnim vx vy s a (toInt8 (anim - 4)) x y

/-- The scanning loop of `isReversible` in placing mode (`isActual` true), read for its
writes to the animation globals: `animStones += s; int8_t anim = animStones * 4 + 32;`
followed by the inner loop. The board it leaves is that of `isReversibleLoop`. -/
def isReversibleAnimLoop (vx vy : Int) :
    Nat → BOARD_T → ANIM_T → Nat → Int → Int → Option ANIM_T
  | 0, _, _, _, _, _ => none
  | fuel + 1, p, a, s, x, y =>
    let x := x + vx
    let y := y + vy
    if offBoard x y then some a
    else
      let isBlack := isBlackAt p x y
      let isWhite := isWhiteAt p x y
      if !isBlack && !isWhite then some a
      else if isWhite == p.isWhiteTurn then
        if s = 0 then some a
        else
          let a := { a with animStones := (a.animStones + s) % 256 }
          let anim := toInt8 ((a.animStones : Int) * 4 + 32)
          some (flipBackAnim vx vy s a anim x y)
      else isReversibleAnimLoop vx vy fuel p a (s + 1) x y

/-- The animation globals after `isReversible(p, x, y, vx, vy, true)`. -/
def isReversibleAnim (p : BOARD_T) (a : ANIM_T) (x y vx vy : Int) : ANIM_T :=
  (isReversibleAnimLoop vx vy 9 p a 0 x y).getD a

/-- The direction loop of `isPlaceable` in placing mode, read for the animation globals;
each direction sees the board that the directions before it have left. -/
def isPlaceableAnimLoop (x y : Int) : List (Int × Int) → BOARD_T → ANIM_T → ANIM_T
  | [], _, a => a
  | (vx, vy) :: ds, p, a =>
    isPlaceableAnimLoop x y ds (isReversible p x y vx vy true).2
      (isReversibleAnim p a x y vx vy)

/-- The animation globals after `placeStone(p, x, y)`: `animTable[y][x] = 0` in the first
block of `isPlaceable`, then the direction loop. -/
def placeStoneAnim (p : BOARD_T) (a : ANIM_T) (x y : Int) : ANIM_T :=
  let a := { a with animTable := setCell a.animTable y.toNat x.toNat 0 }
  isPlaceableAnimLoop x y directions (putStone p x y) a

/-- Scan of one direction that counts the opposing stones up to the first stone of the side
to move; 0 when the board edge or an empty cell comes first. -/
def runLengthLoop (p : BOARD_T) (vx vy : Int) : Nat → Nat → Int → Int → Nat
  | 0, _, _, _ => 0
  | fuel + 1, s, x, y =>
    let x := x + vx
    let y := y + vy
    if offBoard x y then 0
    else if emptyAt p x y then 0
    else if ownAt p x y then s
    else runLengthLoop p vx vy fuel (s + 1) x y

/-- Number of stones that a placement on `(x, y)` flips in direction `(vx, vy)`. -/
def runLength (p : BOARD_T) (x y vx vy : Int) : Nat := runLengthLoop p vx vy 9 0 x y

/-- Number of stones that a placement on `(x, y)` flips in the directions of the list. -/
def flipsIn (p : BOARD_T) (x y : Int) (ds : List (Int × Int)) : Nat :=
  (ds.map (fun v => runLength p x y v.1 v.2)).sum

/-- A position in which a black stone on (2,0) flips a white stone on either side: black on
(0,0) and (4,0), white on (1,0) and (3,0), black to move. -/
def twoRunBoard : BOARD_T :=
  boardOfRows [17, 0, 0, 0, 0, 0, 0, 0] [10, 0, 0, 0, 0, 0, 0, 0] false

/-! ## The human move in `handlePlaying` -/

/-- The game state, `enum STATE_T`. -/
inductive STATE_T where
  | STATE_INIT
  | STATE_PLAYING
  | STATE_ANIMATION
  | STATE_MENU
  | STATE_OVER
  | STATE_LEAVE
  deriving DecidableEq, Repr

/-- The globals that the human-move branch of `handlePlaying` reads and writes: `board`,
`cursorPos` and `state`. -/
structure PLAY_T where
  board : BOARD_T
  cursorPos : POS_T
  state : STATE_T

/-- The update `cursorPos.x += padX` of a 3-bit bit-field: the sum is stored modulo 8. -/
def stepCursor (v : Nat) (pad : Int) : Nat := (((v : Int) + pad) % 8).toNat

/-- The cursor after `if (padX != 0 || padY != 0) { cursorPos.x += padX; cursorPos.y += padY; }`. -/
def moveCursor (cursorPos : POS_T) (padX padY : Int) : POS_T :=
  if padX ≠ 0 ∨ padY ≠ 0 then
    POS_T.mk (stepCursor cursorPos.x padX) (stepCursor cursorPos.y padY)
  else cursorPos

/-- The last branch of `handlePlaying`, taken for a human move. The values `padX` and `padY`
left by `handleDPad()` and the result `bDown` of `arduboy.buttonDown(B_BUTTON)` come from
`common.h` and are inputs. The cursor moves first; on a B press the test
`empties & board.flag[cursorPos.y] & 1 << cursorPos.x` decides whether `placeStone` is called
and `state` becomes `STATE_ANIMATION`. -/
def humanMove (g : PLAY_T) (padX padY : Int) (bDown : Bool) : PLAY_T :=
  let cursorPos := moveCursor g.cursorPos padX padY
  if bDown then
    let empties := not8 (g.board.black cursorPos.y ||| g.board.white cursorPos.y)
    if ((empties &&& g.board.flag cursorPos.y) &&& bitOf cursorPos.x) != 0 then
      { board := placeStone g.board cursorPos.x cursorPos.y, cursorPos := cursorPos,
        state := STATE_T.STATE_ANIMATION }
    else { g with cursorPos := cursorPos }
  else { g with cursorPos := cursorPos }

/-! ## Bit-level and scan lemmas -/

theorem and_bitOf_ne_zero (v : Nat) (x : Int) :
    ((v &&& bitOf x) != 0) = v.testBit x.toNat := by
  unfold bitOf
  rw [Nat.one_shiftLeft, Nat.and_two_pow]
  cases v.testBit x.toNat <;> simp

theorem testBit_bitOf (x : Int) (i : Nat) : (bitOf x).testBit i = decide (x.toNat = i) := by
  unfold bitOf
  rw [Nat.one_shiftLeft, Nat.testBit_two_pow]

theorem testBit_not8 (v i : Nat) : (not8 v).testBit i = (decide (i < 8) && !v.testBit i) := by
  unfold not8
  have h255 : (255 : Nat) = 2 ^ 8 - 1 := by norm_num
  have h256 : (256 : Nat) = 2 ^ 8 := by norm_num
  rw [h256, Nat.testBit_mod_two_pow, Nat.testBit_xor, h255, Nat.testBit_two_pow_sub_one]
  by_cases h : i < 8 <;> simp [h]

theorem isBlackAt_eq (p : BOARD_T) (x y : Int) :
    isBlackAt p x y = (p.black y.toNat).testBit x.toNat := and_bitOf_ne_zero _ _

theorem isWhiteAt_eq (p : BOARD_T) (x y : Int) :
    isWhiteAt p x y = (p.white y.toNat).testBit x.toNat := and_bitOf_ne_zero _ _

theorem isFlagAt_eq (p : BOARD_T) (x y : Int) :
    isFlagAt p x y = (p.flag y.toNat).testBit x.toNat := and_bitOf_ne_zero _ _

theorem offBoard_eq_false_iff (x y : Int) : offBoard x y = false ↔ OnBoard x y := by
  unfold offBoard OnBoard BOARD_W BOARD_H
  simp only [Bool.or_eq_false_iff, decide_eq_false_iff_not]
  omega

theorem offBoard_eq_true_iff (x y : Int) : offBoard x y = true ↔ ¬ OnBoard x y := by
  rw [← offBoard_eq_false_iff]; simp

/-- On a board with disjoint masks no on-board cell is both black and white. -/
theorem not_both (p : BOARD_T) (hd : DisjointMasks p) (x y : Int) (hb : OnBoard x y) :
    ¬ (isBlackAt p x y = true ∧ isWhiteAt p x y = true) := by
  rintro ⟨h1, h2⟩
  rw [isBlackAt_eq] at h1
  rw [isWhiteAt_eq] at h2
  have hy : y.toNat < 8 := by unfold OnBoard at hb; omega
  have h := hd y.toNat hy
  have h3 : (p.black y.toNat &&& p.white y.toNat).testBit x.toNat = true := by
    rw [Nat.testBit_and, h1, h2]; rfl
  rw [h] at h3
  simp at h3

/-- The terminator test of `isReversible` on a board with disjoint masks. -/
theorem own_iff (p : BOARD_T) (hd : DisjointMasks p) (x y : Int) (hb : OnBoard x y) :
    ((!isBlackAt p x y && !isWhiteAt p x y) = false ∧ (isWhiteAt p x y == p.isWhiteTurn) = true)
      ↔ ownAt p x y = true := by
  have h := not_both p hd x y hb
  unfold ownAt
  cases hB : isBlackAt p x y <;> cases hW : isWhiteAt p x y <;> cases hT : p.isWhiteTurn <;>
    simp_all

theorem opp_iff (p : BOARD_T) (hd : DisjointMasks p) (x y : Int) (hb : OnBoard x y) :
    ((!isBlackAt p x y && !isWhiteAt p x y) = false ∧ (isWhiteAt p x y == p.isWhiteTurn) = false)
      ↔ oppAt p x y = true := by
  have h := not_both p hd x y hb
  unfold oppAt
  cases hB : isBlackAt p x y <;> cases hW : isWhiteAt p x y <;> cases hT : p.isWhiteTurn <;>
    simp_all

/-- The scan of `isReversible` never runs out of fuel from an on-board position. -/
theorem isReversibleLoop_isSome (p : BOARD_T) (vx vy : Int) (act : Bool) (hv : UnitDir vx vy) :
    ∀ (fuel s : Nat) (x y : Int), OnBoard x y →
      (if vx = 1 then 7 - x else if vx = -1 then x else if vy = 1 then 7 - y else y) < fuel →
      (isReversibleLoop vx vy act fuel p s x y).isSome = true := by
  intro fuel
  induction fuel with
  | zero => intro s x y hb h; unfold OnBoard at hb; unfold UnitDir at hv; split_ifs at h <;> omega
  | succ n ih =>
    intro s x y hb h
    unfold isReversibleLoop
    simp only
    by_cases ho : offBoard (x + vx) (y + vy) = true
    · simp [ho]
    · have ho2 : offBoard (x + vx) (y + vy) = false := by simpa using ho
      have hb2 := (offBoard_eq_false_iff _ _).1 ho2
      simp only [ho2]
      have key : (isReversibleLoop vx vy act n p (s + 1) (x + vx) (y + vy)).isSome = true := by
        apply ih _ _ _ hb2
        unfold OnBoard at hb hb2; unfold UnitDir at hv
        split_ifs at h ⊢ <;> omega
      split_ifs <;> first | rfl | exact key


/-- Closed form of `Run`. -/
theorem run_iff (p : BOARD_T) (vx vy : Int) :
    ∀ (n : Nat) (x y : Int), Run p vx vy n x y ↔
      ((∀ k : Nat, 1 ≤ k → k ≤ n →
        OnBoard (x + k * vx) (y + k * vy) ∧ oppAt p (x + k * vx) (y + k * vy) = true) ∧
      OnBoard (x + (n + 1 : Nat) * vx) (y + (n + 1 : Nat) * vy) ∧
      ownAt p (x + (n + 1 : Nat) * vx) (y + (n + 1 : Nat) * vy) = true) := by
  intro n
  induction n with
  | zero =>
    intro x y
    simp only [Run, Nat.zero_add, Nat.cast_one, one_mul]
    constructor
    · intro h
      exact ⟨fun k h1 h2 => by omega, h⟩
    · intro h
      exact h.2
  | succ n ih =>
    intro x y
    have e : ∀ (k : Nat) (a v : Int), a + v + (k : Int) * v = a + ((k + 1 : Nat) : Int) * v := by
      intro k a v; push_cast; ring
    simp only [Run, ih]
    constructor
    · rintro ⟨hb, ho, hk, hl⟩
      refine ⟨?_, ?_⟩
      · intro k h1 h2
        obtain ⟨j, rfl⟩ : ∃ j, k = j + 1 := ⟨k - 1, by omega⟩
        by_cases hj : j = 0
        · subst hj
          simpa using ⟨hb, ho⟩
        · have := hk j (by omega) (by omega)
          rw [e, e] at this
          exact this
      · rw [e, e] at hl
        exact hl
    · rintro ⟨hk, hl⟩
      have h1 := hk 1 (by omega) (by omega)
      simp only [Nat.cast_one, one_mul] at h1
      refine ⟨h1.1, h1.2, ?_, ?_⟩
      · intro k hk1 hk2
        rw [e, e]
        exact hk (k + 1) (by omega) (by omega)
      · rw [e, e]
        exact hl

theorem flipRun_iff_run (p : BOARD_T) (x y vx vy : Int) (s : Nat) :
    FlipRun p x y vx vy s ↔ (1 ≤ s ∧ Run p vx vy s x y) := by
  unfold FlipRun
  rw [run_iff]

/-- A run fits on the board: at most seven stones can be flipped in one direction. -/
theorem run_le (p : BOARD_T) (vx vy : Int) (hv : UnitDir vx vy) (n : Nat) (x y : Int)
    (h : Run p vx vy n x y) : n ≤ 7 := by
  rw [run_iff] at h
  obtain ⟨hk, hl, -⟩ := h
  by_cases hn : n = 0
  · omega
  · have h1 := (hk 1 (by omega) (by omega)).1
    unfold OnBoard at h1 hl
    unfold UnitDir at hv
    push_cast at h1 hl
    obtain ⟨a1, a2, a3, a4, a5⟩ := hv
    have hx : vx = -1 ∨ vx = 0 ∨ vx = 1 := by omega
    have hy : vy = -1 ∨ vy = 0 ∨ vy = 1 := by omega
    rcases hx with rfl | rfl | rfl <;> rcases hy with rfl | rfl | rfl <;> simp at a5 <;> omega

/-- Completeness of the scan: a run makes the loop succeed and flip it. -/
theorem isReversibleLoop_of_run (p : BOARD_T) (hd : DisjointMasks p) (vx vy : Int) (act : Bool) :
    ∀ (n fuel s : Nat) (x y : Int), Run p vx vy n x y → 1 ≤ s + n → n < fuel →
      isReversibleLoop vx vy act fuel p s x y =
        some (true, if act then
          flipBack vx vy (s + n) p (x + (n + 1 : Nat) * vx) (y + (n + 1 : Nat) * vy) else p) := by
  intro n
  induction n with
  | zero =>
    intro fuel s x y hr hs hf
    obtain ⟨f, rfl⟩ : ∃ f, fuel = f + 1 := ⟨fuel - 1, by omega⟩
    obtain ⟨hb, ho⟩ := hr
    have hoff := (offBoard_eq_false_iff _ _).2 hb
    obtain ⟨h1, h2⟩ := (own_iff p hd _ _ hb).2 ho
    have hs0 : s ≠ 0 := by omega
    unfold isReversibleLoop
    simp only [hoff, h1, h2, hs0]
    cases act <;> simp
  | succ n ih =>
    intro fuel s x y hr hs hf
    obtain ⟨f, rfl⟩ : ∃ f, fuel = f + 1 := ⟨fuel - 1, by omega⟩
    obtain ⟨hb, ho, hr2⟩ := hr
    have hoff := (offBoard_eq_false_iff _ _).2 hb
    obtain ⟨h1, h2⟩ := (opp_iff p hd _ _ hb).2 ho
    unfold isReversibleLoop
    simp only [hoff, h1, h2]
    have := ih f (s + 1) _ _ hr2 (by omega) (by omega)
    simp only [Bool.false_eq_true, if_false]
    rw [this]
    have e : ∀ (a v : Int), a + v + ((n + 1 : Nat) : Int) * v = a + ((n + 1 + 1 : Nat) : Int) * v := by
      intro a v; push_cast; ring
    rw [e, e]
    have e2 : s + 1 + n = s + (n + 1) := by omega
    rw [e2]

/-- Soundness of the scan: success means a run was found and flipped. -/
theorem isReversibleLoop_true (p : BOARD_T) (hd : DisjointMasks p) (vx vy : Int) (act : Bool) :
    ∀ (fuel s : Nat) (x y : Int) (q : BOARD_T),
      isReversibleLoop vx vy act fuel p s x y = some (true, q) →
      ∃ n, Run p vx vy n x y ∧ 1 ≤ s + n := by
  intro fuel
  induction fuel with
  | zero => intro s x y q h; simp [isReversibleLoop] at h
  | succ f ih =>
    intro s x y q h
    unfold isReversibleLoop at h
    simp only at h
    by_cases hoff : offBoard (x + vx) (y + vy) = true
    · simp [hoff] at h
    · have hoff2 : offBoard (x + vx) (y + vy) = false := by simpa using hoff
      have hb := (offBoard_eq_false_iff _ _).1 hoff2
      simp only [hoff2, Bool.false_eq_true, if_false] at h
      by_cases he : (!isBlackAt p (x + vx) (y + vy) && !isWhiteAt p (x + vx) (y + vy)) = true
      · simp [he] at h
      · have he2 : (!isBlackAt p (x + vx) (y + vy) && !isWhiteAt p (x + vx) (y + vy)) = false := by
          simpa using he
        simp only [he2, Bool.false_eq_true, if_false] at h
        by_cases ht : (isWhiteAt p (x + vx) (y + vy) == p.isWhiteTurn) = true
        · simp only [ht, if_true] at h
          by_cases hs : s = 0
          · simp [hs] at h
          · exact ⟨0, ⟨hb, (own_iff p hd _ _ hb).1 ⟨he2, ht⟩⟩, by omega⟩
        · have ht2 : (isWhiteAt p (x + vx) (y + vy) == p.isWhiteTurn) = false := by simpa using ht
          simp only [ht2, Bool.false_eq_true, if_false] at h
          obtain ⟨n, hr, hn⟩ := ih _ _ _ _ h
          exact ⟨n + 1, ⟨hb, (opp_iff p hd _ _ hb).1 ⟨he2, ht2⟩, hr⟩, by omega⟩

/-- A failed scan leaves the board as it was. -/
theorem isReversibleLoop_false (p : BOARD_T) (vx vy : Int) (act : Bool) :
    ∀ (fuel s : Nat) (x y : Int) (q : BOARD_T),
      isReversibleLoop vx vy act fuel p s x y = some (false, q) → q = p := by
  intro fuel
  induction fuel with
  | zero => intro s x y q h; simp [isReversibleLoop] at h
  | succ f ih =>
    intro s x y q h
    unfold isReversibleLoop at h
    simp only at h
    split_ifs at h
    all_goals first
      | (simp at h; exact h.symm)
      | (simp at h)
      | exact ih _ _ _ _ h


theorem toNat_eq_iff (a b : Int) (ha : 0 ≤ a) (hb : 0 ≤ b) : a.toNat = b.toNat ↔ a = b := by
  omega

/-- Cell view of `a[Y] ^= 1 << X`. -/
theorem testBit_setRow_xor (a : Nat → Nat) (X Y cx cy : Int)
    (hX : 0 ≤ X) (hY : 0 ≤ Y) (hx : 0 ≤ cx) (hy : 0 ≤ cy) :
    (setRow a Y.toNat (a Y.toNat ^^^ bitOf X) cy.toNat).testBit cx.toNat =
      xor ((a cy.toNat).testBit cx.toNat) (decide (cx = X ∧ cy = Y)) := by
  unfold setRow
  by_cases h1 : cy = Y
  · subst h1
    simp only [if_true, Nat.testBit_xor, testBit_bitOf, and_true]
    congr 1
    have := toNat_eq_iff X cx hX hx
    by_cases h2 : cx = X
    · simp [h2]
    · have h3 : ¬ X.toNat = cx.toNat := by omega
      simp [h2, h3]
  · have h2 : ¬ cy.toNat = Y.toNat := by omega
    simp [h1, h2]

/-- Cell view of `a[Y] |= 1 << X`. -/
theorem testBit_setRow_or (a : Nat → Nat) (X Y cx cy : Int)
    (hX : 0 ≤ X) (hY : 0 ≤ Y) (hx : 0 ≤ cx) (hy : 0 ≤ cy) :
    (setRow a Y.toNat (a Y.toNat ||| bitOf X) cy.toNat).testBit cx.toNat =
      ((a cy.toNat).testBit cx.toNat || decide (cx = X ∧ cy = Y)) := by
  unfold setRow
  by_cases h1 : cy = Y
  · subst h1
    simp only [if_true, Nat.testBit_or, testBit_bitOf, and_true]
    congr 1
    by_cases h2 : cx = X
    · simp [h2]
    · have h3 : ¬ X.toNat = cx.toNat := by omega
      simp [h2, h3]
  · have h2 : ¬ cy.toNat = Y.toNat := by omega
    simp [h1, h2]

/-- Cell view of `a[Y] &= ~(1 << X)`. -/
theorem testBit_setRow_andNot (a : Nat → Nat) (X Y cx cy : Int)
    (hX : 0 ≤ X) (hY : 0 ≤ Y) (hx : 0 ≤ cx) (hx8 : cx < 8) (hy : 0 ≤ cy) :
    (setRow a Y.toNat (a Y.toNat &&& not8 (bitOf X)) cy.toNat).testBit cx.toNat =
      ((a cy.toNat).testBit cx.toNat && !decide (cx = X ∧ cy = Y)) := by
  unfold setRow
  have h8 : cx.toNat < 8 := by omega
  by_cases h1 : cy = Y
  · subst h1
    simp only [if_true, Nat.testBit_and, testBit_not8, testBit_bitOf, and_true, h8, decide_True,
      Bool.true_and]
    congr 1
    by_cases h2 : cx = X
    · simp [h2]
    · have h3 : ¬ X.toNat = cx.toNat := by omega
      simp [h2, h3]
  · have h2 : ¬ cy.toNat = Y.toNat := by omega
    simp [h1, h2]

/-- The fields that `flipBack` does not touch. -/
theorem flipBack_fields (vx vy : Int) :
    ∀ (m : Nat) (p : BOARD_T) (X Y : Int),
      (flipBack vx vy m p X Y).flag = p.flag ∧
      (flipBack vx vy m p X Y).isWhiteTurn = p.isWhiteTurn ∧
      (flipBack vx vy m p X Y).isLastPassed = p.isLastPassed ∧
      (flipBack vx vy m p X Y).numStones = p.numStones ∧
      (flipBack vx vy m p X Y).numBlack = p.numBlack ∧
      (flipBack vx vy m p X Y).numWhite = p.numWhite ∧
      (flipBack vx vy m p X Y).numFixedBlack = p.numFixedBlack ∧
      (flipBack vx vy m p X Y).numFixedWhite = p.numFixedWhite ∧
      (flipBack vx vy m p X Y).numPlaceable = p.numPlaceable := by
  intro m
  induction m with
  | zero => intro p X Y; simp [flipBack]
  | succ m ih =>
    intro p X Y
    unfold flipBack
    simp only
    have := ih { p with
      black := setRow p.black (Y - vy).toNat (p.black (Y - vy).toNat ^^^ bitOf (X - vx)),
      white := setRow p.white (Y - vy).toNat (p.white (Y - vy).toNat ^^^ bitOf (X - vx)) }
      (X - vx) (Y - vy)
    simpa using this

/-- Cell view of `flipBack`: the `m` cells behind `(X, Y)` change colour, nothing else does. -/
theorem flipBack_cells (vx vy : Int) (hv : UnitDir vx vy) :
    ∀ (m : Nat) (p : BOARD_T) (X Y : Int),
      (∀ k : Nat, 1 ≤ k → k ≤ m → 0 ≤ X - k * vx ∧ 0 ≤ Y - k * vy) →
      ∀ cx cy : Int, 0 ≤ cx → 0 ≤ cy →
        ((∃ k : Nat, 1 ≤ k ∧ k ≤ m ∧ cx = X - k * vx ∧ cy = Y - k * vy) →
          isBlackAt (flipBack vx vy m p X Y) cx cy = !isBlackAt p cx cy ∧
          isWhiteAt (flipBack vx vy m p X Y) cx cy = !isWhiteAt p cx cy) ∧
        ((¬ ∃ k : Nat, 1 ≤ k ∧ k ≤ m ∧ cx = X - k * vx ∧ cy = Y - k * vy) →
          isBlackAt (flipBack vx vy m p X Y) cx cy = isBlackAt p cx cy ∧
          isWhiteAt (flipBack vx vy m p X Y) cx cy = isWhiteAt p cx cy) := by
  intro m
  induction m with
  | zero =>
    intro p X Y _ cx cy _ _
    constructor
    · rintro ⟨k, h1, h2, -⟩; omega
    · intro _; simp [flipBack]
  | succ m ih =>
    intro p X Y hpos cx cy hx hy
    have h1 := hpos 1 (by omega) (by omega)
    simp only [Nat.cast_one, one_mul] at h1
    unfold flipBack
    simp only
    set p1 : BOARD_T := { p with
      black := setRow p.black (Y - vy).toNat (p.black (Y - vy).toNat ^^^ bitOf (X - vx)),
      white := setRow p.white (Y - vy).toNat (p.white (Y - vy).toNat ^^^ bitOf (X - vx)) } with hp1
    have e : ∀ (k : Nat) (a v : Int), a - v - (k : Int) * v = a - ((k + 1 : Nat) : Int) * v := by
      intro k a v; push_cast; ring
    have hpos' : ∀ k : Nat, 1 ≤ k → k ≤ m → 0 ≤ X - vx - k * vx ∧ 0 ≤ Y - vy - k * vy := by
      intro k hk1 hk2
      rw [e, e]
      exact hpos (k + 1) (by omega) (by omega)
    have hB : isBlackAt p1 cx cy = xor (isBlackAt p cx cy) (decide (cx = X - vx ∧ cy = Y - vy)) := by
      rw [isBlackAt_eq, isBlackAt_eq]
      exact testBit_setRow_xor p.black _ _ cx cy h1.1 h1.2 hx hy
    have hW : isWhiteAt p1 cx cy = xor (isWhiteAt p cx cy) (decide (cx = X - vx ∧ cy = Y - vy)) := by
      rw [isWhiteAt_eq, isWhiteAt_eq]
      exact testBit_setRow_xor p.white _ _ cx cy h1.1 h1.2 hx hy
    obtain ⟨ih1, ih2⟩ := ih p1 (X - vx) (Y - vy) hpos' cx cy hx hy
    by_cases hfirst : cx = X - vx ∧ cy = Y - vy
    · -- the cell flipped by this iteration
      have hrest : ¬ ∃ k : Nat, 1 ≤ k ∧ k ≤ m ∧ cx = X - vx - k * vx ∧ cy = Y - vy - k * vy := by
        rintro ⟨k, hk1, hk2, hk3, hk4⟩
        obtain ⟨a1, a2, a3, a4, a5⟩ := hv
        have hk0 : (1 : Int) ≤ k := by exact_mod_cast hk1
        rcases a5 with a5 | a5
        · have : (k : Int) * vx = 0 := by omega
          rcases mul_eq_zero.1 this with h | h <;> omega
        · have : (k : Int) * vy = 0 := by omega
          rcases mul_eq_zero.1 this with h | h <;> omega
      have := ih2 hrest
      constructor
      · intro _
        rw [this.1, this.2, hB, hW]
        simp [hfirst]
      · intro hne
        exact absurd ⟨1, by omega, by omega, by simpa using hfirst⟩ hne
    · have hB' : isBlackAt p1 cx cy = isBlackAt p cx cy := by rw [hB]; simp [hfirst]
      have hW' : isWhiteAt p1 cx cy = isWhiteAt p cx cy := by rw [hW]; simp [hfirst]
      constructor
      · rintro ⟨k, hk1, hk2, hk3, hk4⟩
        obtain ⟨j, rfl⟩ : ∃ j, k = j + 1 := ⟨k - 1, by omega⟩
        have hj : 1 ≤ j := by
          by_contra hj
          have : j = 0 := by omega
          subst this
          simp only [Nat.zero_add, Nat.cast_one, one_mul] at hk3 hk4
          exact hfirst ⟨hk3, hk4⟩
        have := ih1 ⟨j, hj, by omega, by rw [e]; exact hk3, by rw [e]; exact hk4⟩
        rw [this.1, this.2, hB', hW']
        exact ⟨rfl, rfl⟩
      · intro hne
        have hrest : ¬ ∃ k : Nat, 1 ≤ k ∧ k ≤ m ∧ cx = X - vx - k * vx ∧ cy = Y - vy - k * vy := by
          rintro ⟨k, hk1, hk2, hk3, hk4⟩
          exact hne ⟨k + 1, by omega, by omega, by rw [← e]; exact hk3, by rw [← e]; exact hk4⟩
        have := ih2 hrest
        rw [this.1, this.2, hB', hW']
        exact ⟨rfl, rfl⟩


/-- With nine units of fuel the scan of `isReversible` always returns. -/
theorem isReversibleLoop_nine (p : BOARD_T) (vx vy : Int) (act : Bool) (hv : UnitDir vx vy)
    (x y : Int) : (isReversibleLoop vx vy act 9 p 0 x y).isSome = true := by
  unfold isReversibleLoop
  simp only
  by_cases ho : offBoard (x + vx) (y + vy) = true
  · simp [ho]
  · have ho2 : offBoard (x + vx) (y + vy) = false := by simpa using ho
    have hb2 := (offBoard_eq_false_iff _ _).1 ho2
    have key : (isReversibleLoop vx vy act 8 p (0 + 1) (x + vx) (y + vy)).isSome = true := by
      apply isReversibleLoop_isSome p vx vy act hv _ _ _ _ hb2
      unfold OnBoard at hb2; unfold UnitDir at hv
      split_ifs <;> omega
    simp only [ho2]
    split_ifs <;> first | rfl | exact key

/-- Function `isReversible` returns for each of the eight directions: its loop never uses up
the fuel. -/
theorem isReversible_isSome (p : BOARD_T) (x y : Int) (act : Bool) :
    ∀ v ∈ directions, (isReversibleLoop v.1 v.2 act 9 p 0 x y).isSome = true := by
  intro v hv
  apply isReversibleLoop_nine
  simp only [directions, List.mem_cons, List.mem_singleton, List.mem_nil_iff, or_false] at hv
  rcases hv with rfl | rfl | rfl | rfl | rfl | rfl | rfl | rfl <;> (unfold UnitDir; decide)

theorem isReversible_of_flipRun (p : BOARD_T) (hd : DisjointMasks p) (x y vx vy : Int)
    (hv : UnitDir vx vy) (act : Bool) (s : Nat) (h : FlipRun p x y vx vy s) :
    isReversible p x y vx vy act =
      (true, if act then
        flipBack vx vy s p (x + (s + 1 : Nat) * vx) (y + (s + 1 : Nat) * vy) else p) := by
  obtain ⟨h1, hr⟩ := (flipRun_iff_run p x y vx vy s).1 h
  have hle := run_le p vx vy hv s x y hr
  unfold isReversible
  rw [isReversibleLoop_of_run p hd vx vy act s 9 0 x y hr (by omega) (by omega)]
  simp

theorem isReversible_of_not_flippable (p : BOARD_T) (hd : DisjointMasks p) (x y vx vy : Int)
    (hv : UnitDir vx vy) (act : Bool) (h : ¬ Flippable p x y vx vy) :
    isReversible p x y vx vy act = (false, p) := by
  have hs := isReversibleLoop_nine p vx vy act hv x y
  unfold isReversible
  cases hl : isReversibleLoop vx vy act 9 p 0 x y with
  | none => simp [hl] at hs
  | some r =>
    obtain ⟨b, q⟩ := r
    cases b with
    | false =>
      have := isReversibleLoop_false p vx vy act _ _ _ _ _ hl
      simp [this]
    | true =>
      obtain ⟨n, hr, hn⟩ := isReversibleLoop_true p hd vx vy act _ _ _ _ _ hl
      exact absurd ⟨n, (flipRun_iff_run p x y vx vy n).2 ⟨by omega, hr⟩⟩ h

/-- The result of `isReversible` is the flip condition of its direction. -/
theorem isReversible_fst (p : BOARD_T) (hd : DisjointMasks p) (x y vx vy : Int)
    (hv : UnitDir vx vy) (act : Bool) :
    (isReversible p x y vx vy act).1 = true ↔ Flippable p x y vx vy := by
  constructor
  · intro h
    by_contra hn
    rw [isReversible_of_not_flippable p hd x y vx vy hv act hn] at h
    simp at h
  · rintro ⟨s, hs⟩
    rw [isReversible_of_flipRun p hd x y vx vy hv act s hs]

/-- In probe mode `isReversible` leaves the board as it was. -/
theorem isReversible_probe (p : BOARD_T) (hd : DisjointMasks p) (x y vx vy : Int)
    (hv : UnitDir vx vy) : (isReversible p x y vx vy false).2 = p := by
  by_cases h : Flippable p x y vx vy
  · obtain ⟨s, hs⟩ := h
    rw [isReversible_of_flipRun p hd x y vx vy hv false s hs]
    simp
  · rw [isReversible_of_not_flippable p hd x y vx vy hv false h]

/-- The fields that `isReversible` does not touch. -/
theorem isReversible_fields (p : BOARD_T) (hd : DisjointMasks p) (x y vx vy : Int)
    (hv : UnitDir vx vy) (act : Bool) :
    (isReversible p x y vx vy act).2.flag = p.flag ∧
    (isReversible p x y vx vy act).2.isWhiteTurn = p.isWhiteTurn ∧
    (isReversible p x y vx vy act).2.isLastPassed = p.isLastPassed ∧
    (isReversible p x y vx vy act).2.numStones = p.numStones ∧
    (isReversible p x y vx vy act).2.numBlack = p.numBlack ∧
    (isReversible p x y vx vy act).2.numWhite = p.numWhite ∧
    (isReversible p x y vx vy act).2.numFixedBlack = p.numFixedBlack ∧
    (isReversible p x y vx vy act).2.numFixedWhite = p.numFixedWhite ∧
    (isReversible p x y vx vy act).2.numPlaceable = p.numPlaceable := by
  by_cases h : Flippable p x y vx vy
  · obtain ⟨s, hs⟩ := h
    rw [isReversible_of_flipRun p hd x y vx vy hv act s hs]
    cases act
    · simp
    · simpa using flipBack_fields vx vy s p _ _
  · rw [isReversible_of_not_flippable p hd x y vx vy hv act h]
    simp

/-- Cell view of `isReversible` in placing mode: exactly the run of its direction changes
colour. -/
theorem isReversible_cells (p : BOARD_T) (hd : DisjointMasks p) (x y vx vy : Int)
    (hv : UnitDir vx vy) (cx cy : Int) (hx : 0 ≤ cx) (hy : 0 ≤ cy) :
    (OnRun p x y vx vy cx cy →
      isBlackAt (isReversible p x y vx vy true).2 cx cy = !isBlackAt p cx cy ∧
      isWhiteAt (isReversible p x y vx vy true).2 cx cy = !isWhiteAt p cx cy) ∧
    (¬ OnRun p x y vx vy cx cy →
      isBlackAt (isReversible p x y vx vy true).2 cx cy = isBlackAt p cx cy ∧
      isWhiteAt (isReversible p x y vx vy true).2 cx cy = isWhiteAt p cx cy) := by
  have e : ∀ (s k : Nat) (a v : Int), k ≤ s →
      a + ((s + 1 : Nat) : Int) * v - ((s + 1 - k : Nat) : Int) * v = a + (k : Int) * v := by
    intro s k a v hk
    have : ((s + 1 - k : Nat) : Int) = (s : Int) + 1 - k := by omega
    rw [this]; push_cast; ring
  have key : ∀ s, FlipRun p x y vx vy s →
      ((∃ k : Nat, 1 ≤ k ∧ k ≤ s ∧ cx = x + k * vx ∧ cy = y + k * vy) ↔
        ∃ k : Nat, 1 ≤ k ∧ k ≤ s ∧ cx = x + (s + 1 : Nat) * vx - k * vx ∧
          cy = y + (s + 1 : Nat) * vy - k * vy) := by
    intro s _
    constructor
    · rintro ⟨k, h1, h2, h3, h4⟩
      refine ⟨s + 1 - k, by omega, by omega, ?_, ?_⟩
      · have := e s (s + 1 - k) x vx (by omega)
        have h5 : s + 1 - (s + 1 - k) = k := by omega
        rw [h5] at this
        omega
      · have := e s (s + 1 - k) y vy (by omega)
        have h5 : s + 1 - (s + 1 - k) = k := by omega
        rw [h5] at this
        omega
    · rintro ⟨k, h1, h2, h3, h4⟩
      refine ⟨s + 1 - k, by omega, by omega, ?_, ?_⟩
      · have := e s k x vx h2
        omega
      · have := e s k y vy h2
        omega
  have hpos : ∀ s, FlipRun p x y vx vy s → ∀ k : Nat, 1 ≤ k → k ≤ s →
      0 ≤ x + (s + 1 : Nat) * vx - k * vx ∧ 0 ≤ y + (s + 1 : Nat) * vy - k * vy := by
    intro s hs k h1 h2
    have h3 := (hs.2.1 (s + 1 - k) (by omega) (by omega)).1
    unfold OnBoard at h3
    have e1 := e s (s + 1 - k) x vx (by omega)
    have e2 := e s (s + 1 - k) y vy (by omega)
    have h5 : s + 1 - (s + 1 - k) = k := by omega
    rw [h5] at e1 e2
    omega
  constructor
  · rintro ⟨s, k, hs, h1, h2, h3, h4⟩
    rw [isReversible_of_flipRun p hd x y vx vy hv true s hs]
    simp only [if_true]
    exact (flipBack_cells vx vy hv s p _ _ (hpos s hs) cx cy hx hy).1
      ((key s hs).1 ⟨k, h1, h2, h3, h4⟩)
  · intro hn
    by_cases h : Flippable p x y vx vy
    · obtain ⟨s, hs⟩ := h
      rw [isReversible_of_flipRun p hd x y vx vy hv true s hs]
      simp only [if_true]
      apply (flipBack_cells vx vy hv s p _ _ (hpos s hs) cx cy hx hy).2
      intro hk
      obtain ⟨k, h1, h2, h3, h4⟩ := (key s hs).2 hk
      exact hn ⟨s, k, hs, h1, h2, h3, h4⟩
    · rw [isReversible_of_not_flippable p hd x y vx vy hv true h]
      exact ⟨rfl, rfl⟩


/-! ## Probe mode, `analyzeBoard` and the frame of `checkFixedStones` -/

theorem analyzeBoard_eq (p : BOARD_T) : analyzeBoard p = checkFixedStones (analyzeScan p) := rfl

theorem directions_unit : ∀ v ∈ directions, UnitDir v.1 v.2 := by
  intro v hv
  simp only [directions, List.mem_cons, List.mem_singleton, List.mem_nil_iff, or_false] at hv
  rcases hv with rfl | rfl | rfl | rfl | rfl | rfl | rfl | rfl <;> (unfold UnitDir; decide)

/-- The flip condition reads only the two stone masks and the turn. -/
theorem flipRun_congr (p q : BOARD_T) (hb : p.black = q.black) (hw : p.white = q.white)
    (ht : p.isWhiteTurn = q.isWhiteTurn) (x y vx vy : Int) (s : Nat) :
    FlipRun p x y vx vy s ↔ FlipRun q x y vx vy s := by
  simp only [FlipRun, oppAt, ownAt, isBlackAt, isWhiteAt, hb, hw, ht]

theorem flippable_congr (p q : BOARD_T) (hb : p.black = q.black) (hw : p.white = q.white)
    (ht : p.isWhiteTurn = q.isWhiteTurn) (x y vx vy : Int) :
    Flippable p x y vx vy ↔ Flippable q x y vx vy := by
  unfold Flippable
  exact exists_congr (fun s => flipRun_congr p q hb hw ht x y vx vy s)

theorem disjointMasks_congr (p q : BOARD_T) (hb : p.black = q.black) (hw : p.white = q.white)
    (hd : DisjointMasks p) : DisjointMasks q := by
  unfold DisjointMasks at hd ⊢
  rw [← hb, ← hw]
  exact hd

/-- The direction loop of `isPlaceable` in probe mode. -/
theorem isPlaceableLoop_probe (p : BOARD_T) (hd : DisjointMasks p) (x y : Int) :
    ∀ (ds : List (Int × Int)) (ret : Bool), (∀ v ∈ ds, UnitDir v.1 v.2) →
      (isPlaceableLoop x y false ds ret p).2 = p ∧
      ((isPlaceableLoop x y false ds ret p).1 = true ↔
        (ret = true ∨ ∃ v ∈ ds, Flippable p x y v.1 v.2)) := by
  intro ds
  induction ds with
  | nil => intro ret _; simp [isPlaceableLoop]
  | cons v ds ih =>
    intro ret hu
    obtain ⟨vx, vy⟩ := v
    have hv : UnitDir vx vy := hu (vx, vy) (List.mem_cons_self _ _)
    have hu' : ∀ v ∈ ds, UnitDir v.1 v.2 := fun v h => hu v (List.mem_cons_of_mem _ h)
    have h2 := isReversible_probe p hd x y vx vy hv
    have h1 := isReversible_fst p hd x y vx vy hv false
    unfold isPlaceableLoop
    simp only [h2]
    by_cases hr : (isReversible p x y vx vy false).1 = true
    · simp only [hr, if_true, Bool.not_false]
      refine ⟨by simp, ?_⟩
      simp only [true_iff]
      exact Or.inr ⟨(vx, vy), List.mem_cons_self _ _, h1.1 hr⟩
    · have hr2 : (isReversible p x y vx vy false).1 = false := by simpa using hr
      simp only [hr2, Bool.false_eq_true, if_false]
      have hnf : ¬ Flippable p x y vx vy := fun h => hr (h1.2 h)
      refine ⟨(ih ret hu').1, ?_⟩
      rw [(ih ret hu').2]
      constructor
      · rintro (h | ⟨w, hw, hf⟩)
        · exact Or.inl h
        · exact Or.inr ⟨w, List.mem_cons_of_mem _ hw, hf⟩
      · rintro (h | ⟨w, hw, hf⟩)
        · exact Or.inl h
        · rcases List.mem_cons.1 hw with rfl | hw
          · exact absurd hf hnf
          · exact Or.inr ⟨w, hw, hf⟩

/-- Probe mode of `isPlaceable`: the board is left as it was and the result says whether
some direction satisfies the flip condition. -/
theorem isPlaceable_probe (p : BOARD_T) (hd : DisjointMasks p) (x y : Int) :
    (isPlaceable p x y false).2 = p ∧
    ((isPlaceable p x y false).1 = true ↔ ∃ v ∈ directions, Flippable p x y v.1 v.2) := by
  have h := isPlaceableLoop_probe p hd x y directions false directions_unit
  unfold isPlaceable
  simp only [Bool.false_eq_true, if_false]
  refine ⟨h.1, ?_⟩
  rw [h.2]
  simp

theorem isPlaceable_probe_congr (p q : BOARD_T) (hd : DisjointMasks p) (hb : p.black = q.black)
    (hw : p.white = q.white) (ht : p.isWhiteTurn = q.isWhiteTurn) (x y : Int) :
    (isPlaceable p x y false).1 = (isPlaceable q x y false).1 := by
  have hq := disjointMasks_congr p q hb hw hd
  rw [Bool.eq_iff_iff, (isPlaceable_probe p hd x y).2, (isPlaceable_probe q hq x y).2]
  exact exists_congr (fun v => and_congr Iff.rfl (flippable_congr p q hb hw ht x y v.1 v.2))

/-- Bit view of the column loop of `analyzeBoard`. -/
theorem analyzeCell_fold (p : BOARD_T) (y : Int) (black white : Nat) :
    ∀ (l : List Nat) (flag : Nat) (i : Nat), i < 8 →
      ((l.foldl (analyzeCell p y black white) flag).testBit i =
        if i ∈ l ∧ (black ||| white).testBit i = false then (isPlaceable p i y false).1
        else flag.testBit i) := by
  intro l
  induction l with
  | nil => intro flag i _; simp
  | cons x l ih =>
    intro flag i hi
    rw [List.foldl_cons, ih _ i hi]
    have hstep : (analyzeCell p y black white flag x).testBit i =
        if i = x ∧ (black ||| white).testBit i = false then (isPlaceable p i y false).1
        else flag.testBit i := by
      unfold analyzeCell
      simp only [and_bitOf_ne_zero, testBit_not8, Int.toNat_ofNat]
      by_cases hix : i = x
      · subst hix
        simp only [hi, decide_True, Bool.true_and, true_and]
        by_cases ho : (black ||| white).testBit i = false
        · simp only [ho, Bool.not_false, if_true]
          by_cases hp : (isPlaceable p i y false).1 = true
          · simp [hp, testBit_bitOf]
          · have hp2 : (isPlaceable p i y false).1 = false := by simpa using hp
            simp [hp2, testBit_bitOf, testBit_not8]
        · have ho2 : (black ||| white).testBit i = true := by
            cases hh : (black ||| white).testBit i
            · exact absurd hh ho
            · rfl
          simp only [ho2, Bool.not_true, Bool.false_eq_true, if_false]
          simp
      · simp only [hix, false_and, if_false]
        have hne : ¬ x = i := fun h => hix h.symm
        split_ifs <;> simp [testBit_bitOf, testBit_not8, hne, hi]
    rw [hstep]
    simp only [List.mem_cons]
    split_ifs <;> first | rfl | (exfalso; tauto)


/-- An invariant of the loop body is an invariant of the loop. -/
theorem foldl_invariant {α β : Type} (P : β → Prop) (f : β → α → β)
    (h : ∀ b a, P b → P (f b a)) : ∀ (l : List α) (b : β), P b → P (l.foldl f b) := by
  intro l
  induction l with
  | nil => intro b hb; exact hb
  | cons a l ih => intro b hb; exact ih _ (h b a hb)

/-- What one row of `analyzeBoard` leaves untouched, and the flag row it writes. -/
theorem analyzeRow_frame (p : BOARD_T) (y : Nat) :
    (analyzeRow p y).black = p.black ∧ (analyzeRow p y).white = p.white ∧
    (analyzeRow p y).isWhiteTurn = p.isWhiteTurn ∧
    (analyzeRow p y).isLastPassed = p.isLastPassed ∧
    (analyzeRow p y).numStones = p.numStones ∧
    (analyzeRow p y).numFixedBlack = p.numFixedBlack ∧
    (analyzeRow p y).numFixedWhite = p.numFixedWhite := by
  simp [analyzeRow]

theorem analyzeRow_flag (p : BOARD_T) (hd : DisjointMasks p) (y r i : Nat) (hi : i < 8) :
    ((analyzeRow p y).flag r).testBit i =
      if r = y ∧ (p.black r ||| p.white r).testBit i = false then (isPlaceable p i r false).1
      else (p.flag r).testBit i := by
  unfold analyzeRow
  simp only [setRow]
  by_cases hr : r = y
  · subst hr
    simp only [if_true, true_and]
    have key : ∀ q : BOARD_T, q.black = p.black → q.white = p.white →
        q.isWhiteTurn = p.isWhiteTurn →
        (isPlaceable q i r false).1 = (isPlaceable p i r false).1 :=
      fun q a b c => (isPlaceable_probe_congr p q hd a.symm b.symm c.symm i r).symm
    rw [analyzeCell_fold _ _ _ _ _ _ _ hi]
    simp only [List.mem_range, hi, true_and]
    split_ifs
    · exact key _ rfl rfl rfl
    · rfl
  · simp [hr]

/-- The row loop of `analyzeBoard`: masks and turn are kept, and the flag bit of every
empty cell of a visited row says whether the cell is placeable. -/
theorem analyzeRow_fold (p0 : BOARD_T) (hd : DisjointMasks p0) :
    ∀ (l : List Nat) (p : BOARD_T), p.black = p0.black → p.white = p0.white →
      p.isWhiteTurn = p0.isWhiteTurn →
      ((l.foldl analyzeRow p).black = p0.black ∧ (l.foldl analyzeRow p).white = p0.white ∧
      (l.foldl analyzeRow p).isWhiteTurn = p0.isWhiteTurn ∧
      (l.foldl analyzeRow p).isLastPassed = p.isLastPassed ∧
      (l.foldl analyzeRow p).numStones = p.numStones ∧
      (l.foldl analyzeRow p).numFixedBlack = p.numFixedBlack ∧
      (l.foldl analyzeRow p).numFixedWhite = p.numFixedWhite ∧
      ∀ r i : Nat, i < 8 → ((l.foldl analyzeRow p).flag r).testBit i =
        if r ∈ l ∧ (p0.black r ||| p0.white r).testBit i = false then
          (isPlaceable p0 i r false).1
        else (p.flag r).testBit i) := by
  intro l
  induction l with
  | nil => intro p hb hw ht; simp [hb, hw, ht]
  | cons y l ih =>
    intro p hb hw ht
    obtain ⟨f1, f2, f3, f4, f5, f6, f7⟩ := analyzeRow_frame p y
    have hdp : DisjointMasks p := disjointMasks_congr p0 p hb.symm hw.symm hd
    obtain ⟨g1, g2, g3, g4, g5, g6, g7, g8⟩ :=
      ih (analyzeRow p y) (f1.trans hb) (f2.trans hw) (f3.trans ht)
    rw [List.foldl_cons]
    refine ⟨g1, g2, g3, g4.trans f4, g5.trans f5, g6.trans f6, g7.trans f7, ?_⟩
    intro r i hi
    rw [g8 r i hi, analyzeRow_flag p hdp y r i hi, hb, hw,
      isPlaceable_probe_congr p p0 hdp hb hw ht]
    simp only [List.mem_cons]
    split_ifs <;> first | rfl | (exfalso; tauto)

/-- After the first phase of `analyzeBoard` the flag bit of every empty cell says whether
the cell is placeable; the stones and the flag bits of occupied cells are kept. -/
theorem analyzeScan_spec (p : BOARD_T) (hd : DisjointMasks p) :
    (analyzeScan p).black = p.black ∧ (analyzeScan p).white = p.white ∧
    (analyzeScan p).isWhiteTurn = p.isWhiteTurn ∧
    (analyzeScan p).isLastPassed = p.isLastPassed ∧
    ∀ r i : Nat, i < 8 → ((analyzeScan p).flag r).testBit i =
      if r < 8 ∧ (p.black r ||| p.white r).testBit i = false then (isPlaceable p i r false).1
      else (p.flag r).testBit i := by
  have h := analyzeRow_fold p hd (List.range 8)
    { p with numBlack := 0, numWhite := 0, numPlaceable := 0 } rfl rfl rfl
  obtain ⟨g1, g2, g3, g4, -, -, -, g8⟩ := h
  refine ⟨g1, g2, g3, g4, ?_⟩
  intro r i hi
  have := g8 r i hi
  simp only [List.mem_range] at this
  exact this


theorem flagsGrow_refl (p : BOARD_T) : FlagsGrow p p := by
  unfold FlagsGrow
  refine ⟨rfl, rfl, rfl, rfl, rfl, rfl, rfl, rfl, ?_⟩
  intro r i
  exact ⟨id, Or.inl⟩

theorem flagsGrow_trans (p q s : BOARD_T) (h1 : FlagsGrow p q) (h2 : FlagsGrow q s) :
    FlagsGrow p s := by
  obtain ⟨a1, a2, a3, a4, a5, a6, a7, a8, a9⟩ := h1
  obtain ⟨b1, b2, b3, b4, b5, b6, b7, b8, b9⟩ := h2
  refine ⟨b1.trans a1, b2.trans a2, b3.trans a3, b4.trans a4, b5.trans a5, b6.trans a6,
    b7.trans a7, b8.trans a8, ?_⟩
  intro r i
  refine ⟨fun h => (b9 r i).1 ((a9 r i).1 h), fun h => ?_⟩
  rcases (b9 r i).2 h with h | h
  · exact (a9 r i).2 h
  · rw [a1, a2] at h
    exact Or.inr h

/-- Bit view of one column step of `checkFixedStones`. -/
theorem fixedCell_fst (p : BOARD_T) (y : Int) (black stones flag : Nat) (u : Bool) (x i : Nat) :
    (fixedCell p y black stones (flag, u) x).1.testBit i =
      (flag.testBit i || (decide (i = x) && (decide (i < 8) && stones.testBit i &&
        isFixed p i y (black.testBit i)))) := by
  unfold fixedCell
  simp only [and_bitOf_ne_zero, testBit_not8, Int.toNat_ofNat]
  by_cases hix : i = x
  · subst hix
    by_cases h8 : i < 8 <;> cases hs : stones.testBit i <;> cases hf : flag.testBit i <;>
      cases hx : isFixed p i y (black.testBit i) <;>
      simp [h8, hs, hf, hx, testBit_bitOf]
  · have hne : ¬ x = i := fun h => hix h.symm
    split_ifs <;> simp [hix, hne, testBit_bitOf]

/-- Bit view of the column loop of `checkFixedStones`. -/
theorem fixedCell_fold_fst (p : BOARD_T) (y : Int) (black stones : Nat) :
    ∀ (l : List Nat) (flag : Nat) (u : Bool) (i : Nat),
      (l.foldl (fixedCell p y black stones) (flag, u)).1.testBit i =
        (flag.testBit i || (decide (i ∈ l) && (decide (i < 8) && stones.testBit i &&
          isFixed p i y (black.testBit i)))) := by
  intro l
  induction l with
  | nil => intro flag u i; simp
  | cons x l ih =>
    intro flag u i
    rw [List.foldl_cons]
    have h := fixedCell_fst p y black stones flag u x i
    cases hc : fixedCell p y black stones (flag, u) x with
    | mk f1 u1 =>
      rw [hc] at h
      simp only at h
      rw [ih f1 u1 i, h]
      generalize flag.testBit i = a
      generalize (decide (i < 8) && stones.testBit i && isFixed p i y (black.testBit i)) = c
      by_cases h1 : i = x <;> by_cases h2 : i ∈ l <;> cases a <;> cases c <;>
        simp [h1, h2]

/-- One row of `checkFixedStones` only adds flag bits, and only on occupied cells. -/
theorem fixedRow_frame (p : BOARD_T) (u : Bool) (y : Nat) :
    FlagsGrow p (fixedRow (p, u) y).1 := by
  unfold fixedRow
  simp only
  split_ifs with hz
  · exact flagsGrow_refl p
  · refine ⟨rfl, rfl, rfl, rfl, rfl, rfl, rfl, rfl, ?_⟩
    intro r i
    simp only [setRow]
    by_cases hr : r = y
    · subst hr
      simp only [if_true]
      rw [fixedCell_fold_fst]
      constructor
      · intro h; simp [h]
      · intro h
        simp only [Bool.or_eq_true, Bool.and_eq_true] at h
        rcases h with h | h
        · exact Or.inl h
        · exact Or.inr h.2.1.2
    · simp only [hr, if_false]
      exact ⟨id, Or.inl⟩

/-- One pass of `checkFixedStones` only adds flag bits, and only on occupied cells. -/
theorem fixedPass_frame (p : BOARD_T) : FlagsGrow p (fixedPass p).1 := by
  unfold fixedPass
  apply foldl_invariant (fun acc : BOARD_T × Bool => FlagsGrow p acc.1) fixedRow
  · intro b a hb
    exact flagsGrow_trans _ _ _ hb (fixedRow_frame b.1 b.2 a)
  · exact ⟨rfl, rfl, rfl, rfl, rfl, rfl, rfl, rfl, fun r i => ⟨id, Or.inl⟩⟩

theorem checkFixedStonesLoop_frame :
    ∀ (fuel : Nat) (p q : BOARD_T), checkFixedStonesLoop fuel p = some q → FlagsGrow p q := by
  intro fuel
  induction fuel with
  | zero => intro p q h; simp [checkFixedStonesLoop] at h
  | succ n ih =>
    intro p q h
    unfold checkFixedStonesLoop at h
    simp only at h
    split_ifs at h
    · exact flagsGrow_trans _ _ _ (fixedPass_frame p) (ih _ _ h)
    · simp only [Option.some.injEq] at h
      rw [← h]
      exact fixedPass_frame p

/-- Function `checkFixedStones` keeps the stones and only adds flag bits on occupied cells. -/
theorem checkFixedStones_frame (p : BOARD_T) : FlagsGrow p (checkFixedStones p) := by
  unfold checkFixedStones
  cases h : checkFixedStonesLoop 65 p with
  | none => exact flagsGrow_refl p
  | some q => exact checkFixedStonesLoop_frame 65 p q h

/-- Bit view of the placeable set. -/
theorem placeableAt_eq (p : BOARD_T) (x y : Int) :
    placeableAt p x y = (decide (x.toNat < 8) &&
      !(p.black y.toNat ||| p.white y.toNat).testBit x.toNat &&
      (p.flag y.toNat).testBit x.toNat) := by
  unfold placeableAt
  rw [and_bitOf_ne_zero, Nat.testBit_and, testBit_not8]

theorem emptyAt_eq (p : BOARD_T) (x y : Int) :
    emptyAt p x y = !(p.black y.toNat ||| p.white y.toNat).testBit x.toNat := by
  unfold emptyAt
  rw [isBlackAt_eq, isWhiteAt_eq, Nat.testBit_or]
  simp

/-- After `analyzeBoard` the stones and the turn are as before. -/
theorem analyzeBoard_stones (p : BOARD_T) (hd : DisjointMasks p) :
    (analyzeBoard p).black = p.black ∧ (analyzeBoard p).white = p.white ∧
    (analyzeBoard p).isWhiteTurn = p.isWhiteTurn ∧
    (analyzeBoard p).isLastPassed = p.isLastPassed := by
  obtain ⟨a1, a2, a3, a4, -⟩ := analyzeScan_spec p hd
  obtain ⟨b1, b2, b3, b4, -⟩ := checkFixedStones_frame (analyzeScan p)
  rw [analyzeBoard_eq]
  exact ⟨b1.trans a1, b2.trans a2, b3.trans a3, b4.trans a4⟩

/-- The placeable set computed by `analyzeBoard` is the set of legal placements. -/
theorem analyzeBoard_placeable (p : BOARD_T) (hd : DisjointMasks p) (x y : Int)
    (hb : OnBoard x y) : placeableAt (analyzeBoard p) x y = true ↔ Legal p x y := by
  obtain ⟨a1, a2, a3, a4, a5⟩ := analyzeScan_spec p hd
  obtain ⟨b1, b2, -, -, -, -, -, -, b9⟩ := checkFixedStones_frame (analyzeScan p)
  have hx : x.toNat < 8 := by unfold OnBoard at hb; omega
  have hy : y.toNat < 8 := by unfold OnBoard at hb; omega
  have hxx : ((x.toNat : Nat) : Int) = x := by unfold OnBoard at hb; omega
  have hyy : ((y.toNat : Nat) : Int) = y := by unfold OnBoard at hb; omega
  have h5 := a5 y.toNat x.toNat hx
  rw [hxx, hyy] at h5
  rw [placeableAt_eq, analyzeBoard_eq, b1, b2, a1, a2]
  unfold Legal
  rw [emptyAt_eq, ← (isPlaceable_probe p hd x y).2]
  simp only [hx, decide_True, Bool.true_and, Bool.and_eq_true]
  have hg := b9 y.toNat x.toNat
  rw [a1, a2] at hg
  constructor
  · rintro ⟨he, hf⟩
    refine ⟨he, ?_⟩
    have he' : (p.black y.toNat ||| p.white y.toNat).testBit x.toNat = false := by simpa using he
    rcases hg.2 hf with h | h
    · rw [h5] at h
      simpa [hy, he'] using h
    · rw [he'] at h; exact absurd h (by simp)
  · rintro ⟨he, hp⟩
    refine ⟨he, hg.1 ?_⟩
    have he' : (p.black y.toNat ||| p.white y.toNat).testBit x.toNat = false := by simpa using he
    rw [h5]
    simpa [hy, he'] using hp


/-! ## Placing mode: `placeStone` -/

/-- Cell form of the board invariant. -/
theorem disjointMasks_iff (p : BOARD_T) :
    DisjointMasks p ↔ ∀ cx cy : Int, 0 ≤ cx → 0 ≤ cy → cy < 8 →
      ¬ (isBlackAt p cx cy = true ∧ isWhiteAt p cx cy = true) := by
  constructor
  · intro hd cx cy _ hy hy8
    rintro ⟨h1, h2⟩
    rw [isBlackAt_eq] at h1
    rw [isWhiteAt_eq] at h2
    have h := hd cy.toNat (by omega)
    have h3 : (p.black cy.toNat &&& p.white cy.toNat).testBit cx.toNat = true := by
      rw [Nat.testBit_and, h1, h2]; rfl
    rw [h] at h3
    simp at h3
  · intro h y hy
    apply Nat.eq_of_testBit_eq
    intro i
    have := h (i : Int) (y : Int) (by omega) (by omega) (by omega)
    rw [isBlackAt_eq, isWhiteAt_eq] at this
    simp only [Int.toNat_ofNat] at this
    rw [Nat.testBit_and, Nat.zero_testBit]
    cases h1 : (p.black y).testBit i <;> cases h2 : (p.white y).testBit i <;> simp_all

theorem own_not_opp (p : BOARD_T) (hd : DisjointMasks p) (x y : Int) (hb : OnBoard x y) :
    ¬ (ownAt p x y = true ∧ oppAt p x y = true) := by
  have h := not_both p hd x y hb
  unfold ownAt oppAt
  cases hB : isBlackAt p x y <;> cases hW : isWhiteAt p x y <;> cases hT : p.isWhiteTurn <;>
    simp_all

/-- Two rays from the same cell in different directions share no cell. -/
theorem ray_disjoint (x y vx vy wx wy : Int) (hv : UnitDir vx vy) (hw : UnitDir wx wy)
    (k j : Nat) (hk : 1 ≤ k) (hj : 1 ≤ j)
    (h1 : x + k * vx = x + j * wx) (h2 : y + k * vy = y + j * wy) : vx = wx ∧ vy = wy := by
  obtain ⟨a1, a2, a3, a4, a5⟩ := hv
  obtain ⟨b1, b2, b3, b4, b5⟩ := hw
  have hvx : vx = -1 ∨ vx = 0 ∨ vx = 1 := by omega
  have hvy : vy = -1 ∨ vy = 0 ∨ vy = 1 := by omega
  have hwx : wx = -1 ∨ wx = 0 ∨ wx = 1 := by omega
  have hwy : wy = -1 ∨ wy = 0 ∨ wy = 1 := by omega
  rcases hvx with rfl | rfl | rfl <;> rcases hvy with rfl | rfl | rfl <;>
    rcases hwx with rfl | rfl | rfl <;> rcases hwy with rfl | rfl | rfl <;>
    simp at a5 b5 ⊢ <;> omega

/-- A ray does not return to its origin. -/
theorem ray_ne_origin (x y vx vy : Int) (hv : UnitDir vx vy) (k : Nat) (hk : 1 ≤ k) :
    ¬ (x + k * vx = x ∧ y + k * vy = y) := by
  obtain ⟨a1, a2, a3, a4, a5⟩ := hv
  have hvx : vx = -1 ∨ vx = 0 ∨ vx = 1 := by omega
  have hvy : vy = -1 ∨ vy = 0 ∨ vy = 1 := by omega
  rcases hvx with rfl | rfl | rfl <;> rcases hvy with rfl | rfl | rfl <;>
    simp at a5 ⊢ <;> omega

/-- The flip condition of a direction reads only the cells of its ray and the turn. -/
theorem flipRun_congr_ray (p q : BOARD_T) (ht : p.isWhiteTurn = q.isWhiteTurn)
    (x y vx vy : Int)
    (hc : ∀ k : Nat, 1 ≤ k → OnBoard (x + k * vx) (y + k * vy) →
      isBlackAt p (x + k * vx) (y + k * vy) = isBlackAt q (x + k * vx) (y + k * vy) ∧
      isWhiteAt p (x + k * vx) (y + k * vy) = isWhiteAt q (x + k * vx) (y + k * vy))
    (s : Nat) : FlipRun p x y vx vy s → FlipRun q x y vx vy s := by
  rintro ⟨h1, h2, h3, h4⟩
  refine ⟨h1, ?_, h3, ?_⟩
  · intro k hk1 hk2
    obtain ⟨hb, ho⟩ := h2 k hk1 hk2
    refine ⟨hb, ?_⟩
    obtain ⟨e1, e2⟩ := hc k hk1 hb
    unfold oppAt at ho ⊢
    rw [← ht, ← e1, ← e2]
    exact ho
  · obtain ⟨e1, e2⟩ := hc (s + 1) (by omega) h3
    unfold ownAt at h4 ⊢
    rw [← ht, ← e1, ← e2]
    exact h4

theorem onRun_congr_ray (p q : BOARD_T) (ht : p.isWhiteTurn = q.isWhiteTurn)
    (x y vx vy : Int)
    (hc : ∀ k : Nat, 1 ≤ k → OnBoard (x + k * vx) (y + k * vy) →
      isBlackAt p (x + k * vx) (y + k * vy) = isBlackAt q (x + k * vx) (y + k * vy) ∧
      isWhiteAt p (x + k * vx) (y + k * vy) = isWhiteAt q (x + k * vx) (y + k * vy))
    (cx cy : Int) : OnRun p x y vx vy cx cy ↔ OnRun q x y vx vy cx cy := by
  constructor
  · rintro ⟨s, k, hs, h⟩
    exact ⟨s, k, flipRun_congr_ray p q ht x y vx vy hc s hs, h⟩
  · rintro ⟨s, k, hs, h⟩
    refine ⟨s, k, flipRun_congr_ray q p ht.symm x y vx vy ?_ s hs, h⟩
    intro k hk hb
    exact ⟨(hc k hk hb).1.symm, (hc k hk hb).2.symm⟩

/-- A cell of a flipped run is on the board and held an opposing stone. -/
theorem onRun_opp (p : BOARD_T) (x y vx vy cx cy : Int) (h : OnRun p x y vx vy cx cy) :
    OnBoard cx cy ∧ oppAt p cx cy = true := by
  obtain ⟨s, k, hs, h1, h2, rfl, rfl⟩ := h
  exact hs.2.1 k h1 h2

/-- Placing mode of `isReversible` keeps the board invariant. -/
theorem isReversible_disjoint (p : BOARD_T) (hd : DisjointMasks p) (x y vx vy : Int)
    (hv : UnitDir vx vy) : DisjointMasks (isReversible p x y vx vy true).2 := by
  rw [disjointMasks_iff]
  intro cx cy hx hy hy8
  have hc := isReversible_cells p hd x y vx vy hv cx cy hx hy
  have hp := (disjointMasks_iff p).1 hd cx cy hx hy hy8
  by_cases h : OnRun p x y vx vy cx cy
  · obtain ⟨e1, e2⟩ := hc.1 h
    obtain ⟨hb, ho⟩ := onRun_opp p x y vx vy cx cy h
    rw [e1, e2]
    unfold oppAt at ho
    cases hB : isBlackAt p cx cy <;> cases hW : isWhiteAt p cx cy <;>
      cases hT : p.isWhiteTurn <;> simp_all
  · obtain ⟨e1, e2⟩ := hc.2 h
    rw [e1, e2]
    exact hp


theorem sameAux_refl (p : BOARD_T) : SameAux p p :=
  ⟨rfl, rfl, rfl, rfl, rfl, rfl, rfl, rfl, rfl⟩

theorem sameAux_trans (p q s : BOARD_T) (h1 : SameAux p q) (h2 : SameAux q s) :
    SameAux p s := by
  obtain ⟨a1, a2, a3, a4, a5, a6, a7, a8, a9⟩ := h1
  obtain ⟨b1, b2, b3, b4, b5, b6, b7, b8, b9⟩ := h2
  exact ⟨b1.trans a1, b2.trans a2, b3.trans a3, b4.trans a4, b5.trans a5, b6.trans a6,
    b7.trans a7, b8.trans a8, b9.trans a9⟩

theorem isReversible_sameAux (p : BOARD_T) (hd : DisjointMasks p) (x y vx vy : Int)
    (hv : UnitDir vx vy) (act : Bool) : SameAux p (isReversible p x y vx vy act).2 :=
  isReversible_fields p hd x y vx vy hv act

/-- One step of the direction loop of `isPlaceable` in placing mode. -/
theorem isPlaceableLoop_cons (x y : Int) (v : Int × Int) (ds : List (Int × Int)) (ret : Bool)
    (p : BOARD_T) :
    ∃ ret', isPlaceableLoop x y true (v :: ds) ret p =
      isPlaceableLoop x y true ds ret' (isReversible p x y v.1 v.2 true).2 := by
  obtain ⟨vx, vy⟩ := v
  by_cases h : (isReversible p x y vx vy true).1 = true
  · refine ⟨true, ?_⟩
    conv_lhs => rw [isPlaceableLoop]
    simp [h]
  · refine ⟨ret, ?_⟩
    conv_lhs => rw [isPlaceableLoop]
    simp [h]

/-- The direction loop of `isPlaceable` in placing mode: the runs of the listed directions
change colour, every other cell and every other field is kept. -/
theorem isPlaceableLoop_place (x y : Int) :
    ∀ (ds : List (Int × Int)) (ret : Bool) (p : BOARD_T), DisjointMasks p →
      (∀ v ∈ ds, UnitDir v.1 v.2) → ds.Nodup →
      DisjointMasks (isPlaceableLoop x y true ds ret p).2 ∧
      SameAux p (isPlaceableLoop x y true ds ret p).2 ∧
      ∀ cx cy : Int, 0 ≤ cx → 0 ≤ cy →
        ((∃ v ∈ ds, OnRun p x y v.1 v.2 cx cy) →
          isBlackAt (isPlaceableLoop x y true ds ret p).2 cx cy = !isBlackAt p cx cy ∧
          isWhiteAt (isPlaceableLoop x y true ds ret p).2 cx cy = !isWhiteAt p cx cy) ∧
        ((¬ ∃ v ∈ ds, OnRun p x y v.1 v.2 cx cy) →
          isBlackAt (isPlaceableLoop x y true ds ret p).2 cx cy = isBlackAt p cx cy ∧
          isWhiteAt (isPlaceableLoop x y true ds ret p).2 cx cy = isWhiteAt p cx cy) := by
  intro ds
  induction ds with
  | nil =>
    intro ret p hd _ _
    refine ⟨hd, sameAux_refl p, ?_⟩
    intro cx cy _ _
    constructor
    · rintro ⟨v, hv, -⟩; simp at hv
    · intro _; exact ⟨rfl, rfl⟩
  | cons v ds ih =>
    intro ret p hd hu hn
    have hv : UnitDir v.1 v.2 := hu v (List.mem_cons_self _ _)
    have hu' : ∀ w ∈ ds, UnitDir w.1 w.2 := fun w h => hu w (List.mem_cons_of_mem _ h)
    have hvn : v ∉ ds := (List.nodup_cons.1 hn).1
    have hn' : ds.Nodup := (List.nodup_cons.1 hn).2
    obtain ⟨ret', hstep⟩ := isPlaceableLoop_cons x y v ds ret p
    rw [hstep]
    set p1 := (isReversible p x y v.1 v.2 true).2 with hp1
    have hd1 : DisjointMasks p1 := isReversible_disjoint p hd x y v.1 v.2 hv
    have hs1 : SameAux p p1 := isReversible_sameAux p hd x y v.1 v.2 hv true
    obtain ⟨i1, i2, i3⟩ := ih ret' p1 hd1 hu' hn'
    refine ⟨i1, sameAux_trans _ _ _ hs1 i2, ?_⟩
    -- the runs of the remaining directions are the same on `p` and on `p1`
    have hray : ∀ w ∈ ds, ∀ cx cy : Int, OnRun p x y w.1 w.2 cx cy ↔ OnRun p1 x y w.1 w.2 cx cy := by
      intro w hw cx cy
      apply onRun_congr_ray p p1 hs1.2.1.symm
      intro k hk hb
      have hnot : ¬ OnRun p x y v.1 v.2 (x + k * w.1) (y + k * w.2) := by
        rintro ⟨s, j, hs, hj1, hj2, e1, e2⟩
        have := ray_disjoint x y w.1 w.2 v.1 v.2 (hu' w hw) hv k j hk hj1 e1 e2
        have : w = v := Prod.ext this.1 this.2
        exact hvn (this ▸ hw)
      have := (isReversible_cells p hd x y v.1 v.2 hv _ _ hb.1 hb.2.2.1).2 hnot
      exact ⟨this.1.symm, this.2.symm⟩
    intro cx cy hx hy
    have hc := isReversible_cells p hd x y v.1 v.2 hv cx cy hx hy
    obtain ⟨j1, j2⟩ := i3 cx cy hx hy
    by_cases hhead : OnRun p x y v.1 v.2 cx cy
    · have hrest : ¬ ∃ w ∈ ds, OnRun p1 x y w.1 w.2 cx cy := by
        rintro ⟨w, hw, hr⟩
        obtain ⟨s, k, -, hk1, -, e1, e2⟩ := (hray w hw cx cy).2 hr
        obtain ⟨s', j, -, hj1, -, f1, f2⟩ := hhead
        have := ray_disjoint x y w.1 w.2 v.1 v.2 (hu' w hw) hv k j hk1 hj1
          (e1.symm.trans f1) (e2.symm.trans f2)
        have : w = v := Prod.ext this.1 this.2
        exact hvn (this ▸ hw)
      constructor
      · intro _
        rw [(j2 hrest).1, (j2 hrest).2]
        exact hc.1 hhead
      · intro hne
        exact absurd ⟨v, List.mem_cons_self _ _, hhead⟩ hne
    · constructor
      · rintro ⟨w, hw, hr⟩
        rcases List.mem_cons.1 hw with rfl | hw
        · exact absurd hr hhead
        · have := j1 ⟨w, hw, (hray w hw cx cy).1 hr⟩
          rw [this.1, this.2, (hc.2 hhead).1, (hc.2 hhead).2]
          exact ⟨rfl, rfl⟩
      · intro hne
        have hrest : ¬ ∃ w ∈ ds, OnRun p1 x y w.1 w.2 cx cy := by
          rintro ⟨w, hw, hr⟩
          exact hne ⟨w, List.mem_cons_of_mem _ hw, (hray w hw cx cy).2 hr⟩
        rw [(j2 hrest).1, (j2 hrest).2]
        exact hc.2 hhead


theorem placeStone_eq (p : BOARD_T) (x y : Int) :
    placeStone p x y = (isPlaceableLoop x y true directions false (putStone p x y)).2 := by
  unfold placeStone isPlaceable putStone
  simp only [if_true]

/-- Cell view of the first block of `isPlaceable` in placing mode. -/
theorem putStone_spec (p : BOARD_T) (x y : Int) (hx : 0 ≤ x) (hy : 0 ≤ y) :
    (putStone p x y).isWhiteTurn = p.isWhiteTurn ∧
    (putStone p x y).isLastPassed = p.isLastPassed ∧
    (putStone p x y).numStones = p.numStones ∧
    (putStone p x y).numPlaceable = p.numPlaceable ∧
    (putStone p x y).numFixedBlack = p.numFixedBlack ∧
    (putStone p x y).numFixedWhite = p.numFixedWhite ∧
    (∀ cx cy : Int, 0 ≤ cx → 0 ≤ cy →
      isWhiteAt (putStone p x y) cx cy =
        (isWhiteAt p cx cy || (p.isWhiteTurn && decide (cx = x ∧ cy = y))) ∧
      isBlackAt (putStone p x y) cx cy =
        (isBlackAt p cx cy || (!p.isWhiteTurn && decide (cx = x ∧ cy = y)))) ∧
    (∀ cx cy : Int, 0 ≤ cx → cx < 8 → 0 ≤ cy →
      isFlagAt (putStone p x y) cx cy = (isFlagAt p cx cy && !decide (cx = x ∧ cy = y))) := by
  unfold putStone
  cases ht : p.isWhiteTurn
  · simp only [Bool.false_eq_true, if_false, Bool.not_false, Bool.true_and, Bool.false_and,
      Bool.or_false, true_and]
    refine ⟨?_, ?_⟩
    · intro cx cy hcx hcy
      refine ⟨rfl, ?_⟩
      rw [isBlackAt_eq, isBlackAt_eq]
      exact testBit_setRow_or p.black x y cx cy hx hy hcx hcy
    · intro cx cy hcx hcx8 hcy
      rw [isFlagAt_eq, isFlagAt_eq]
      exact testBit_setRow_andNot p.flag x y cx cy hx hy hcx hcx8 hcy
  · simp only [if_true, Bool.not_true, Bool.true_and, Bool.false_and,
      Bool.or_false, true_and]
    refine ⟨?_, ?_⟩
    · intro cx cy hcx hcy
      refine ⟨?_, rfl⟩
      rw [isWhiteAt_eq, isWhiteAt_eq]
      exact testBit_setRow_or p.white x y cx cy hx hy hcx hcy
    · intro cx cy hcx hcx8 hcy
      rw [isFlagAt_eq, isFlagAt_eq]
      exact testBit_setRow_andNot p.flag x y cx cy hx hy hcx hcx8 hcy

theorem putStone_disjoint (p : BOARD_T) (hd : DisjointMasks p) (x y : Int) (hb : OnBoard x y)
    (he : emptyAt p x y = true) : DisjointMasks (putStone p x y) := by
  rw [disjointMasks_iff]
  intro cx cy hcx hcy hcy8
  obtain ⟨-, -, -, -, -, -, hc, -⟩ := putStone_spec p x y hb.1 hb.2.2.1
  obtain ⟨e1, e2⟩ := hc cx cy hcx hcy
  have hp := (disjointMasks_iff p).1 hd cx cy hcx hcy hcy8
  rw [e1, e2]
  unfold emptyAt at he
  by_cases hxy : cx = x ∧ cy = y
  · obtain ⟨rfl, rfl⟩ := hxy
    cases hB : isBlackAt p cx cy <;> cases hW : isWhiteAt p cx cy <;>
      cases hT : p.isWhiteTurn <;> simp_all
  · simp only [hxy, decide_False, Bool.and_false, Bool.or_false]
    exact hp

theorem flippedBy_putStone (p : BOARD_T) (x y : Int) (hb : OnBoard x y) (cx cy : Int) :
    ∀ v ∈ directions, (OnRun (putStone p x y) x y v.1 v.2 cx cy ↔ OnRun p x y v.1 v.2 cx cy) := by
  intro v hv
  obtain ⟨ht, -, -, -, -, -, hc, -⟩ := putStone_spec p x y hb.1 hb.2.2.1
  apply onRun_congr_ray _ _ ht
  intro k hk hbk
  obtain ⟨e1, e2⟩ := hc _ _ hbk.1 hbk.2.2.1
  have hne := ray_ne_origin x y v.1 v.2 (directions_unit v hv) k hk
  rw [e1, e2]
  simp only [hne, decide_False, Bool.and_false, Bool.or_false]
  exact ⟨trivial, trivial⟩

/-- What `placeStone` does to an empty cell `(x, y)` of a board with disjoint masks: the cell
gets the colour of the side to move, the stones of every run that satisfies the flip
condition get that colour too, every other cell keeps its content; the flag bit of `(x, y)`
is cleared and the board invariant is kept. -/
theorem placeStone_spec (p : BOARD_T) (hd : DisjointMasks p) (x y : Int) (hb : OnBoard x y)
    (he : emptyAt p x y = true) :
    DisjointMasks (placeStone p x y) ∧
    (placeStone p x y).isWhiteTurn = p.isWhiteTurn ∧
    (placeStone p x y).isLastPassed = p.isLastPassed ∧
    (isWhiteAt (placeStone p x y) x y = p.isWhiteTurn ∧
      isBlackAt (placeStone p x y) x y = !p.isWhiteTurn) ∧
    (∀ cx cy : Int, OnBoard cx cy → FlippedBy p x y cx cy →
      isWhiteAt (placeStone p x y) cx cy = p.isWhiteTurn ∧
      isBlackAt (placeStone p x y) cx cy = !p.isWhiteTurn) ∧
    (∀ cx cy : Int, 0 ≤ cx → 0 ≤ cy → ¬ (cx = x ∧ cy = y) → ¬ FlippedBy p x y cx cy →
      isWhiteAt (placeStone p x y) cx cy = isWhiteAt p cx cy ∧
      isBlackAt (placeStone p x y) cx cy = isBlackAt p cx cy) ∧
    (∀ cx cy : Int, 0 ≤ cx → cx < 8 → 0 ≤ cy →
      isFlagAt (placeStone p x y) cx cy = (isFlagAt p cx cy && !decide (cx = x ∧ cy = y))) := by
  obtain ⟨ht, hl, -, -, -, -, hc, hf⟩ := putStone_spec p x y hb.1 hb.2.2.1
  have hd1 := putStone_disjoint p hd x y hb he
  obtain ⟨l1, l2, l3⟩ := isPlaceableLoop_place x y directions false (putStone p x y) hd1
    directions_unit (by unfold directions; decide)
  rw [placeStone_eq]
  have hrun : ∀ cx cy : Int, (∃ v ∈ directions, OnRun (putStone p x y) x y v.1 v.2 cx cy) ↔
      FlippedBy p x y cx cy := by
    intro cx cy
    unfold FlippedBy
    exact exists_congr (fun v => and_congr_right (fun hv => flippedBy_putStone p x y hb cx cy v hv))
  have horigin : ¬ FlippedBy p x y x y := by
    rintro ⟨v, hv, s, k, -, hk, -, e1, e2⟩
    exact ray_ne_origin x y v.1 v.2 (directions_unit v hv) k hk ⟨e1.symm, e2.symm⟩
  unfold emptyAt at he
  refine ⟨l1, l2.2.1.trans ht, l2.2.2.1.trans hl, ?_, ?_, ?_, ?_⟩
  · have := (l3 x y hb.1 hb.2.2.1).2 (fun h => horigin ((hrun x y).1 h))
    rw [this.1, this.2, (hc x y hb.1 hb.2.2.1).1, (hc x y hb.1 hb.2.2.1).2]
    simp only [and_self, decide_True, Bool.and_true]
    revert he
    generalize isBlackAt p x y = B
    generalize isWhiteAt p x y = W
    generalize p.isWhiteTurn = T
    cases B <;> cases W <;> cases T <;> simp
  · intro cx cy hcb hfl
    have := (l3 cx cy hcb.1 hcb.2.2.1).1 ((hrun cx cy).2 hfl)
    have hne : ¬ (cx = x ∧ cy = y) := by
      rintro ⟨rfl, rfl⟩; exact horigin hfl
    obtain ⟨v, -, hr⟩ := hfl
    obtain ⟨-, ho⟩ := onRun_opp p x y v.1 v.2 cx cy hr
    have hnb := not_both p hd cx cy hcb
    rw [this.1, this.2, (hc cx cy hcb.1 hcb.2.2.1).1, (hc cx cy hcb.1 hcb.2.2.1).2]
    simp only [hne, decide_False, Bool.and_false, Bool.or_false]
    unfold oppAt at ho
    revert ho hnb
    generalize isBlackAt p cx cy = B
    generalize isWhiteAt p cx cy = W
    generalize p.isWhiteTurn = T
    cases B <;> cases W <;> cases T <;> simp
  · intro cx cy hcx hcy hne hnf
    have := (l3 cx cy hcx hcy).2 (fun h => hnf ((hrun cx cy).1 h))
    rw [this.1, this.2, (hc cx cy hcx hcy).1, (hc cx cy hcx hcy).2]
    simp only [hne, decide_False, Bool.and_false, Bool.or_false]
    exact ⟨trivial, trivial⟩
  · intro cx cy hcx hcx8 hcy
    rw [← hf cx cy hcx hcx8 hcy]
    unfold isFlagAt
    rw [l2.1]


/-! ## Counting stones and the counters of `analyzeBoard` -/

theorem countBits_eq_countP (v : Nat) : countBits v = (List.range 8).countP (fun i => v.testBit i) := by
  unfold countBits
  rw [List.countP_eq_length_filter]

theorem countBits_le (v : Nat) : countBits v ≤ 8 := by
  rw [countBits_eq_countP]
  exact (List.countP_le_length _).trans (by simp)

theorem maskCount_le (a : Nat → Nat) : maskCount a ≤ 64 := by
  unfold maskCount
  have h := fun y => countBits_le (a y)
  simp only [List.range, List.range.loop, List.map, List.sum_cons, List.sum_nil]
  have h0 := h 0; have h1 := h 1; have h2 := h 2; have h3 := h 3
  have h4 := h 4; have h5 := h 5; have h6 := h 6; have h7 := h 7
  omega

/-- Counting over a list: a disjoint union counts as the sum. -/
theorem countP_or_of_disjoint (f g : Nat → Bool) :
    ∀ l : List Nat, (∀ i ∈ l, ¬ (f i = true ∧ g i = true)) →
      l.countP (fun i => f i || g i) = l.countP f + l.countP g := by
  intro l
  induction l with
  | nil => intro _; simp
  | cons a l ih =>
    intro h
    have ha := h a (List.mem_cons_self _ _)
    have := ih (fun i hi => h i (List.mem_cons_of_mem _ hi))
    simp only [List.countP_cons, this]
    cases hf : f a <;> cases hg : g a <;> simp_all <;> omega

/-- Counting over a list without repetition: switching one element on adds one. -/
theorem countP_switch_on (f g : Nat → Bool) (x : Nat) :
    ∀ l : List Nat, l.Nodup → x ∈ l → f x = false → g x = true →
      (∀ i ∈ l, i ≠ x → g i = f i) → l.countP g = l.countP f + 1 := by
  intro l
  induction l with
  | nil => intro _ hx; simp at hx
  | cons a l ih =>
    intro hn hx hfx hgx hrest
    have hal : a ∉ l := (List.nodup_cons.1 hn).1
    have hn' := (List.nodup_cons.1 hn).2
    simp only [List.countP_cons]
    by_cases hax : a = x
    · subst hax
      have : l.countP g = l.countP f := by
        apply List.countP_congr
        intro i hi
        have hia : i ≠ a := fun h => hal (h ▸ hi)
        rw [hrest i (List.mem_cons_of_mem _ hi) hia]
      simp [this, hfx, hgx]
    · have hxl : x ∈ l := by
        rcases List.mem_cons.1 hx with h | h
        · exact absurd h.symm hax
        · exact h
      have := ih hn' hxl hfx hgx (fun i hi => hrest i (List.mem_cons_of_mem _ hi))
      rw [this, hrest a (List.mem_cons_self _ _) hax]
      omega

/-- On a board with disjoint masks the stones of a row are counted once. -/
theorem countBits_row (p : BOARD_T) (hd : DisjointMasks p) (y : Nat) (hy : y < 8) :
    countBits (p.black y) + countBits (p.white y) = countBits (p.black y ||| p.white y) := by
  rw [countBits_eq_countP, countBits_eq_countP, countBits_eq_countP]
  rw [← countP_or_of_disjoint]
  · apply List.countP_congr
    intro i _
    simp [Nat.testBit_or]
  · intro i _ h
    have h3 : (p.black y &&& p.white y).testBit i = true := by
      rw [Nat.testBit_and, h.1, h.2]; rfl
    rw [hd y hy] at h3
    simp at h3

theorem sum_map_add (f g : Nat → Nat) (l : List Nat) :
    (l.map (fun y => f y + g y)).sum = (l.map f).sum + (l.map g).sum := by
  induction l with
  | nil => simp
  | cons a l ih => simp only [List.map_cons, List.sum_cons, ih]; omega

/-- On a board with disjoint masks the stone count is the number of occupied cells. -/
theorem stoneCount_eq (p : BOARD_T) (hd : DisjointMasks p) :
    stoneCount p = maskCount (fun y => p.black y ||| p.white y) := by
  unfold stoneCount maskCount
  rw [← sum_map_add]
  congr 1
  apply List.map_congr_left
  intro y hy
  exact countBits_row p hd y (List.mem_range.1 hy)

/-- Summing over a list without repetition: raising one entry by one adds one. -/
theorem sum_map_switch (f g : Nat → Nat) (x : Nat) :
    ∀ l : List Nat, l.Nodup → x ∈ l → g x = f x + 1 → (∀ i ∈ l, i ≠ x → g i = f i) →
      (l.map g).sum = (l.map f).sum + 1 := by
  intro l
  induction l with
  | nil => intro _ hx; simp at hx
  | cons a l ih =>
    intro hn hx hgx hrest
    have hal : a ∉ l := (List.nodup_cons.1 hn).1
    have hn' := (List.nodup_cons.1 hn).2
    simp only [List.map_cons, List.sum_cons]
    by_cases hax : a = x
    · subst hax
      have : l.map g = l.map f := by
        apply List.map_congr_left
        intro i hi
        exact hrest i (List.mem_cons_of_mem _ hi) (fun h => hal (h ▸ hi))
      rw [this, hgx]; omega
    · have hxl : x ∈ l := by
        rcases List.mem_cons.1 hx with h | h
        · exact absurd h.symm hax
        · exact h
      rw [ih hn' hxl hgx (fun i hi => hrest i (List.mem_cons_of_mem _ hi)),
        hrest a (List.mem_cons_self _ _) hax]
      omega

/-- After `placeStone` on an empty cell the occupied cells are those of before and the
cell itself. -/
theorem placeStone_occupied (p : BOARD_T) (hd : DisjointMasks p) (x y : Int) (hb : OnBoard x y)
    (he : emptyAt p x y = true) (cx cy : Int) (hc : OnBoard cx cy) :
    occupiedAt (placeStone p x y) cx cy = (occupiedAt p cx cy || decide (cx = x ∧ cy = y)) := by
  obtain ⟨-, -, -, h1, h2, h3, -⟩ := placeStone_spec p hd x y hb he
  unfold occupiedAt
  by_cases hxy : cx = x ∧ cy = y
  · obtain ⟨rfl, rfl⟩ := hxy
    rw [h1.1, h1.2]
    cases p.isWhiteTurn <;> simp
  · by_cases hf : FlippedBy p x y cx cy
    · have := h2 cx cy hc hf
      obtain ⟨v, -, hr⟩ := hf
      obtain ⟨-, ho⟩ := onRun_opp p x y v.1 v.2 cx cy hr
      rw [this.1, this.2]
      unfold oppAt at ho
      revert ho
      generalize isBlackAt p cx cy = B
      generalize isWhiteAt p cx cy = W
      generalize p.isWhiteTurn = T
      cases B <;> cases W <;> cases T <;> simp
    · have := h3 cx cy hc.1 hc.2.2.1 hxy hf
      rw [this.1, this.2]
      simp [hxy]

theorem occupiedAt_eq (p : BOARD_T) (x y : Int) :
    occupiedAt p x y = (p.black y.toNat ||| p.white y.toNat).testBit x.toNat := by
  unfold occupiedAt
  rw [isBlackAt_eq, isWhiteAt_eq, Nat.testBit_or]

/-- Stone conservation: `placeStone` on an empty cell adds exactly one stone. -/
theorem placeStone_stoneCount (p : BOARD_T) (hd : DisjointMasks p) (x y : Int)
    (hb : OnBoard x y) (he : emptyAt p x y = true) :
    stoneCount (placeStone p x y) = stoneCount p + 1 := by
  have hdq := (placeStone_spec p hd x y hb he).1
  rw [stoneCount_eq p hd, stoneCount_eq _ hdq]
  unfold maskCount
  have hocc : ∀ r i : Nat, r < 8 → i < 8 →
      ((placeStone p x y).black r ||| (placeStone p x y).white r).testBit i =
        ((p.black r ||| p.white r).testBit i || decide ((i : Int) = x ∧ (r : Int) = y)) := by
    intro r i hr hi
    have := placeStone_occupied p hd x y hb he (i : Int) (r : Int)
      (by unfold OnBoard; omega)
    rw [occupiedAt_eq, occupiedAt_eq] at this
    simpa using this
  have hxn : ((x.toNat : Nat) : Int) = x := by unfold OnBoard at hb; omega
  have hyn : ((y.toNat : Nat) : Int) = y := by unfold OnBoard at hb; omega
  apply sum_map_switch _ _ y.toNat _ (List.nodup_range 8)
    (List.mem_range.2 (by unfold OnBoard at hb; omega))
  · rw [countBits_eq_countP, countBits_eq_countP]
    apply countP_switch_on _ _ x.toNat _ (List.nodup_range 8)
      (List.mem_range.2 (by unfold OnBoard at hb; omega))
    · rw [emptyAt_eq] at he
      simpa using he
    · rw [hocc _ _ (by unfold OnBoard at hb; omega) (by unfold OnBoard at hb; omega)]
      simp [hxn, hyn]
    · intro i hi hne
      rw [hocc _ _ (by unfold OnBoard at hb; omega) (List.mem_range.1 hi)]
      have : ¬ ((i : Int) = x) := by omega
      simp [this]
  · intro r hr hne
    rw [countBits_eq_countP, countBits_eq_countP]
    apply List.countP_congr
    intro i hi
    have h1 := hocc r i (List.mem_range.1 hr) (List.mem_range.1 hi)
    have : ¬ ((r : Int) = y) := by omega
    simp only [this, and_false, decide_False, Bool.or_false] at h1
    simp only [h1]


theorem analyzeRow_counters (p : BOARD_T) (y : Nat) :
    (analyzeRow p y).numBlack = (p.numBlack + countBits (p.black y)) % 256 ∧
    (analyzeRow p y).numWhite = (p.numWhite + countBits (p.white y)) % 256 ∧
    (analyzeRow p y).numPlaceable =
      (p.numPlaceable + countBits (placeableRow (analyzeRow p y) y)) % 256 := by
  simp [analyzeRow, placeableRow, setRow]

/-- The number of placeable cells of row `r` as the flip condition gives it. -/
theorem placeableRow_count (p0 q : BOARD_T) (r : Nat) (hb : q.black = p0.black)
    (hw : q.white = p0.white)
    (hf : ∀ i, i < 8 → (p0.black r ||| p0.white r).testBit i = false →
      (q.flag r).testBit i = (isPlaceable p0 i r false).1) :
    countBits (placeableRow q r) = (List.range 8).countP (fun i =>
      !(p0.black r ||| p0.white r).testBit i && (isPlaceable p0 i r false).1) := by
  rw [countBits_eq_countP]
  apply List.countP_congr
  intro i hi
  have hi8 := List.mem_range.1 hi
  unfold placeableRow
  rw [Nat.testBit_and, testBit_not8, hb, hw]
  cases ho : (p0.black r ||| p0.white r).testBit i
  · rw [hf i hi8 ho]; simp [hi8]
  · simp

/-- The counters kept by the row loop of `analyzeBoard`. -/
theorem analyzeRow_fold_counters (p0 : BOARD_T) (hd : DisjointMasks p0) :
    ∀ (l : List Nat) (p : BOARD_T), p.black = p0.black → p.white = p0.white →
      p.isWhiteTurn = p0.isWhiteTurn →
      p.numBlack < 256 → p.numWhite < 256 → p.numPlaceable < 256 →
      (l.foldl analyzeRow p).numBlack =
        (p.numBlack + (l.map (fun r => countBits (p0.black r))).sum) % 256 ∧
      (l.foldl analyzeRow p).numWhite =
        (p.numWhite + (l.map (fun r => countBits (p0.white r))).sum) % 256 ∧
      (l.foldl analyzeRow p).numPlaceable =
        (p.numPlaceable + (l.map (fun r => (List.range 8).countP (fun i =>
          !(p0.black r ||| p0.white r).testBit i && (isPlaceable p0 i r false).1))).sum) % 256 := by
  intro l
  induction l with
  | nil =>
    intro p _ _ _ h1 h2 h3
    simp only [List.foldl_nil, List.map_nil, List.sum_nil, Nat.add_zero]
    refine ⟨by omega, by omega, by omega⟩
  | cons y l ih =>
    intro p hb hw ht h1 h2 h3
    obtain ⟨f1, f2, f3, -⟩ := analyzeRow_frame p y
    obtain ⟨c1, c2, c3⟩ := analyzeRow_counters p y
    have hdp : DisjointMasks p := disjointMasks_congr p0 p hb.symm hw.symm hd
    obtain ⟨g1, g2, g3⟩ := ih (analyzeRow p y) (f1.trans hb) (f2.trans hw) (f3.trans ht)
      (by rw [c1]; omega) (by rw [c2]; omega) (by rw [c3]; omega)
    have hrow := placeableRow_count p0 (analyzeRow p y) y (f1.trans hb) (f2.trans hw) (by
      intro i hi ho
      rw [analyzeRow_flag p hdp y y i hi, hb, hw]
      simp only [ho, and_self, if_true]
      exact isPlaceable_probe_congr p p0 hdp hb hw ht i y)
    rw [List.foldl_cons, g1, g2, g3, c1, c2, c3, hrow, hb, hw]
    simp only [List.map_cons, List.sum_cons]
    refine ⟨by omega, by omega, by omega⟩


theorem analyzeScan_fields (p : BOARD_T) :
    (analyzeScan p).numBlack = ((List.range 8).foldl analyzeRow
      { p with numBlack := 0, numWhite := 0, numPlaceable := 0 }).numBlack ∧
    (analyzeScan p).numWhite = ((List.range 8).foldl analyzeRow
      { p with numBlack := 0, numWhite := 0, numPlaceable := 0 }).numWhite ∧
    (analyzeScan p).numPlaceable = ((List.range 8).foldl analyzeRow
      { p with numBlack := 0, numWhite := 0, numPlaceable := 0 }).numPlaceable ∧
    (analyzeScan p).numStones = (((List.range 8).foldl analyzeRow
      { p with numBlack := 0, numWhite := 0, numPlaceable := 0 }).numBlack +
      ((List.range 8).foldl analyzeRow
      { p with numBlack := 0, numWhite := 0, numPlaceable := 0 }).numWhite) % 256 :=
  ⟨rfl, rfl, rfl, rfl⟩

/-- The counters written by `analyzeBoard`: the stones of each colour, their sum, and the
number of cells of the placeable set; none of them wraps around. -/
theorem analyzeBoard_counters (p : BOARD_T) (hd : DisjointMasks p) :
    (analyzeBoard p).numBlack = maskCount p.black ∧
    (analyzeBoard p).numWhite = maskCount p.white ∧
    (analyzeBoard p).numStones = stoneCount p ∧
    (analyzeBoard p).numPlaceable = placeableCount (analyzeBoard p) := by
  obtain ⟨c1, c2, c3⟩ := analyzeRow_fold_counters p hd (List.range 8)
    { p with numBlack := 0, numWhite := 0, numPlaceable := 0 } rfl rfl rfl
    (by simp) (by simp) (by simp)
  simp only [Nat.zero_add] at c1 c2 c3
  obtain ⟨a1, a2, a3, a4, a5⟩ := analyzeScan_spec p hd
  obtain ⟨b1, b2, -, -, b5, b6, b7, b8, b9⟩ := checkFixedStones_frame (analyzeScan p)
  have hB := maskCount_le p.black
  have hW := maskCount_le p.white
  obtain ⟨s1, s2, s3, s4⟩ := analyzeScan_fields p
  have e1 : (analyzeScan p).numBlack = maskCount p.black := by
    rw [s1, c1]; unfold maskCount at hB ⊢; omega
  have e2 : (analyzeScan p).numWhite = maskCount p.white := by
    rw [s2, c2]; unfold maskCount at hW ⊢; omega
  have e3 : (analyzeScan p).numStones = stoneCount p := by
    rw [s4, c1, c2]; unfold stoneCount; unfold maskCount at hB hW ⊢; omega
  have hrows : ∀ r, r < 8 → countBits (placeableRow (analyzeBoard p) r) =
      (List.range 8).countP (fun i =>
        !(p.black r ||| p.white r).testBit i && (isPlaceable p i r false).1) := by
    intro r hr
    apply placeableRow_count p (analyzeBoard p) r (b1.trans a1) (b2.trans a2)
    intro i hi ho
    have h5 := a5 r i hi
    simp only [hr, ho, and_self, if_true] at h5
    have hg := b9 r i
    rw [a1, a2, ho] at hg
    rw [analyzeBoard_eq, ← h5]
    cases hq : ((checkFixedStones (analyzeScan p)).flag r).testBit i
    · cases hs : ((analyzeScan p).flag r).testBit i
      · rfl
      · rw [hg.1 hs] at hq; exact absurd hq (by simp)
    · rcases hg.2 hq with h | h
      · exact h.symm
      · exact absurd h (by simp)
  have e4 : (analyzeScan p).numPlaceable = placeableCount (analyzeBoard p) := by
    have hP := maskCount_le (placeableRow (analyzeBoard p))
    rw [s3, c3]
    unfold placeableCount
    unfold maskCount at hP ⊢
    have : (List.range 8).map (fun r => countBits (placeableRow (analyzeBoard p) r)) =
        (List.range 8).map (fun r => (List.range 8).countP (fun i =>
          !(p.black r ||| p.white r).testBit i && (isPlaceable p i r false).1)) := by
      apply List.map_congr_left
      intro r hr
      exact hrows r (List.mem_range.1 hr)
    rw [this] at hP ⊢
    omega
  rw [analyzeBoard_eq] at *
  exact ⟨b6.trans e1, b7.trans e2, b5.trans e3, b8.trans e4⟩


theorem negamaxAux_zero (D : DATA_T) (isRoot : Bool) (p : BOARD_T) :
    negamaxAux D 0 isRoot p = evaluateBoard D (if isRoot then p else analyzeBoard p) := rfl

theorem negamaxAux_succ (D : DATA_T) (d : Nat) (isRoot : Bool) (p : BOARD_T) :
    negamaxAux D (d + 1) isRoot p =
      if isGameOver (if isRoot then p else analyzeBoard p) then
        evaluateBoard D (if isRoot then p else analyzeBoard p)
      else if (if isRoot then p else analyzeBoard p).numPlaceable = 0 then
        -(negamaxAux D d false (passBoard (if isRoot then p else analyzeBoard p)))
      else scanCells.foldl
        (negamaxStep (negamaxAux D d false) (if isRoot then p else analyzeBoard p))
        (-D.EVAL_INF) := rfl

theorem alphabetaAux_zero (D : DATA_T) (isRoot : Bool) (p : BOARD_T) (a b : Int) (c : POS_T) :
    alphabetaAux D 0 isRoot p a b c =
      (-(evaluateBoard D (if isRoot then p else analyzeBoard p)), c) := rfl

theorem alphabetaAux_succ (D : DATA_T) (d : Nat) (isRoot : Bool) (p : BOARD_T) (a b : Int)
    (c : POS_T) :
    alphabetaAux D (d + 1) isRoot p a b c =
      if isGameOver (if isRoot then p else analyzeBoard p) then
        (-(evaluateBoard D (if isRoot then p else analyzeBoard p)), c)
      else if (if isRoot then p else analyzeBoard p).numPlaceable = 0 then
        (-(alphabetaAux D d false (passBoard (if isRoot then p else analyzeBoard p))
            (-b) (-a) c).1,
          (alphabetaAux D d false (passBoard (if isRoot then p else analyzeBoard p))
            (-b) (-a) c).2)
      else alphabetaLoop (alphabetaAux D d false) (if isRoot then p else analyzeBoard p)
        isRoot b scanCells a c := rfl

theorem alphabetaLoop_nil (search : BOARD_T → Int → Int → POS_T → Int × POS_T) (p : BOARD_T)
    (isRoot : Bool) (beta alpha : Int) (c : POS_T) :
    alphabetaLoop search p isRoot beta [] alpha c = (-alpha, c) := rfl

theorem alphabetaLoop_cons (search : BOARD_T → Int → Int → POS_T → Int × POS_T) (p : BOARD_T)
    (isRoot : Bool) (beta alpha : Int) (c : POS_T) (x y : Nat) (cells : List (Nat × Nat)) :
    alphabetaLoop search p isRoot beta ((x, y) :: cells) alpha c =
      if placeableAt p x y = true then
        if (if (search (childBoard p x y) (-beta) (-alpha) c).1 > alpha then
              (search (childBoard p x y) (-beta) (-alpha) c).1 else alpha) ≥ beta then
          (-(if (search (childBoard p x y) (-beta) (-alpha) c).1 > alpha then
              (search (childBoard p x y) (-beta) (-alpha) c).1 else alpha),
            if (search (childBoard p x y) (-beta) (-alpha) c).1 > alpha then
              (if isRoot then POS_T.mk x y else (search (childBoard p x y) (-beta) (-alpha) c).2)
            else (search (childBoard p x y) (-beta) (-alpha) c).2)
        else alphabetaLoop search p isRoot beta cells
          (if (search (childBoard p x y) (-beta) (-alpha) c).1 > alpha then
              (search (childBoard p x y) (-beta) (-alpha) c).1 else alpha)
          (if (search (childBoard p x y) (-beta) (-alpha) c).1 > alpha then
              (if isRoot then POS_T.mk x y else (search (childBoard p x y) (-beta) (-alpha) c).2)
            else (search (childBoard p x y) (-beta) (-alpha) c).2)
      else alphabetaLoop search p isRoot beta cells alpha c := rfl


theorem bounds_neg (inf r V a b : Int) (h : Bounds inf r V (-b) (-a)) :
    Bounds inf (-r) (-V) a b := by
  obtain ⟨h1, h2, h3, h4, h5, h6, h7⟩ := h
  refine ⟨by omega, by omega, by omega, by omega, ?_, ?_, ?_⟩
  · intro h; have := h7 (by omega); omega
  · intro ha hb; have := h6 (by omega) (by omega); omega
  · intro h; have := h5 (by omega); omega

/-- The candidate fold of negamax never goes below its start and stays in range. -/
theorem negamax_fold_range (inf : Int) (value : BOARD_T → Int) (p : BOARD_T)
    (hv : ∀ b, -inf ≤ value b ∧ value b ≤ inf) :
    ∀ (cells : List (Nat × Nat)) (B : Int), -inf ≤ B → B ≤ inf →
      B ≤ cells.foldl (negamaxStep value p) B ∧
      -inf ≤ cells.foldl (negamaxStep value p) B ∧
      cells.foldl (negamaxStep value p) B ≤ inf := by
  intro cells
  induction cells with
  | nil => intro B h1 h2; exact ⟨le_refl _, h1, h2⟩
  | cons c cells ih =>
    intro B h1 h2
    rw [List.foldl_cons]
    have hs : B ≤ negamaxStep value p B c ∧ -inf ≤ negamaxStep value p B c ∧
        negamaxStep value p B c ≤ inf := by
      unfold negamaxStep
      have := hv (childBoard p c.1 c.2)
      split_ifs
      · refine ⟨le_max_left _ _, ?_, ?_⟩
        · exact h1.trans (le_max_left _ _)
        · exact max_le h2 (by omega)
      · exact ⟨le_refl _, h1, h2⟩
    obtain ⟨i1, i2, i3⟩ := ih _ hs.2.1 hs.2.2
    exact ⟨hs.1.trans i1, i2, i3⟩

/-- The candidate loop of `alphabeta` against the candidate fold of negamax. -/
theorem alphabetaLoop_bounds (inf : Int) (search : BOARD_T → Int → Int → POS_T → Int × POS_T)
    (value : BOARD_T → Int) (p : BOARD_T) (isRoot : Bool) (alpha beta : Int)
    (hv : ∀ b, -inf ≤ value b ∧ value b ≤ inf)
    (hs : ∀ (b : BOARD_T) (a b' : Int) (c : POS_T), a < b' → -inf ≤ a → b' ≤ inf →
      Bounds inf (-(search b a b' c).1) (value b) a b')
    (hα : -inf ≤ alpha) (hβ : beta ≤ inf) :
    ∀ (cells : List (Nat × Nat)) (A B : Int) (cur : POS_T), alpha ≤ A → A < beta →
      A = max alpha B → -inf ≤ B → B ≤ inf →
      Bounds inf (-(alphabetaLoop search p isRoot beta cells A cur).1)
        (cells.foldl (negamaxStep value p) B) alpha beta := by
  intro cells
  induction cells with
  | nil =>
    intro A B cur h1 h2 h3 h4 h5
    rw [alphabetaLoop_nil]
    simp only [List.foldl_nil, neg_neg]
    refine ⟨by omega, by omega, h4, h5, ?_, ?_, ?_⟩
    · intro h; rw [h3, max_eq_left h]
    · intro ha _; rw [h3, max_eq_right (le_of_lt ha)]
    · intro h
      have : B ≤ A := by rw [h3]; exact le_max_right _ _
      omega
  | cons c cells ih =>
    intro A B cur h1 h2 h3 h4 h5
    obtain ⟨x, y⟩ := c
    rw [alphabetaLoop_cons, List.foldl_cons]
    by_cases hp : placeableAt p x y = true
    · have hstep : negamaxStep value p B (x, y) = max B (-(value (childBoard p x y))) := by
        unfold negamaxStep; simp [hp]
      rw [hstep]
      simp only [hp, if_true]
      obtain ⟨c1, c2, c3, c4, c5, c6, c7⟩ :=
        hs (childBoard p x y) (-beta) (-A) cur (by omega) (by omega) (by omega)
      set e := (search (childBoard p x y) (-beta) (-A) cur).1 with he
      set Vc := value (childBoard p x y) with hVc
      have hB' : -inf ≤ max B (-Vc) := h4.trans (le_max_left _ _)
      have hB'' : max B (-Vc) ≤ inf := max_le h5 (by omega)
      have hmaxA : max alpha (max B (-Vc)) = max A (-Vc) := by
        rw [h3, max_assoc]
      by_cases hcut : -Vc ≥ beta
      · -- the child proves a value of at least beta: cut-off
        have he1 : e ≥ beta := by have := c5 (by omega); omega
        have hgt : e > A := by omega
        simp only [hgt, if_true, ge_iff_le, he1, neg_neg]
        obtain ⟨f1, f2, f3⟩ := negamax_fold_range inf value p hv cells _ hB' hB''
        have : -Vc ≤ max B (-Vc) := le_max_right _ _
        refine ⟨by omega, by omega, f2, f3, ?_, ?_, ?_⟩
        · intro h; omega
        · intro _ h; omega
        · intro _; exact he1
      · by_cases hin : -Vc > A
        · -- the child value is inside the window: exact, alpha moves up
          have he1 : e = -Vc := by have := c6 (by omega) (by omega); omega
          have hgt : e > A := by omega
          have hnc : ¬ e ≥ beta := by omega
          simp only [hgt, if_true, hnc, if_false]
          apply ih e _ _ (by omega) (by omega) _ hB' hB''
          rw [hmaxA, he1, max_eq_right (by omega)]
        · -- the child value is at most alpha: nothing changes
          have he1 : e ≤ A := by have := c7 (by omega); omega
          have hgt : ¬ e > A := by omega
          have hnc : ¬ A ≥ beta := by omega
          simp only [hgt, if_false, hnc]
          apply ih A _ _ h1 h2 _ hB' hB''
          rw [hmaxA, max_eq_left (by omega)]
    · have hstep : negamaxStep value p B (x, y) = B := by
        unfold negamaxStep; simp [hp]
      rw [hstep]
      simp only [hp, if_false]
      exact ih A B cur h1 h2 h3 h4 h5

theorem analyzeRow_numPlaceable_lt (p : BOARD_T) (y : Nat) :
    (analyzeRow p y).numPlaceable < 256 := by
  rw [(analyzeRow_counters p y).2.2]
  exact Nat.mod_lt _ (by norm_num)

/-- The counter `numPlaceable` written by `analyzeBoard` is an 8-bit value. -/
theorem analyzeBoard_numPlaceable_lt (p : BOARD_T) : (analyzeBoard p).numPlaceable < 256 := by
  rw [analyzeBoard_eq, (checkFixedStones_frame (analyzeScan p)).2.2.2.2.2.2.2.1,
    (analyzeScan_fields p).2.2.1]
  apply foldl_invariant (fun q : BOARD_T => q.numPlaceable < 256) analyzeRow
  · intro b a _; exact analyzeRow_numPlaceable_lt b a
  · show (0 : Nat) < 256
    norm_num

theorem evalBounded_pos (D : DATA_T) (hE : EvalBounded D) : -D.EVAL_INF < D.EVAL_INF := by
  have := hE zeroBoard (by show (0 : Nat) < 256; norm_num)
  omega

/-- Alpha-beta against negamax, for every window inside `[-EVAL_INF, EVAL_INF]`. -/
theorem alphabetaAux_bounds (D : DATA_T) (hE : EvalBounded D) :
    ∀ (d : Nat) (isRoot : Bool) (p : BOARD_T) (a b : Int) (c : POS_T),
      (isRoot = true → p.numPlaceable < 256) →
      a < b → -D.EVAL_INF ≤ a → b ≤ D.EVAL_INF →
      Bounds D.EVAL_INF (-(alphabetaAux D d isRoot p a b c).1) (negamaxAux D d isRoot p) a b := by
  have hleaf : ∀ (q : BOARD_T) (a b : Int), q.numPlaceable < 256 →
      Bounds D.EVAL_INF (- -(evaluateBoard D q)) (evaluateBoard D q) a b := by
    intro q a b hq
    have := hE q hq
    rw [neg_neg]
    exact ⟨by omega, by omega, by omega, by omega, fun h => h, fun _ _ => rfl, fun h => h⟩
  have hwf : ∀ (isRoot : Bool) (p : BOARD_T), (isRoot = true → p.numPlaceable < 256) →
      (if isRoot then p else analyzeBoard p).numPlaceable < 256 := by
    intro isRoot p h
    cases isRoot
    · exact analyzeBoard_numPlaceable_lt p
    · exact h rfl
  have hpos := evalBounded_pos D hE
  intro d
  induction d with
  | zero =>
    intro isRoot p a b c hr _ _ _
    rw [alphabetaAux_zero, negamaxAux_zero]
    exact hleaf _ a b (hwf isRoot p hr)
  | succ d ih =>
    intro isRoot p a b c hr hab ha hb
    rw [alphabetaAux_succ, negamaxAux_succ]
    have hqwf := hwf isRoot p hr
    set q := (if isRoot then p else analyzeBoard p) with hq
    by_cases hg : isGameOver q = true
    · simp only [hg, if_true]
      exact hleaf _ a b hqwf
    · have hg2 : isGameOver q = false := by simpa using hg
      simp only [hg2, Bool.false_eq_true, if_false]
      by_cases hn : q.numPlaceable = 0
      · simp only [hn, if_true, neg_neg]
        have := ih false (passBoard q) (-b) (-a) c (by simp) (by omega) (by omega) (by omega)
        have h2 := bounds_neg _ _ _ _ _ this
        rw [neg_neg] at h2
        exact h2
      · simp only [hn, if_false]
        have hv : ∀ b', -D.EVAL_INF ≤ negamaxAux D d false b' ∧
            negamaxAux D d false b' ≤ D.EVAL_INF := by
          intro b'
          have := ih false b' (-D.EVAL_INF) D.EVAL_INF ⟨0, 0⟩ (by simp) hpos (le_refl _)
            (le_refl _)
          exact ⟨this.2.2.1, this.2.2.2.1⟩
        exact alphabetaLoop_bounds D.EVAL_INF (alphabetaAux D d false) (negamaxAux D d false) q
          isRoot a b hv
          (fun b' a' b'' c' h1 h2 h3 => ih false b' a' b'' c' (by simp) h1 h2 h3) ha hb
          scanCells a (-D.EVAL_INF) c (le_refl _) hab (by rw [max_eq_left ha]) (le_refl _)
          (by omega)

/-- With the full window alpha-beta returns the negated negamax value. -/
theorem alphabetaAux_full (D : DATA_T) (hE : EvalBounded D) (d : Nat) (isRoot : Bool)
    (p : BOARD_T) (hr : isRoot = true → p.numPlaceable < 256) (c : POS_T) :
    (alphabetaAux D d isRoot p (-D.EVAL_INF) D.EVAL_INF c).1 = -(negamaxAux D d isRoot p) := by
  have hpos := evalBounded_pos D hE
  obtain ⟨h1, h2, h3, h4, h5, h6, h7⟩ :=
    alphabetaAux_bounds D hE d isRoot p (-D.EVAL_INF) D.EVAL_INF c hr hpos (le_refl _)
      (le_refl _)
  by_cases ha : negamaxAux D d isRoot p ≤ -D.EVAL_INF
  · have := h5 ha; omega
  · by_cases hb : D.EVAL_INF ≤ negamaxAux D d isRoot p
    · have := h7 hb; omega
    · have := h6 (by omega) (by omega); omega


/-! ### Consistency of analysed boards -/

theorem mem_scanCells (x y : Nat) : (x, y) ∈ scanCells ↔ x < 8 ∧ y < 8 := by
  unfold scanCells
  simp only [List.mem_flatMap, List.mem_range, List.mem_map, Prod.mk.injEq]
  constructor
  · rintro ⟨a, ha, b, hb, rfl, rfl⟩; exact ⟨hb, ha⟩
  · rintro ⟨hx, hy⟩; exact ⟨y, hy, x, hx, rfl, rfl⟩

theorem countBits_pos_of_testBit (v i : Nat) (hi : i < 8) (h : v.testBit i = true) :
    1 ≤ countBits v := by
  rw [countBits_eq_countP]
  exact List.countP_pos_iff.2 ⟨i, List.mem_range.2 hi, h⟩

theorem le_sum_of_mem (f : Nat → Nat) (l : List Nat) (r : Nat) (hr : r ∈ l) :
    f r ≤ (l.map f).sum := by
  induction l with
  | nil => simp at hr
  | cons a l ih =>
    simp only [List.map_cons, List.sum_cons]
    rcases List.mem_cons.1 hr with rfl | h
    · omega
    · have := ih h; omega

/-- A set bit on the board makes the mask count positive. -/
theorem maskCount_pos (a : Nat → Nat) (i r : Nat) (hi : i < 8) (hr : r < 8)
    (h : (a r).testBit i = true) : 1 ≤ maskCount a := by
  unfold maskCount
  have h1 := countBits_pos_of_testBit (a r) i hi h
  have h2 := le_sum_of_mem (fun y => countBits (a y)) (List.range 8) r (List.mem_range.2 hr)
  simp only at h2
  omega

theorem countBits_le_seven (v i : Nat) (hi : i < 8) (h : v.testBit i = false) :
    countBits v ≤ 7 := by
  rw [countBits_eq_countP]
  have h1 := List.length_eq_countP_add_countP (fun j => v.testBit j) (List.range 8)
  have h2 : 1 ≤ (List.range 8).countP (fun j => ¬ (v.testBit j = true)) :=
    List.countP_pos_iff.2 ⟨i, List.mem_range.2 hi, by simp [h]⟩
  simp only [List.length_range] at h1
  omega

theorem sum_le_of_le (f g : Nat → Nat) (l : List Nat) (h : ∀ r ∈ l, f r ≤ g r) :
    (l.map f).sum ≤ (l.map g).sum := by
  induction l with
  | nil => simp
  | cons a l ih =>
    simp only [List.map_cons, List.sum_cons]
    have h1 := h a (List.mem_cons_self _ _)
    have h2 := ih (fun r hr => h r (List.mem_cons_of_mem _ hr))
    omega

/-- A clear bit on the board keeps the mask count below 64. -/
theorem maskCount_le_sixtythree (a : Nat → Nat) (i r : Nat) (hi : i < 8) (hr : r < 8)
    (h : (a r).testBit i = false) : maskCount a ≤ 63 := by
  unfold maskCount
  have h1 := countBits_le_seven (a r) i hi h
  have h2 := sum_map_switch (fun y => if y = r then countBits (a y) else 8)
    (fun y => if y = r then countBits (a y) + 1 else 8) r (List.range 8) (List.nodup_range 8)
    (List.mem_range.2 hr) (by simp) (by intro j _ hj; simp [hj])
  have h3 : ((List.range 8).map (fun y => countBits (a y))).sum ≤
      ((List.range 8).map (fun y => if y = r then countBits (a y) else 8)).sum := by
    apply sum_le_of_le
    intro j _
    by_cases hj : j = r
    · simp [hj]
    · simp only [hj, if_false]; exact countBits_le _
  have h4 : ((List.range 8).map (fun y => if y = r then countBits (a y) + 1 else 8)).sum ≤
      ((List.range 8).map (fun _ => 8)).sum := by
    apply sum_le_of_le
    intro j _
    by_cases hj : j = r
    · simp only [hj, if_true]; omega
    · simp [hj]
  have h5 : ((List.range 8).map (fun _ : Nat => 8)).sum = 64 := by decide
  omega

/-- A legal placement needs a stone of each colour on the board. -/
theorem legal_stones (p : BOARD_T) (x y : Int) (hl : Legal p x y) :
    1 ≤ maskCount p.black ∧ 1 ≤ maskCount p.white := by
  obtain ⟨-, v, -, s, hs1, hk, hb, ho⟩ := hl
  obtain ⟨hb1, ho1⟩ := hk 1 (le_refl _) hs1
  have key : ∀ (a : Nat → Nat) (cx cy : Int), OnBoard cx cy →
      (a cy.toNat).testBit cx.toNat = true → 1 ≤ maskCount a := by
    intro a cx cy hc h
    exact maskCount_pos a cx.toNat cy.toNat (by unfold OnBoard at hc; omega)
      (by unfold OnBoard at hc; omega) h
  unfold oppAt at ho1
  unfold ownAt at ho
  rw [isBlackAt_eq, isWhiteAt_eq] at ho1 ho
  cases ht : p.isWhiteTurn
  · simp only [ht, Bool.false_eq_true, if_false] at ho1 ho
    exact ⟨key _ _ _ hb ho, key _ _ _ hb1 ho1⟩
  · simp only [ht, if_true] at ho1 ho
    exact ⟨key _ _ _ hb1 ho1, key _ _ _ hb ho⟩

/-- A cell of the placeable set is an empty cell of the board. -/
theorem placeableAt_empty (p : BOARD_T) (x y : Nat) (h : placeableAt p x y = true) :
    x < 8 ∧ emptyAt p x y = true := by
  rw [placeableAt_eq] at h
  rw [emptyAt_eq]
  simp only [Int.toNat_ofNat, Bool.and_eq_true, decide_eq_true_eq] at h
  exact ⟨h.1.1, h.1.2⟩

/-- With a legal placement on the board, an analysed board is not terminal. -/
theorem analyzeBoard_not_over (p : BOARD_T) (hd : DisjointMasks p) (x y : Int)
    (hb : OnBoard x y) (hl : Legal p x y) : isGameOver (analyzeBoard p) = false := by
  obtain ⟨c1, c2, c3, c4⟩ := analyzeBoard_counters p hd
  obtain ⟨l1, l2⟩ := legal_stones p x y hl
  have hpl := (analyzeBoard_placeable p hd x y hb).2 hl
  have hcnt : 1 ≤ placeableCount (analyzeBoard p) := by
    unfold placeableCount
    apply maskCount_pos _ x.toNat y.toNat (by unfold OnBoard at hb; omega)
      (by unfold OnBoard at hb; omega)
    unfold placeableAt at hpl
    rw [and_bitOf_ne_zero] at hpl
    exact hpl
  have hst : stoneCount p ≤ 63 := by
    rw [stoneCount_eq p hd]
    apply maskCount_le_sixtythree _ x.toNat y.toNat (by unfold OnBoard at hb; omega)
      (by unfold OnBoard at hb; omega)
    have := hl.1
    rw [emptyAt_eq] at this
    simpa using this
  unfold isGameOver
  rw [c1, c2, c3, c4]
  simp only [Bool.or_eq_false_iff, Bool.and_eq_false_iff, beq_eq_false_iff_ne, ne_eq]
  refine ⟨⟨⟨by omega, by omega⟩, by omega⟩, Or.inr (by omega)⟩

theorem sum_pos_exists (f : Nat → Nat) (l : List Nat) (h : 1 ≤ (l.map f).sum) :
    ∃ r ∈ l, 1 ≤ f r := by
  induction l with
  | nil => simp at h
  | cons a l ih =>
    simp only [List.map_cons, List.sum_cons] at h
    by_cases ha : 1 ≤ f a
    · exact ⟨a, List.mem_cons_self _ _, ha⟩
    · obtain ⟨r, hr, h1⟩ := ih (by omega)
      exact ⟨r, List.mem_cons_of_mem _ hr, h1⟩

/-- A non-zero `numPlaceable` after `analyzeBoard` comes with a cell of the placeable set. -/
theorem analyzeBoard_exists_placeable (p : BOARD_T) (hd : DisjointMasks p)
    (h : (analyzeBoard p).numPlaceable ≠ 0) :
    ∃ c ∈ scanCells, placeableAt (analyzeBoard p) c.1 c.2 = true := by
  obtain ⟨-, -, -, c4⟩ := analyzeBoard_counters p hd
  rw [c4] at h
  unfold placeableCount maskCount at h
  obtain ⟨r, hr, h1⟩ := sum_pos_exists _ _ (Nat.one_le_iff_ne_zero.2 h)
  rw [countBits_eq_countP] at h1
  obtain ⟨i, hi, h2⟩ := List.countP_pos_iff.1 h1
  refine ⟨(i, r), (mem_scanCells i r).2 ⟨List.mem_range.1 hi, List.mem_range.1 hr⟩, ?_⟩
  unfold placeableAt
  rw [and_bitOf_ne_zero]
  simpa [placeableRow] using h2


/-! ### The move chosen at the root -/

/-- A call of `alphabeta` that is not the root call leaves `cursorPos` alone. -/
theorem alphabetaLoop_cursor (search : BOARD_T → Int → Int → POS_T → Int × POS_T)
    (hs : ∀ b a b' c, (search b a b' c).2 = c) (p : BOARD_T) (beta : Int) :
    ∀ (cells : List (Nat × Nat)) (A : Int) (cur : POS_T),
      (alphabetaLoop search p false beta cells A cur).2 = cur := by
  intro cells
  induction cells with
  | nil => intro A cur; rfl
  | cons c cells ih =>
    intro A cur
    obtain ⟨x, y⟩ := c
    rw [alphabetaLoop_cons]
    simp only [hs, Bool.false_eq_true, if_false, ite_self]
    split_ifs <;> first | rfl | exact ih _ _

theorem alphabetaAux_cursor (D : DATA_T) :
    ∀ (d : Nat) (p : BOARD_T) (a b : Int) (c : POS_T),
      (alphabetaAux D d false p a b c).2 = c := by
  intro d
  induction d with
  | zero => intro p a b c; rfl
  | succ d ih =>
    intro p a b c
    rw [alphabetaAux_succ]
    simp only [Bool.false_eq_true, if_false]
    split_ifs
    · rfl
    · exact ih _ _ _ _
    · exact alphabetaLoop_cursor _ ih _ _ _ _ _

theorem childBoard_disjoint (p : BOARD_T) (hd : DisjointMasks p) (x y : Nat)
    (h : placeableAt p x y = true) (hy : y < 8) : DisjointMasks (childBoard p x y) := by
  obtain ⟨hx, he⟩ := placeableAt_empty p x y h
  have := (placeStone_spec p hd x y (by unfold OnBoard; omega) he).1
  exact this

theorem analyzeBoard_disjoint (p : BOARD_T) (hd : DisjointMasks p) :
    DisjointMasks (analyzeBoard p) := by
  obtain ⟨h1, h2, -, -⟩ := analyzeBoard_stones p hd
  exact disjointMasks_congr p _ h1.symm h2.symm hd

theorem negamax_fold_ge_mem (value : BOARD_T → Int) (p : BOARD_T) :
    ∀ (cells : List (Nat × Nat)) (B : Int) (c : Nat × Nat), c ∈ cells →
      placeableAt p c.1 c.2 = true →
      -(value (childBoard p c.1 c.2)) ≤ cells.foldl (negamaxStep value p) B := by
  have hmono : ∀ (cells : List (Nat × Nat)) (B : Int),
      B ≤ cells.foldl (negamaxStep value p) B := by
    intro cells
    induction cells with
    | nil => intro B; exact le_refl _
    | cons a cells ih =>
      intro B
      rw [List.foldl_cons]
      refine le_trans ?_ (ih _)
      unfold negamaxStep
      split_ifs
      · exact le_max_left _ _
      · exact le_refl _
  intro cells
  induction cells with
  | nil => intro B c hc; simp at hc
  | cons a cells ih =>
    intro B c hc hp
    rw [List.foldl_cons]
    rcases List.mem_cons.1 hc with rfl | h
    · refine le_trans ?_ (hmono _ _)
      unfold negamaxStep
      simp only [hp, if_true]
      exact le_max_right _ _
    · exact ih _ c h hp

theorem negamax_fold_lt (inf : Int) (value : BOARD_T → Int) (p : BOARD_T)
    (hv : ∀ c ∈ scanCells, placeableAt p c.1 c.2 = true → -(value (childBoard p c.1 c.2)) < inf) :
    ∀ (cells : List (Nat × Nat)) (B : Int), (∀ c ∈ cells, c ∈ scanCells) → B < inf →
      cells.foldl (negamaxStep value p) B < inf := by
  intro cells
  induction cells with
  | nil => intro B _ h; exact h
  | cons a cells ih =>
    intro B hm h
    rw [List.foldl_cons]
    apply ih _ (fun c hc => hm c (List.mem_cons_of_mem _ hc))
    unfold negamaxStep
    split_ifs with hp
    · exact max_lt h (hv a (hm a (List.mem_cons_self _ _)) hp)
    · exact h

/-- On boards with disjoint masks the negamax value of a position that is analysed first
lies strictly inside `(-EVAL_INF, EVAL_INF)`. -/
theorem negamaxAux_strict (D : DATA_T) (hE : EvalBounded D) :
    ∀ (d : Nat) (b : BOARD_T), DisjointMasks b →
      -D.EVAL_INF < negamaxAux D d false b ∧ negamaxAux D d false b < D.EVAL_INF := by
  intro d
  induction d with
  | zero =>
    intro b _
    rw [negamaxAux_zero]
    exact hE _ (analyzeBoard_numPlaceable_lt b)
  | succ d ih =>
    intro b hd
    rw [negamaxAux_succ]
    simp only [Bool.false_eq_true, if_false]
    have hdq := analyzeBoard_disjoint b hd
    split_ifs with hg hn
    · exact hE _ (analyzeBoard_numPlaceable_lt b)
    · have := ih (passBoard (analyzeBoard b)) hdq
      omega
    · obtain ⟨c, hc, hp⟩ := analyzeBoard_exists_placeable b hd hn
      have hchild : ∀ c ∈ scanCells, placeableAt (analyzeBoard b) c.1 c.2 = true →
          -D.EVAL_INF < -(negamaxAux D d false (childBoard (analyzeBoard b) c.1 c.2)) ∧
          -(negamaxAux D d false (childBoard (analyzeBoard b) c.1 c.2)) < D.EVAL_INF := by
        intro c hc hp
        have := ih _ (childBoard_disjoint _ hdq c.1 c.2 hp ((mem_scanCells c.1 c.2).1 hc).2)
        omega
      constructor
      · have h1 := negamax_fold_ge_mem (negamaxAux D d false) (analyzeBoard b) scanCells
          (-D.EVAL_INF) c hc hp
        have h2 := (hchild c hc hp).1
        omega
      · exact negamax_fold_lt D.EVAL_INF (negamaxAux D d false) (analyzeBoard b)
          (fun c hc hp => (hchild c hc hp).2) scanCells _ (fun c hc => hc)
          (evalBounded_pos D hE)

/-- The candidate loop of the root call with the window `(A, EVAL_INF)`: either no candidate
beats `A` and `cursorPos` is kept, or `cursorPos` becomes the first candidate in scan order
that reaches the highest score. -/
theorem alphabetaLoop_root (D : DATA_T) (hE : EvalBounded D) (d : Nat) (p : BOARD_T)
    (hd : DisjointMasks p) :
    ∀ (cells : List (Nat × Nat)) (A : Int) (cur : POS_T), (∀ c ∈ cells, c ∈ scanCells) →
      -D.EVAL_INF ≤ A → A < D.EVAL_INF →
      ((∀ c ∈ cells, placeableAt p c.1 c.2 = true → moveScore D d p c ≤ A) ∧
        alphabetaLoop (alphabetaAux D d false) p true D.EVAL_INF cells A cur = (-A, cur)) ∨
      (∃ l1 m l2, cells = l1 ++ m :: l2 ∧ placeableAt p m.1 m.2 = true ∧
        A < moveScore D d p m ∧
        alphabetaLoop (alphabetaAux D d false) p true D.EVAL_INF cells A cur =
          (-(moveScore D d p m), POS_T.mk m.1 m.2) ∧
        (∀ c ∈ l1, placeableAt p c.1 c.2 = true → moveScore D d p c < moveScore D d p m) ∧
        (∀ c ∈ l2, placeableAt p c.1 c.2 = true → moveScore D d p c ≤ moveScore D d p m)) := by
  intro cells
  induction cells with
  | nil =>
    intro A cur _ _ _
    left
    exact ⟨fun c hc => by simp at hc, rfl⟩
  | cons c cells ih =>
    intro A cur hm hA1 hA2
    obtain ⟨x, y⟩ := c
    have hm' : ∀ c ∈ cells, c ∈ scanCells := fun c hc => hm c (List.mem_cons_of_mem _ hc)
    rw [alphabetaLoop_cons]
    by_cases hp : placeableAt p x y = true
    · simp only [hp, if_true, alphabetaAux_cursor]
      have hy : y < 8 := ((mem_scanCells x y).1 (hm (x, y) (List.mem_cons_self _ _))).2
      have hdc := childBoard_disjoint p hd x y hp hy
      obtain ⟨c1, c2, c3, c4, c5, c6, c7⟩ := alphabetaAux_bounds D hE d false
        (childBoard p x y) (-D.EVAL_INF) (-A) cur (by simp) (by omega) (le_refl _) (by omega)
      obtain ⟨s1, s2⟩ := negamaxAux_strict D hE d (childBoard p x y) hdc
      have hsc : moveScore D d p (x, y) = -(negamaxAux D d false (childBoard p x y)) := rfl
      set e := (alphabetaAux D d false (childBoard p x y) (-D.EVAL_INF) (-A) cur).1 with he
      set Vc := negamaxAux D d false (childBoard p x y) with hVc
      by_cases hgt : -Vc > A
      · -- the candidate beats the best so far
        have he1 : e = -Vc := by have := c6 (by omega) (by omega); omega
        have hgt' : e > A := by omega
        have hnc : ¬ e ≥ D.EVAL_INF := by omega
        simp only [hgt', if_true, hnc, if_false]
        rcases ih e (POS_T.mk x y) hm' (by omega) (by omega) with ⟨i1, i2⟩ | ⟨l1, m, l2, j1, j2, j3, j4, j5, j6⟩
        · right
          refine ⟨[], (x, y), cells, rfl, hp, by rw [hsc]; omega, ?_, ?_, ?_⟩
          · rw [i2, he1, hsc]
          · intro c hc; simp at hc
          · intro c hc hpc
            have := i1 c hc hpc
            rw [hsc]; omega
        · right
          refine ⟨(x, y) :: l1, m, l2, by rw [j1]; rfl, j2, by omega, j4, ?_, j6⟩
          intro c hc hpc
          rcases List.mem_cons.1 hc with rfl | h
          · rw [hsc]; omega
          · exact j5 c h hpc
      · -- the candidate does not beat the best so far
        have he1 : e ≤ A := by have := c7 (by omega); omega
        have hgt' : ¬ e > A := by omega
        have hnc : ¬ A ≥ D.EVAL_INF := by omega
        simp only [hgt', if_false, hnc]
        rcases ih A cur hm' hA1 hA2 with ⟨i1, i2⟩ | ⟨l1, m, l2, j1, j2, j3, j4, j5, j6⟩
        · left
          refine ⟨?_, i2⟩
          intro c hc hpc
          rcases List.mem_cons.1 hc with rfl | h
          · rw [hsc]; omega
          · exact i1 c h hpc
        · right
          refine ⟨(x, y) :: l1, m, l2, by rw [j1]; rfl, j2, j3, j4, ?_, j6⟩
          intro c hc hpc
          rcases List.mem_cons.1 hc with rfl | h
          · rw [hsc]; omega
          · exact j5 c h hpc
    · simp only [hp, if_false]
      rcases ih A cur hm' hA1 hA2 with ⟨i1, i2⟩ | ⟨l1, m, l2, j1, j2, j3, j4, j5, j6⟩
      · left
        refine ⟨?_, i2⟩
        intro c hc hpc
        rcases List.mem_cons.1 hc with rfl | h
        · exact absurd hpc hp
        · exact i1 c h hpc
      · right
        refine ⟨(x, y) :: l1, m, l2, by rw [j1]; rfl, j2, j3, j4, ?_, j6⟩
        intro c hc hpc
        rcases List.mem_cons.1 hc with rfl | h
        · exact absurd hpc hp
        · exact j5 c h hpc


theorem toInt8_range (v : Int) : -128 ≤ toInt8 v ∧ toInt8 v ≤ 127 := by
  unfold toInt8
  omega

theorem evaluateBit_range (t : Nat → Int) (v : Nat) :
    -128 ≤ evaluateBit t v ∧ evaluateBit t v ≤ 127 := toInt8_range _

theorem evaluateRow_fold_range (D : DATA_T) (p : BOARD_T) :
    ∀ (l : List Nat) (e : Int),
      e - 510 * l.length ≤ l.foldl (evaluateRow D p) e ∧
      l.foldl (evaluateRow D p) e ≤ e + 510 * l.length := by
  intro l
  induction l with
  | nil => intro e; simp
  | cons y l ih =>
    intro e
    rw [List.foldl_cons]
    have h := ih (evaluateRow D p e y)
    have hs : e - 510 ≤ evaluateRow D p e y ∧ evaluateRow D p e y ≤ e + 510 := by
      unfold evaluateRow
      simp only
      have h1 := evaluateBit_range (D.evalStonesTable (if y < 4 then y else 7 - y))
        (p.black y &&& not8 (p.flag y))
      have h2 := evaluateBit_range (D.evalStonesTable (if y < 4 then y else 7 - y))
        (p.white y &&& not8 (p.flag y))
      have h3 := evaluateBit_range (D.evalFixedStonesTable (if y < 4 then y else 7 - y))
        (p.black y &&& p.flag y)
      have h4 := evaluateBit_range (D.evalFixedStonesTable (if y < 4 then y else 7 - y))
        (p.white y &&& p.flag y)
      omega
    simp only [List.length_cons, Nat.cast_add, Nat.cast_one]
    omega

/-- A sufficient condition on the constants of `data.h` for all evaluations to lie strictly
inside `(-EVAL_INF, EVAL_INF)`; the tables do not matter because their entries are read as
signed bytes. -/
theorem evalBounded_of (D : DATA_T) (M : Int) (hM : 4080 ≤ M)
    (hW : -M ≤ D.EVAL_WIN ∧ D.EVAL_WIN ≤ M) (hL : -M ≤ D.EVAL_LOSE ∧ D.EVAL_LOSE ≤ M)
    (hI : M + 255 < D.EVAL_INF)
    (hN : -D.EVAL_INF < D.EVAL_NOPLACEABLE - M ∧ D.EVAL_NOPLACEABLE + M < D.EVAL_INF) :
    EvalBounded D := by
  intro b hb
  have hS := evaluateRow_fold_range D b (List.range 8) 0
  simp only [List.length_range, Nat.cast_ofNat] at hS
  unfold evaluateBoard
  simp only
  split_ifs <;> omega

theorem sampleData_bounded : EvalBounded sampleData :=
  evalBounded_of sampleData 9999 (by norm_num) (by decide) (by decide) (by decide) (by decide)

theorem scanCells_sorted : scanCells.Pairwise (fun a b => scanIndex a < scanIndex b) := by
  decide

/-- In a split of the scan order around `m`, the cells before `m` are those with a smaller
scan index. -/
theorem scanCells_split (l1 l2 : List (Nat × Nat)) (m : Nat × Nat)
    (h : scanCells = l1 ++ m :: l2) (c : Nat × Nat) (hc : c ∈ scanCells) :
    (scanIndex c < scanIndex m → c ∈ l1) ∧ (c ≠ m → ¬ scanIndex c < scanIndex m → c ∈ l2) := by
  have hs := scanCells_sorted
  rw [h] at hs hc
  rw [List.pairwise_append] at hs
  obtain ⟨-, h2, h3⟩ := hs
  rw [List.pairwise_cons] at h2
  rcases List.mem_append.1 hc with h1 | h1
  · exact ⟨fun _ => h1, fun _ hn => absurd (h3 c h1 m (List.mem_cons_self _ _)) hn⟩
  · rcases List.mem_cons.1 h1 with rfl | h4
    · exact ⟨fun hlt => absurd hlt (lt_irrefl _), fun hne => absurd rfl hne⟩
    · exact ⟨fun hlt => absurd hlt (not_lt.2 (le_of_lt (h2.1 c h4))), fun _ _ => h4⟩

/-- The root call of `alphabeta` with the full window on an analysed board with a placement:
it returns the best score and leaves in `cursorPos` the first cell in scan order that
reaches it. -/
theorem alphabetaAux_root (D : DATA_T) (hE : EvalBounded D) (p0 : BOARD_T)
    (hd : DisjointMasks p0) (hn : 0 < (analyzeBoard p0).numPlaceable) (d : Nat) (cur : POS_T) :
    ∃ m : Nat × Nat, m.1 < 8 ∧ m.2 < 8 ∧ placeableAt (analyzeBoard p0) m.1 m.2 = true ∧
      alphabetaAux D (d + 1) true (analyzeBoard p0) (-D.EVAL_INF) D.EVAL_INF cur =
        (-(moveScore D d (analyzeBoard p0) m), POS_T.mk m.1 m.2) ∧
      ∀ c : Nat × Nat, c.1 < 8 → c.2 < 8 → placeableAt (analyzeBoard p0) c.1 c.2 = true →
        moveScore D d (analyzeBoard p0) c ≤ moveScore D d (analyzeBoard p0) m ∧
        (scanIndex c < scanIndex m →
          moveScore D d (analyzeBoard p0) c < moveScore D d (analyzeBoard p0) m) := by
  have hdp := analyzeBoard_disjoint p0 hd
  obtain ⟨c0, hc0, hp0⟩ := analyzeBoard_exists_placeable p0 hd (by omega)
  obtain ⟨hx0, hy0⟩ := (mem_scanCells c0.1 c0.2).1 hc0
  have hl0 : Legal p0 (c0.1 : Int) (c0.2 : Int) :=
    (analyzeBoard_placeable p0 hd _ _ (by unfold OnBoard; omega)).1 hp0
  have hgo := analyzeBoard_not_over p0 hd _ _ (by unfold OnBoard; omega) hl0
  have hnp : ¬ (analyzeBoard p0).numPlaceable = 0 := by omega
  have hpos := evalBounded_pos D hE
  rw [alphabetaAux_succ]
  simp only [if_true, hgo, Bool.false_eq_true, if_false, hnp]
  rcases alphabetaLoop_root D hE d (analyzeBoard p0) hdp scanCells (-D.EVAL_INF) cur
      (fun c hc => hc) (le_refl _) hpos with ⟨i1, -⟩ | ⟨l1, m, l2, j1, j2, j3, j4, j5, j6⟩
  · exfalso
    have h1 := i1 c0 hc0 hp0
    have h2 := negamaxAux_strict D hE d (childBoard (analyzeBoard p0) c0.1 c0.2)
      (childBoard_disjoint _ hdp c0.1 c0.2 hp0 hy0)
    unfold moveScore at h1
    omega
  · have hm : m ∈ scanCells := by rw [j1]; simp
    obtain ⟨hmx, hmy⟩ := (mem_scanCells m.1 m.2).1 hm
    refine ⟨m, hmx, hmy, j2, j4, ?_⟩
    intro c hcx hcy hpc
    have hc : c ∈ scanCells := (mem_scanCells c.1 c.2).2 ⟨hcx, hcy⟩
    obtain ⟨s1, s2⟩ := scanCells_split l1 l2 m j1 c hc
    constructor
    · by_cases hlt : scanIndex c < scanIndex m
      · exact le_of_lt (j5 c (s1 hlt) hpc)
      · by_cases hcm : c = m
        · rw [hcm]
        · exact j6 c (s2 hcm hlt) hpc
    · intro hlt
      exact j5 c (s1 hlt) hpc


theorem legal_congr (p q : BOARD_T) (hb : p.black = q.black) (hw : p.white = q.white)
    (ht : p.isWhiteTurn = q.isWhiteTurn) (x y : Int) : Legal p x y ↔ Legal q x y := by
  unfold Legal
  have he : emptyAt p x y = emptyAt q x y := by
    unfold emptyAt isBlackAt isWhiteAt; rw [hb, hw]
  rw [he]
  exact and_congr Iff.rfl
    (exists_congr (fun v => and_congr Iff.rfl (flippable_congr p q hb hw ht x y v.1 v.2)))

/-- On an analysed board the placeable set is the set of legal placements of that board. -/
theorem analyzeBoard_placeable_self (p0 : BOARD_T) (hd : DisjointMasks p0) (x y : Int)
    (hb : OnBoard x y) :
    placeableAt (analyzeBoard p0) x y = true ↔ Legal (analyzeBoard p0) x y := by
  obtain ⟨h1, h2, h3, -⟩ := analyzeBoard_stones p0 hd
  rw [analyzeBoard_placeable p0 hd x y hb]
  exact (legal_congr _ _ h1 h2 h3 x y).symm

/-- On an analysed board `numPlaceable` is positive exactly when a legal placement exists. -/
theorem analyzeBoard_numPlaceable_pos (p0 : BOARD_T) (hd : DisjointMasks p0) :
    0 < (analyzeBoard p0).numPlaceable ↔ ∃ x y : Int, OnBoard x y ∧ Legal p0 x y := by
  constructor
  · intro h
    obtain ⟨c, hc, hp⟩ := analyzeBoard_exists_placeable p0 hd (by omega)
    obtain ⟨hx, hy⟩ := (mem_scanCells c.1 c.2).1 hc
    have hb : OnBoard (c.1 : Int) (c.2 : Int) := by unfold OnBoard; omega
    exact ⟨c.1, c.2, hb, (analyzeBoard_placeable p0 hd _ _ hb).1 hp⟩
  · rintro ⟨x, y, hb, hl⟩
    have hpl := (analyzeBoard_placeable p0 hd x y hb).2 hl
    rw [(analyzeBoard_counters p0 hd).2.2.2]
    unfold placeableCount
    apply maskCount_pos _ x.toNat y.toNat (by unfold OnBoard at hb; omega)
      (by unfold OnBoard at hb; omega)
    unfold placeableAt at hpl
    rw [and_bitOf_ne_zero] at hpl
    exact hpl

/-! ## Stability: `checkFixCond`, `isFixed`, `checkFixedStones` -/

/-- The probe of `checkFixCond` never runs out of fuel from an on-board position. -/
theorem checkFixCondLoop_isSome (p : BOARD_T) (vx vy : Int) (cb : Bool) (hv : UnitDir vx vy) :
    ∀ (fuel : Nat) (ret : FIX_COND_T) (x y : Int), OnBoard x y →
      (if vx = 1 then 7 - x else if vx = -1 then x else if vy = 1 then 7 - y else y) < fuel →
      (checkFixCondLoop p vx vy cb fuel ret x y).isSome = true := by
  intro fuel
  induction fuel with
  | zero =>
    intro ret x y hb h; unfold OnBoard at hb; unfold UnitDir at hv; split_ifs at h <;> omega
  | succ n ih =>
    intro ret x y hb h
    unfold checkFixCondLoop
    simp only
    by_cases ho : offBoard (x + vx) (y + vy) = true
    · simp [ho]
    · have ho2 : offBoard (x + vx) (y + vy) = false := by simpa using ho
      have hb2 := (offBoard_eq_false_iff _ _).1 ho2
      have key : ∀ r, (checkFixCondLoop p vx vy cb n r (x + vx) (y + vy)).isSome = true := by
        intro r
        apply ih _ _ _ hb2
        unfold OnBoard at hb hb2; unfold UnitDir at hv
        split_ifs at h ⊢ <;> omega
      simp only [ho2]
      split_ifs <;> first | rfl | exact key _

/-- Function `checkFixCond` returns for every cell of the board and each of the eight
directions: its loop never uses up the fuel. -/
theorem checkFixCond_isSome (p : BOARD_T) (x y vx vy : Int) (cb : Bool) (hv : UnitDir vx vy)
    (hb : OnBoard x y) :
    (checkFixCondLoop p vx vy cb 9 FIX_COND_T.NEIGHBOR_FIXED x y).isSome = true := by
  apply checkFixCondLoop_isSome p vx vy cb hv 9 _ x y hb
  unfold OnBoard at hb; unfold UnitDir at hv
  split_ifs <;> omega

/-- A step off the board stays off the board further along the direction. -/
theorem offBoard_ray (x y vx vy : Int) (hv : UnitDir vx vy) (hb : OnBoard x y)
    (ho : ¬ OnBoard (x + vx) (y + vy)) (k : Nat) (hk : 1 ≤ k) :
    ¬ OnBoard (x + k * vx) (y + k * vy) := by
  obtain ⟨a1, a2, a3, a4, a5⟩ := hv
  have hvx : vx = -1 ∨ vx = 0 ∨ vx = 1 := by omega
  have hvy : vy = -1 ∨ vy = 0 ∨ vy = 1 := by omega
  unfold OnBoard at hb ho ⊢
  rcases hvx with rfl | rfl | rfl <;> rcases hvy with rfl | rfl | rfl <;>
    simp at a5 ho ⊢ <;> omega

theorem rayFull_step (p : BOARD_T) (x y vx vy : Int)
    (ho : occupiedAt p (x + vx) (y + vy) = true)
    (hr : RayFull p (x + vx) (y + vy) vx vy) : RayFull p x y vx vy := by
  intro k hk hb
  by_cases h1 : k = 1
  · subst h1
    simpa using ho
  · obtain ⟨j, rfl⟩ : ∃ j, k = j + 1 := ⟨k - 1, by omega⟩
    have e : ∀ a v : Int, a + ((j + 1 : Nat) : Int) * v = a + v + (j : Int) * v := by
      intro a v; push_cast; ring
    rw [e, e] at hb ⊢
    exact hr j (by omega) hb

/-- The second phase of the probe (after the first neighbour): the running result is
returned only if no empty cell follows. -/
theorem checkFixCondLoop_noEmpty (p : BOARD_T) (vx vy : Int) (cb : Bool) (hv : UnitDir vx vy) :
    ∀ (fuel : Nat) (x y : Int) (r : FIX_COND_T), OnBoard x y →
      checkFixCondLoop p vx vy cb fuel FIX_COND_T.NO_EMPTY x y = some r →
      r = FIX_COND_T.EXIST_EMPTY ∨ (r = FIX_COND_T.NO_EMPTY ∧ RayFull p x y vx vy) := by
  intro fuel
  induction fuel with
  | zero => intro x y r _ h; simp [checkFixCondLoop] at h
  | succ n ih =>
    intro x y r hb h
    unfold checkFixCondLoop at h
    simp only at h
    by_cases ho : offBoard (x + vx) (y + vy) = true
    · simp only [ho, if_true, Option.some.injEq] at h
      right
      refine ⟨h.symm, ?_⟩
      intro k hk hbk
      exact absurd hbk (offBoard_ray x y vx vy hv hb ((offBoard_eq_true_iff _ _).1 ho) k hk)
    · have ho2 : offBoard (x + vx) (y + vy) = false := by simpa using ho
      have hb2 := (offBoard_eq_false_iff _ _).1 ho2
      simp only [ho2, Bool.false_eq_true, if_false] at h
      by_cases he : (!isBlackAt p (x + vx) (y + vy) && !isWhiteAt p (x + vx) (y + vy)) = true
      · simp only [he, if_true, Option.some.injEq] at h
        exact Or.inl h.symm
      · have he2 : (!isBlackAt p (x + vx) (y + vy) && !isWhiteAt p (x + vx) (y + vy)) = false := by
          simpa using he
        simp only [he2, Bool.false_eq_true, if_false] at h
        have hne : ¬ (FIX_COND_T.NO_EMPTY = FIX_COND_T.NEIGHBOR_FIXED) := by decide
        simp only [hne, if_false] at h
        rcases ih _ _ _ hb2 h with h1 | ⟨h1, h2⟩
        · exact Or.inl h1
        · right
          refine ⟨h1, rayFull_step p x y vx vy ?_ h2⟩
          unfold occupiedAt
          revert he2
          cases isBlackAt p (x + vx) (y + vy) <;> cases isWhiteAt p (x + vx) (y + vy) <;> simp

/-- What the two informative results of `checkFixCond` mean. -/
theorem checkFixCond_spec (p : BOARD_T) (x y vx vy : Int) (cb : Bool) (hv : UnitDir vx vy)
    (hb : OnBoard x y) :
    (checkFixCond p x y vx vy cb = FIX_COND_T.NEIGHBOR_FIXED →
      ¬ OnBoard (x + vx) (y + vy) ∨
      (occupiedAt p (x + vx) (y + vy) = true ∧ isFlagAt p (x + vx) (y + vy) = true ∧
        isBlackAt p (x + vx) (y + vy) = cb)) ∧
    (checkFixCond p x y vx vy cb = FIX_COND_T.NO_EMPTY → RayFull p x y vx vy) := by
  have hsome := checkFixCondLoop_isSome p vx vy cb hv 9 FIX_COND_T.NEIGHBOR_FIXED x y hb (by
    unfold OnBoard at hb; unfold UnitDir at hv; split_ifs <;> omega)
  unfold checkFixCond
  cases hl : checkFixCondLoop p vx vy cb 9 FIX_COND_T.NEIGHBOR_FIXED x y with
  | none => rw [hl] at hsome; simp at hsome
  | some r =>
    simp only [Option.getD_some]
    unfold checkFixCondLoop at hl
    simp only at hl
    by_cases ho : offBoard (x + vx) (y + vy) = true
    · simp only [ho, if_true, Option.some.injEq] at hl
      subst hl
      exact ⟨fun _ => Or.inl ((offBoard_eq_true_iff _ _).1 ho), fun h => (by cases h)⟩
    · have ho2 : offBoard (x + vx) (y + vy) = false := by simpa using ho
      have hb2 := (offBoard_eq_false_iff _ _).1 ho2
      simp only [ho2, Bool.false_eq_true, if_false] at hl
      by_cases he : (!isBlackAt p (x + vx) (y + vy) && !isWhiteAt p (x + vx) (y + vy)) = true
      · simp only [he, if_true, Option.some.injEq] at hl
        subst hl
        exact ⟨fun h => (by cases h), fun h => (by cases h)⟩
      · have he2 : (!isBlackAt p (x + vx) (y + vy) && !isWhiteAt p (x + vx) (y + vy)) = false := by
          simpa using he
        have hocc : occupiedAt p (x + vx) (y + vy) = true := by
          unfold occupiedAt
          revert he2
          cases isBlackAt p (x + vx) (y + vy) <;> cases isWhiteAt p (x + vx) (y + vy) <;> simp
        simp only [he2, Bool.false_eq_true, if_false, if_true] at hl
        by_cases hf : (isFlagAt p (x + vx) (y + vy) &&
            (isBlackAt p (x + vx) (y + vy) == cb)) = true
        · simp only [hf, if_true, Option.some.injEq] at hl
          subst hl
          simp only [Bool.and_eq_true, beq_iff_eq] at hf
          exact ⟨fun _ => Or.inr ⟨hocc, hf.1, hf.2⟩, fun h => (by cases h)⟩
        · have hf2 : (isFlagAt p (x + vx) (y + vy) &&
              (isBlackAt p (x + vx) (y + vy) == cb)) = false := by simpa using hf
          simp only [hf2, Bool.false_eq_true, if_false] at hl
          rcases checkFixCondLoop_noEmpty p vx vy cb hv _ _ _ _ hb2 hl with h1 | ⟨h1, h2⟩
          · subst h1
            exact ⟨fun h => (by cases h), fun h => (by cases h)⟩
          · subst h1
            exact ⟨fun h => (by cases h), fun _ => rayFull_step p x y vx vy hocc h2⟩


theorem fixLines_unit : ∀ v ∈ fixLines, UnitDir v.1 v.2 ∧ UnitDir (-v.1) (-v.2) := by
  intro v hv
  simp only [fixLines, List.mem_cons, List.mem_singleton, List.mem_nil_iff, or_false] at hv
  rcases hv with rfl | rfl | rfl | rfl <;> (unfold UnitDir; decide)

theorem anchored_mono (S T : Int → Int → Prop) (h : ∀ a b, S a b → T a b) (p : BOARD_T)
    (x y vx vy : Int) (ha : Anchored S p x y vx vy) : Anchored T p x y vx vy := by
  rcases ha with h1 | ⟨h1, h2, h3⟩
  · exact Or.inl h1
  · exact Or.inr ⟨h1, h2, h _ _ h3⟩

theorem lineSafe_mono (S T : Int → Int → Prop) (h : ∀ a b, S a b → T a b) (p : BOARD_T)
    (x y vx vy : Int) (hl : LineSafe S p x y vx vy) : LineSafe T p x y vx vy := by
  rcases hl with h1 | h1 | h1
  · exact Or.inl (anchored_mono S T h p x y vx vy h1)
  · exact Or.inr (Or.inl (anchored_mono S T h p x y _ _ h1))
  · exact Or.inr (Or.inr h1)

theorem stableN_succ (p : BOARD_T) :
    ∀ (n : Nat) (x y : Int), StableN p n x y → StableN p (n + 1) x y := by
  intro n
  induction n with
  | zero => intro x y h; exact absurd h (by simp [StableN])
  | succ n ih =>
    intro x y h
    obtain ⟨h1, h2, h3⟩ := h
    exact ⟨h1, h2, fun v hv => lineSafe_mono _ _ ih p x y v.1 v.2 (h3 v hv)⟩

theorem stableN_le (p : BOARD_T) (n m : Nat) (hnm : n ≤ m) (x y : Int)
    (h : StableN p n x y) : StableN p m x y := by
  induction m with
  | zero =>
    have : n = 0 := by omega
    subst this; exact h
  | succ m ih =>
    by_cases hn : n = m + 1
    · subst hn; exact h
    · exact stableN_succ p m x y (ih (by omega))

/-- Stability reads only the two stone masks. -/
theorem stableN_congr (p q : BOARD_T) (hb : p.black = q.black) (hw : p.white = q.white) :
    ∀ (n : Nat) (x y : Int), StableN p n x y → StableN q n x y := by
  have ho : ∀ a b, occupiedAt p a b = occupiedAt q a b := by
    intro a b; unfold occupiedAt isBlackAt isWhiteAt; rw [hb, hw]
  have hB : ∀ a b, isBlackAt p a b = isBlackAt q a b := by
    intro a b; unfold isBlackAt; rw [hb]
  have hray : ∀ x y vx vy, RayFull p x y vx vy → RayFull q x y vx vy := by
    intro x y vx vy h k hk hbk
    rw [← ho]; exact h k hk hbk
  intro n
  induction n with
  | zero => intro x y h; exact absurd h (by simp [StableN])
  | succ n ih =>
    intro x y h
    obtain ⟨h1, h2, h3⟩ := h
    refine ⟨h1, by rw [← ho]; exact h2, ?_⟩
    intro v hv
    have hanch : ∀ vx vy, Anchored (StableN p n) p x y vx vy →
        Anchored (StableN q n) q x y vx vy := by
      intro vx vy ha
      rcases ha with a1 | ⟨a1, a2, a3⟩
      · exact Or.inl a1
      · exact Or.inr ⟨by rw [← ho]; exact a1, by rw [← hB, ← hB]; exact a2, ih _ _ a3⟩
    rcases h3 v hv with l1 | l1 | l1
    · exact Or.inl (hanch _ _ l1)
    · exact Or.inr (Or.inl (hanch _ _ l1))
    · exact Or.inr (Or.inr ⟨hray _ _ _ _ l1.1, hray _ _ _ _ l1.2⟩)

theorem stable_congr (p q : BOARD_T) (hb : p.black = q.black) (hw : p.white = q.white)
    (x y : Int) (h : Stable p x y) : Stable q x y := by
  obtain ⟨n, hn⟩ := h
  exact ⟨n, stableN_congr p q hb hw n x y hn⟩

theorem lineOpen_false (c1 c2 : FIX_COND_T) (h : lineOpen c1 c2 = false) :
    c1 = FIX_COND_T.NEIGHBOR_FIXED ∨ c2 = FIX_COND_T.NEIGHBOR_FIXED ∨
      (c1 = FIX_COND_T.NO_EMPTY ∧ c2 = FIX_COND_T.NO_EMPTY) := by
  cases c1 <;> cases c2 <;> simp_all [lineOpen]

/-- A stone that passes `isFixed` on a board whose flagged stones are stable is safe on
each of the four lines. -/
theorem isFixed_lineSafe (p : BOARD_T) (hs : FixedSound p) (x y : Int) (hb : OnBoard x y)
    (h : isFixed p x y (isBlackAt p x y) = true) :
    ∀ v ∈ fixLines, LineSafe (Stable p) p x y v.1 v.2 := by
  intro v hv
  unfold isFixed at h
  rw [List.all_eq_true] at h
  have h1 := h v hv
  simp only [Bool.not_eq_true'] at h1
  obtain ⟨u1, u2⟩ := fixLines_unit v hv
  obtain ⟨s1, s2⟩ := checkFixCond_spec p x y v.1 v.2 (isBlackAt p x y) u1 hb
  obtain ⟨t1, t2⟩ := checkFixCond_spec p x y (-v.1) (-v.2) (isBlackAt p x y) u2 hb
  have hanch : ∀ vx vy : Int,
      (¬ OnBoard (x + vx) (y + vy) ∨
        (occupiedAt p (x + vx) (y + vy) = true ∧ isFlagAt p (x + vx) (y + vy) = true ∧
          isBlackAt p (x + vx) (y + vy) = isBlackAt p x y)) →
      Anchored (Stable p) p x y vx vy := by
    intro vx vy ha
    rcases ha with a1 | ⟨a1, a2, a3⟩
    · exact Or.inl a1
    · by_cases hon : OnBoard (x + vx) (y + vy)
      · exact Or.inr ⟨a1, a3, hs _ _ hon a1 a2⟩
      · exact Or.inl hon
  rcases lineOpen_false _ _ h1 with c | c | ⟨c1, c2⟩
  · exact Or.inl (hanch _ _ (s1 c))
  · exact Or.inr (Or.inl (hanch _ _ (t1 c)))
  · exact Or.inr (Or.inr ⟨s2 c1, t2 c2⟩)

/-- Finitely many lines that are safe through stable neighbours are safe through neighbours
that are stable of one common rank. -/
theorem lineSafe_rank (p : BOARD_T) (x y : Int) :
    ∀ l : List (Int × Int), (∀ v ∈ l, LineSafe (Stable p) p x y v.1 v.2) →
      ∃ N, ∀ v ∈ l, LineSafe (StableN p N) p x y v.1 v.2 := by
  have hanch : ∀ vx vy : Int, Anchored (Stable p) p x y vx vy →
      ∃ n, Anchored (StableN p n) p x y vx vy := by
    intro vx vy ha
    rcases ha with a1 | ⟨a1, a2, n, a3⟩
    · exact ⟨0, Or.inl a1⟩
    · exact ⟨n, Or.inr ⟨a1, a2, a3⟩⟩
  intro l
  induction l with
  | nil => intro _; exact ⟨0, fun v hv => by simp at hv⟩
  | cons w l ih =>
    intro h
    obtain ⟨N, hN⟩ := ih (fun v hv => h v (List.mem_cons_of_mem _ hv))
    have hw : ∃ n, LineSafe (StableN p n) p x y w.1 w.2 := by
      rcases h w (List.mem_cons_self _ _) with a | a | a
      · obtain ⟨n, hn⟩ := hanch _ _ a; exact ⟨n, Or.inl hn⟩
      · obtain ⟨n, hn⟩ := hanch _ _ a; exact ⟨n, Or.inr (Or.inl hn)⟩
      · exact ⟨0, Or.inr (Or.inr a)⟩
    obtain ⟨n, hn⟩ := hw
    refine ⟨max n N, ?_⟩
    intro v hv
    rcases List.mem_cons.1 hv with rfl | hv'
    · exact lineSafe_mono _ _ (fun a b => stableN_le p n _ (le_max_left _ _) a b) p x y _ _ hn
    · exact lineSafe_mono _ _ (fun a b => stableN_le p N _ (le_max_right _ _) a b) p x y _ _
        (hN v hv')

/-- A stone that passes `isFixed` on a board whose flagged stones are stable is stable. -/
theorem isFixed_stable (p : BOARD_T) (hs : FixedSound p) (x y : Int) (hb : OnBoard x y)
    (ho : occupiedAt p x y = true) (h : isFixed p x y (isBlackAt p x y) = true) :
    Stable p x y := by
  obtain ⟨N, hN⟩ := lineSafe_rank p x y fixLines (isFixed_lineSafe p hs x y hb h)
  exact ⟨N + 1, hb, ho, hN⟩

theorem fixedSound_congr (p q : BOARD_T) (hb : p.black = q.black) (hw : p.white = q.white)
    (hf : ∀ x y : Int, OnBoard x y → occupiedAt q x y = true → isFlagAt q x y = true →
      isFlagAt p x y = true ∨ Stable p x y)
    (hs : FixedSound p) : FixedSound q := by
  intro x y hbd ho hfl
  have ho' : occupiedAt p x y = true := by
    unfold occupiedAt isBlackAt isWhiteAt at ho ⊢; rw [hb, hw]; exact ho
  rcases hf x y hbd ho hfl with h | h
  · exact stable_congr p q hb hw x y (hs x y hbd ho' h)
  · exact stable_congr p q hb hw x y h

/-- One row of `checkFixedStones` keeps the flagged stones stable. -/
theorem fixedRow_sound (p : BOARD_T) (u : Bool) (y : Nat) (hs : FixedSound p) :
    FixedSound (fixedRow (p, u) y).1 := by
  unfold fixedRow
  simp only
  split_ifs with hz
  · exact hs
  · refine fixedSound_congr p _ ?_ ?_ ?_ hs
    · rfl
    · rfl
    intro cx cy hbd ho hfl
    rw [isFlagAt_eq] at hfl
    simp only [setRow] at hfl
    have ho' : occupiedAt p cx cy = true := ho
    by_cases hr : cy.toNat = y
    · simp only [hr, if_true] at hfl
      rw [fixedCell_fold_fst] at hfl
      simp only [Bool.or_eq_true, Bool.and_eq_true] at hfl
      rcases hfl with h | ⟨-, -, h⟩
      · left
        rw [isFlagAt_eq, hr]; exact h
      · right
        have hcx : ((cx.toNat : Nat) : Int) = cx := by unfold OnBoard at hbd; omega
        have hcy : ((y : Nat) : Int) = cy := by unfold OnBoard at hbd; omega
        rw [hcx, hcy] at h
        have hB : (p.black y).testBit cx.toNat = isBlackAt p cx cy := by
          rw [isBlackAt_eq, hr]
        rw [hB] at h
        exact isFixed_stable p hs cx cy hbd ho' h
    · simp only [hr, if_false] at hfl
      left
      rw [isFlagAt_eq]; exact hfl

theorem fixedPass_sound (p : BOARD_T) (hs : FixedSound p) : FixedSound (fixedPass p).1 := by
  unfold fixedPass
  apply foldl_invariant (fun acc : BOARD_T × Bool => FixedSound acc.1) fixedRow
  · intro b a hb
    exact fixedRow_sound b.1 b.2 a hb
  · refine fixedSound_congr p _ ?_ ?_ ?_ hs
    · rfl
    · rfl
    · exact fun x y _ _ h => Or.inl h

theorem checkFixedStonesLoop_sound :
    ∀ (fuel : Nat) (p q : BOARD_T), FixedSound p → checkFixedStonesLoop fuel p = some q →
      FixedSound q := by
  intro fuel
  induction fuel with
  | zero => intro p q _ h; simp [checkFixedStonesLoop] at h
  | succ n ih =>
    intro p q hs h
    unfold checkFixedStonesLoop at h
    simp only at h
    split_ifs at h
    · exact ih _ _ (fixedPass_sound p hs) h
    · simp only [Option.some.injEq] at h
      rw [← h]
      exact fixedPass_sound p hs

/-- Function `checkFixedStones` flags stable stones only. -/
theorem checkFixedStones_sound (p : BOARD_T) (hs : FixedSound p) :
    FixedSound (checkFixedStones p) := by
  unfold checkFixedStones
  cases h : checkFixedStonesLoop 65 p with
  | none => exact hs
  | some q => exact checkFixedStonesLoop_sound 65 p q hs h

/-- Function `analyzeBoard` keeps the flagged stones stable. -/
theorem analyzeBoard_sound (p : BOARD_T) (hd : DisjointMasks p) (hs : FixedSound p) :
    FixedSound (analyzeBoard p) := by
  rw [analyzeBoard_eq]
  apply checkFixedStones_sound
  obtain ⟨a1, a2, -, -, a5⟩ := analyzeScan_spec p hd
  apply fixedSound_congr p _ a1.symm a2.symm _ hs
  intro x y hbd ho hfl
  left
  rw [isFlagAt_eq] at hfl ⊢
  rw [a5 _ _ (by unfold OnBoard at hbd; omega)] at hfl
  rw [occupiedAt_eq, a1, a2] at ho
  simp only [ho, Bool.true_eq_false, and_false, if_false] at hfl
  exact hfl


theorem fixLines_cover (vx vy : Int) (hv : UnitDir vx vy) :
    (vx, vy) ∈ fixLines ∨ (-vx, -vy) ∈ fixLines := by
  obtain ⟨a1, a2, a3, a4, a5⟩ := hv
  have hvx : vx = -1 ∨ vx = 0 ∨ vx = 1 := by omega
  have hvy : vy = -1 ∨ vy = 0 ∨ vy = 1 := by omega
  rcases hvx with rfl | rfl | rfl <;> rcases hvy with rfl | rfl | rfl <;>
    simp [fixLines] at a5 ⊢

theorem stableN_lineSafe (p : BOARD_T) (n : Nat) (x y : Int) (h : StableN p (n + 1) x y)
    (vx vy : Int) (hv : UnitDir vx vy) : LineSafe (StableN p n) p x y vx vy := by
  obtain ⟨-, -, h3⟩ := h
  rcases fixLines_cover vx vy hv with hm | hm
  · exact h3 (vx, vy) hm
  · have h' : LineSafe (StableN p n) p x y (-vx) (-vy) := h3 (-vx, -vy) hm
    unfold LineSafe at h'
    rw [neg_neg, neg_neg] at h'
    rcases h' with a | a | a
    · exact Or.inr (Or.inl a)
    · exact Or.inl a
    · exact Or.inr (Or.inr ⟨a.2, a.1⟩)

theorem stableN_onBoard (p : BOARD_T) (n : Nat) (x y : Int) (h : StableN p n x y) :
    OnBoard x y ∧ occupiedAt p x y = true := by
  cases n with
  | zero => exact absurd h (by simp [StableN])
  | succ n => exact ⟨h.1, h.2.1⟩

theorem empty_not_occupied (p : BOARD_T) (x y : Int) (he : emptyAt p x y = true)
    (ho : occupiedAt p x y = true) : False := by
  unfold emptyAt at he
  unfold occupiedAt at ho
  revert he ho
  cases isBlackAt p x y <;> cases isWhiteAt p x y <;> simp

/-- A stable stone is in no run that a placement at an empty cell flips. -/
theorem stableN_not_onRun (p : BOARD_T) (hd : DisjointMasks p) :
    ∀ (n : Nat) (x y : Int), StableN p n x y →
      ∀ ex ey vx vy : Int, UnitDir vx vy → OnBoard ex ey → emptyAt p ex ey = true →
        ¬ OnRun p ex ey vx vy x y := by
  intro n
  induction n with
  | zero => intro x y h; exact absurd h (by simp [StableN])
  | succ n ih =>
    intro x y h ex ey vx vy hv hbe he hrun
    obtain ⟨s, k, hs, hk1, hk2, rfl, rfl⟩ := hrun
    obtain ⟨hs1, hsk, hsb, hso⟩ := hs
    have e1 : ∀ a v : Int, a + (k : Int) * v + v = a + ((k + 1 : Nat) : Int) * v := by
      intro a v; push_cast; ring
    have e2 : ∀ a v : Int, a + (k : Int) * v + -v = a + ((k - 1 : Nat) : Int) * v := by
      intro a v
      have : ((k - 1 : Nat) : Int) = (k : Int) - 1 := by omega
      rw [this]; ring
    have e3 : ∀ a v : Int, a + (k : Int) * v + (k : Int) * -v = a := by
      intro a v; ring
    obtain ⟨hbk, hok⟩ := hsk k hk1 hk2
    rcases stableN_lineSafe p n _ _ h vx vy hv with a | a | a
    · -- the next cell of the run, or its terminator, protects the stone
      rw [Anchored, e1, e1] at a
      by_cases hks : k + 1 ≤ s
      · obtain ⟨hb2, -⟩ := hsk (k + 1) (by omega) hks
        rcases a with a | ⟨-, -, a3⟩
        · exact a hb2
        · exact ih _ _ a3 ex ey vx vy hv hbe he
            ⟨s, k + 1, ⟨hs1, hsk, hsb, hso⟩, by omega, hks, rfl, rfl⟩
      · have hks' : k = s := by omega
        subst hks'
        rcases a with a | ⟨-, a2, -⟩
        · exact a hsb
        · have n1 := not_both p hd _ _ hsb
          have n2 := not_both p hd _ _ hbk
          unfold ownAt at hso
          unfold oppAt at hok
          revert hso hok n1 n2 a2
          generalize isBlackAt p (ex + ((k + 1 : Nat) : Int) * vx) (ey + ((k + 1 : Nat) : Int) * vy) = B1
          generalize isWhiteAt p (ex + ((k + 1 : Nat) : Int) * vx) (ey + ((k + 1 : Nat) : Int) * vy) = W1
          generalize isBlackAt p (ex + (k : Int) * vx) (ey + (k : Int) * vy) = B2
          generalize isWhiteAt p (ex + (k : Int) * vx) (ey + (k : Int) * vy) = W2
          generalize p.isWhiteTurn = T
          cases B1 <;> cases W1 <;> cases B2 <;> cases W2 <;> cases T <;> simp
    · -- the previous cell of the run, or the placed cell, protects the stone
      rw [Anchored, e2, e2] at a
      by_cases hk : k = 1
      · subst hk
        simp only [Nat.sub_self, Nat.cast_zero, zero_mul, add_zero] at a
        rcases a with a | ⟨a1, -, -⟩
        · exact a hbe
        · exact empty_not_occupied p ex ey he a1
      · obtain ⟨hb2, -⟩ := hsk (k - 1) (by omega) (by omega)
        rcases a with a | ⟨-, -, a3⟩
        · exact a hb2
        · exact ih _ _ a3 ex ey vx vy hv hbe he
            ⟨s, k - 1, ⟨hs1, hsk, hsb, hso⟩, by omega, by omega, rfl, rfl⟩
    · -- the line is full, but the placed cell is on it and empty
      have := a.2 k hk1
      rw [e3, e3] at this
      exact empty_not_occupied p ex ey he (this hbe)

/-- A stable stone keeps its colour under `placeStone` at any empty cell. -/
theorem stable_keeps_colour (p : BOARD_T) (hd : DisjointMasks p) (ex ey : Int)
    (hb : OnBoard ex ey) (he : emptyAt p ex ey = true) (x y : Int) (hs : Stable p x y) :
    isWhiteAt (placeStone p ex ey) x y = isWhiteAt p x y ∧
    isBlackAt (placeStone p ex ey) x y = isBlackAt p x y := by
  obtain ⟨n, hn⟩ := hs
  obtain ⟨hbx, hox⟩ := stableN_onBoard p n x y hn
  obtain ⟨-, -, -, -, -, h3, -⟩ := placeStone_spec p hd ex ey hb he
  apply h3 x y hbx.1 hbx.2.2.1
  · rintro ⟨rfl, rfl⟩
    exact empty_not_occupied p x y he hox
  · rintro ⟨v, hv, hr⟩
    exact stableN_not_onRun p hd n x y hn ex ey v.1 v.2 (directions_unit v hv) hb he hr

/-- A stable stone is still stable after `placeStone` at any empty cell. -/
theorem placeStone_stableN (p : BOARD_T) (hd : DisjointMasks p) (ex ey : Int)
    (hb : OnBoard ex ey) (he : emptyAt p ex ey = true) :
    ∀ (n : Nat) (x y : Int), StableN p n x y → StableN (placeStone p ex ey) n x y := by
  have hocc : ∀ cx cy : Int, OnBoard cx cy → occupiedAt p cx cy = true →
      occupiedAt (placeStone p ex ey) cx cy = true := by
    intro cx cy hc ho
    rw [placeStone_occupied p hd ex ey hb he cx cy hc, ho]
    rfl
  have hray : ∀ x y vx vy : Int, RayFull p x y vx vy →
      RayFull (placeStone p ex ey) x y vx vy := by
    intro x y vx vy h k hk hbk
    exact hocc _ _ hbk (h k hk hbk)
  intro n
  induction n with
  | zero => intro x y h; exact absurd h (by simp [StableN])
  | succ n ih =>
    intro x y h
    have hcol := stable_keeps_colour p hd ex ey hb he x y ⟨n + 1, h⟩
    obtain ⟨h1, h2, h3⟩ := h
    refine ⟨h1, hocc x y h1 h2, ?_⟩
    intro v hv
    have hanch : ∀ vx vy : Int, Anchored (StableN p n) p x y vx vy →
        Anchored (StableN (placeStone p ex ey) n) (placeStone p ex ey) x y vx vy := by
      intro vx vy ha
      rcases ha with a | ⟨a1, a2, a3⟩
      · exact Or.inl a
      · obtain ⟨hbn, -⟩ := stableN_onBoard p n _ _ a3
        have hcn := stable_keeps_colour p hd ex ey hb he _ _ ⟨n, a3⟩
        exact Or.inr ⟨hocc _ _ hbn a1, by rw [hcn.2, hcol.2]; exact a2, ih _ _ a3⟩
    rcases h3 v hv with a | a | a
    · exact Or.inl (hanch _ _ a)
    · exact Or.inr (Or.inl (hanch _ _ a))
    · exact Or.inr (Or.inr ⟨hray _ _ _ _ a.1, hray _ _ _ _ a.2⟩)

/-- One legal turn of the game keeps the masks disjoint, keeps a stable stone stable and
keeps its colour. -/
theorem playMove_stable (p : BOARD_T) (hd : DisjointMasks p) (m : MOVE_T) (hm : MoveLegal p m)
    (x y : Int) (hs : Stable p x y) :
    DisjointMasks (playMove p m) ∧ Stable (playMove p m) x y ∧
    isWhiteAt (playMove p m) x y = isWhiteAt p x y ∧
    isBlackAt (playMove p m) x y = isBlackAt p x y := by
  cases m with
  | place ex ey =>
    obtain ⟨hx, hy, hp⟩ := hm
    obtain ⟨-, he⟩ := placeableAt_empty p ex ey hp
    have hb : OnBoard (ex : Int) (ey : Int) := by unfold OnBoard; omega
    have hdq := (placeStone_spec p hd ex ey hb he).1
    have hcol := stable_keeps_colour p hd ex ey hb he x y hs
    obtain ⟨n, hn⟩ := hs
    have hsq := placeStone_stableN p hd ex ey hb he n x y hn
    have hdq' : DisjointMasks { placeStone p ex ey with
        isWhiteTurn := !(placeStone p ex ey).isWhiteTurn, isLastPassed := false } := hdq
    obtain ⟨a1, a2, -, -⟩ := analyzeBoard_stones _ hdq'
    have a1' : (placeStone p ex ey).black = (playMove p (MOVE_T.place ex ey)).black := a1.symm
    have a2' : (placeStone p ex ey).white = (playMove p (MOVE_T.place ex ey)).white := a2.symm
    refine ⟨analyzeBoard_disjoint _ hdq',
      ⟨n, stableN_congr (placeStone p ex ey) _ a1' a2' n x y hsq⟩, ?_, ?_⟩
    · rw [← hcol.1]
      unfold playMove endOfMove isWhiteAt
      rw [a2]
    · rw [← hcol.2]
      unfold playMove endOfMove isBlackAt
      rw [a1]
  | pass =>
    have hdq' : DisjointMasks { p with isWhiteTurn := !p.isWhiteTurn, isLastPassed := true } := hd
    obtain ⟨a1, a2, -, -⟩ := analyzeBoard_stones _ hdq'
    obtain ⟨n, hn⟩ := hs
    have a1' : p.black = (playMove p MOVE_T.pass).black := a1.symm
    have a2' : p.white = (playMove p MOVE_T.pass).white := a2.symm
    refine ⟨analyzeBoard_disjoint _ hdq', ⟨n, stableN_congr p _ a1' a2' n x y hn⟩, ?_, ?_⟩
    · unfold playMove passTurn isWhiteAt
      rw [a2]
    · unfold playMove passTurn isBlackAt
      rw [a1]

/-- A stable stone keeps its colour along every sequence of legal turns. -/
theorem playMoves_stable :
    ∀ (ms : List MOVE_T) (p : BOARD_T), DisjointMasks p → LegalGame p ms →
      ∀ x y : Int, Stable p x y →
        isWhiteAt (playMoves p ms) x y = isWhiteAt p x y ∧
        isBlackAt (playMoves p ms) x y = isBlackAt p x y := by
  intro ms
  induction ms with
  | nil => intro p _ _ x y _; exact ⟨rfl, rfl⟩
  | cons m ms ih =>
    intro p hd hg x y hs
    obtain ⟨hm, hg'⟩ := hg
    obtain ⟨h1, h2, h3, h4⟩ := playMove_stable p hd m hm x y hs
    have := ih (playMove p m) h1 hg' x y h2
    unfold playMoves at this ⊢
    rw [List.foldl_cons, this.1, this.2, h3, h4]
    exact ⟨rfl, rfl⟩


/-- After `analyzeBoard` on a board without flag bits on occupied cells, every flagged stone
is stable. -/
theorem analyzeBoard_flag_stable (p0 : BOARD_T) (hd : DisjointMasks p0)
    (hf : ∀ x y : Int, OnBoard x y → occupiedAt p0 x y = true → isFlagAt p0 x y = false)
    (x y : Int) (hb : OnBoard x y) (ho : occupiedAt (analyzeBoard p0) x y = true)
    (hfl : isFlagAt (analyzeBoard p0) x y = true) : Stable (analyzeBoard p0) x y := by
  have hs0 : FixedSound p0 := by
    intro a b hab hoab hfab
    rw [hf a b hab hoab] at hfab
    exact absurd hfab (by simp)
  exact analyzeBoard_sound p0 hd hs0 x y hb ho hfl

/-- An invariant of the loop body at the visited elements is an invariant of the loop. -/
theorem foldl_invariant_mem {α β : Type} (P : β → Prop) (f : β → α → β) :
    ∀ (l : List α) (b : β), (∀ b a, a ∈ l → P b → P (f b a)) → P b → P (l.foldl f b) := by
  intro l
  induction l with
  | nil => intro b _ hb; exact hb
  | cons a l ih =>
    intro b h hb
    exact ih _ (fun b' a' ha' => h b' a' (List.mem_cons_of_mem _ ha'))
      (h b a (List.mem_cons_self _ _) hb)

/-- The column loop of `checkFixedStones` reports an update only if it has set a flag bit
that was clear on a stone. -/
theorem fixedCell_fold_snd (p : BOARD_T) (y : Int) (black stones : Nat) :
    ∀ (l : List Nat) (flag : Nat) (u : Bool),
      (l.foldl (fixedCell p y black stones) (flag, u)).2 = true →
      u = true ∨ ∃ i, i < 8 ∧ stones.testBit i = true ∧ flag.testBit i = false ∧
        (l.foldl (fixedCell p y black stones) (flag, u)).1.testBit i = true := by
  intro l
  induction l with
  | nil => intro flag u h; exact Or.inl h
  | cons x l ih =>
    intro flag u h
    rw [List.foldl_cons] at h ⊢
    have hfst := fixedCell_fst p y black stones flag u x
    cases hc : fixedCell p y black stones (flag, u) x with
    | mk f1 u1 =>
      rw [hc] at h
      have hgrow : ∀ i, flag.testBit i = true → f1.testBit i = true := by
        intro i hi
        have := fixedCell_fst p y black stones flag u x i
        rw [hc] at this
        simp only at this
        rw [this, hi]; rfl
      rcases ih f1 u1 h with h1 | ⟨i, h1, h2, h3, h4⟩
      · -- the update flag was raised at `x` or before
        by_cases hu : u = true
        · exact Or.inl hu
        · right
          have hu' : u = false := by simpa using hu
          have hcond : ((stones &&& bitOf x) != 0) = true ∧
              ((not8 flag &&& bitOf x) != 0 && isFixed p x y ((black &&& bitOf x) != 0)) = true := by
            unfold fixedCell at hc
            simp only at hc
            by_cases c1 : ((stones &&& bitOf x) != 0) = true
            · by_cases c2 : ((not8 flag &&& bitOf x) != 0 &&
                  isFixed p x y ((black &&& bitOf x) != 0)) = true
              · exact ⟨c1, c2⟩
              · have c2' : ((not8 flag &&& bitOf x) != 0 &&
                    isFixed p x y ((black &&& bitOf x) != 0)) = false := by simpa using c2
                simp only [c1, c2', if_true, Bool.false_eq_true, if_false, Prod.mk.injEq] at hc
                rw [← hc.2, hu'] at h1
                exact absurd h1 (by simp)
            · have c1' : ((stones &&& bitOf x) != 0) = false := by simpa using c1
              simp only [c1', Bool.false_eq_true, if_false, Prod.mk.injEq] at hc
              rw [← hc.2, hu'] at h1
              exact absurd h1 (by simp)
          obtain ⟨c1, c2⟩ := hcond
          rw [and_bitOf_ne_zero] at c1
          simp only [Bool.and_eq_true] at c2
          rw [and_bitOf_ne_zero, testBit_not8] at c2
          simp only [Int.toNat_ofNat, Bool.and_eq_true, decide_eq_true_eq,
            Bool.not_eq_true'] at c1 c2
          refine ⟨x, c2.1.1, c1, c2.1.2, ?_⟩
          rw [fixedCell_fold_fst]
          have hset : f1.testBit x = true := by
            have := fixedCell_fst p y black stones flag u x x
            rw [hc] at this
            simp only at this
            rw [this]
            rw [and_bitOf_ne_zero] at c2
            have hfix := c2.2
            simp only [Int.toNat_ofNat] at hfix
            simp [c2.1.1, c1, hfix]
          rw [hset]; rfl
      · right
        refine ⟨i, h1, h2, ?_, h4⟩
        cases hfi : flag.testBit i
        · rfl
        · rw [hgrow i hfi] at h3; exact absurd h3 (by simp)


theorem fixedRow_snd (p : BOARD_T) (u : Bool) (y : Nat) (h : (fixedRow (p, u) y).2 = true) :
    u = true ∨ ∃ i, i < 8 ∧ (p.black y ||| p.white y).testBit i = true ∧
      (p.flag y).testBit i = false ∧ ((fixedRow (p, u) y).1.flag y).testBit i = true := by
  unfold fixedRow at h ⊢
  simp only at h ⊢
  split_ifs at h ⊢ with hz
  · exact Or.inl h
  · rcases fixedCell_fold_snd p y (p.black y) (p.black y ||| p.white y) (List.range 8)
        (p.flag y) u h with h1 | ⟨i, h1, h2, h3, h4⟩
    · exact Or.inl h1
    · right
      refine ⟨i, h1, h2, h3, ?_⟩
      simp only [setRow, if_true]
      exact h4

/-- A pass of `checkFixedStones` that reports an update has flagged a stone that was not
flagged. -/
theorem fixedPass_snd (p : BOARD_T) (h : (fixedPass p).2 = true) : NewBit p (fixedPass p).1 := by
  have key : FlagsGrow p (fixedPass p).1 ∧ ((fixedPass p).2 = true → NewBit p (fixedPass p).1) := by
    unfold fixedPass
    apply foldl_invariant_mem
      (fun acc : BOARD_T × Bool => FlagsGrow p acc.1 ∧ (acc.2 = true → NewBit p acc.1)) fixedRow
    · intro b a ha hb
      obtain ⟨g, hn⟩ := hb
      have ha8 : a < 8 := List.mem_range.1 ha
      have gr := fixedRow_frame b.1 b.2 a
      have g2 := flagsGrow_trans _ _ _ g gr
      refine ⟨g2, ?_⟩
      intro hu
      rcases fixedRow_snd b.1 b.2 a hu with h1 | ⟨i, h1, h2, h3, h4⟩
      · obtain ⟨r, i, k1, k2, k3, k4, k5⟩ := hn h1
        exact ⟨r, i, k1, k2, k3, k4, (gr.2.2.2.2.2.2.2.2 r i).1 k5⟩
      · refine ⟨a, i, ha8, h1, ?_, ?_, h4⟩
        · rw [← g.1, ← g.2.1]; exact h2
        · cases hp : (p.flag a).testBit i
          · rfl
          · rw [(g.2.2.2.2.2.2.2.2 a i).1 hp] at h3; exact absurd h3 (by simp)
    · refine ⟨⟨rfl, rfl, rfl, rfl, rfl, rfl, rfl, rfl, fun r i => ⟨id, Or.inl⟩⟩, ?_⟩
      intro hf
      exact absurd hf (by simp)
  exact key.2 h

theorem countP_lt_of_imp (f g : Nat → Bool) (x : Nat) :
    ∀ l : List Nat, x ∈ l → (∀ i ∈ l, f i = true → g i = true) → f x = false → g x = true →
      l.countP f < l.countP g := by
  intro l
  induction l with
  | nil => intro hx; simp at hx
  | cons a l ih =>
    intro hx himp hfx hgx
    have hle : l.countP f ≤ l.countP g :=
      List.countP_mono_left (fun i hi => himp i (List.mem_cons_of_mem _ hi))
    simp only [List.countP_cons]
    rcases List.mem_cons.1 hx with rfl | hxl
    · simp only [hfx, hgx, Bool.false_eq_true, if_false, if_true]
      omega
    · have := ih hxl (fun i hi => himp i (List.mem_cons_of_mem _ hi)) hfx hgx
      have ha := himp a (List.mem_cons_self _ _)
      cases hfa : f a
      · simp only [Bool.false_eq_true, if_false, Nat.add_zero]
        split_ifs <;> omega
      · rw [ha hfa]; simp; omega

theorem sum_lt_of_le_of_lt (f g : Nat → Nat) (r0 : Nat) :
    ∀ l : List Nat, r0 ∈ l → (∀ r ∈ l, f r ≤ g r) → f r0 < g r0 →
      (l.map f).sum < (l.map g).sum := by
  intro l
  induction l with
  | nil => intro h; simp at h
  | cons a l ih =>
    intro hr hle hlt
    simp only [List.map_cons, List.sum_cons]
    have h1 := hle a (List.mem_cons_self _ _)
    have h2 := sum_le_of_le f g l (fun r hr => hle r (List.mem_cons_of_mem _ hr))
    rcases List.mem_cons.1 hr with rfl | hrl
    · omega
    · have := ih hrl (fun r hr => hle r (List.mem_cons_of_mem _ hr)) hlt
      omega

/-- A pass that flags a new stone lowers the number of unflagged stones. -/
theorem unfixedCount_lt (p q : BOARD_T) (hg : FlagsGrow p q) (hn : NewBit p q) :
    unfixedCount q < unfixedCount p := by
  obtain ⟨g1, g2, -, -, -, -, -, -, g9⟩ := hg
  obtain ⟨r0, i0, h1, h2, h3, h4, h5⟩ := hn
  unfold unfixedCount maskCount
  have hbit : ∀ (s : BOARD_T) (r i : Nat), i < 8 →
      ((s.black r ||| s.white r) &&& not8 (s.flag r)).testBit i =
        ((s.black r ||| s.white r).testBit i && !(s.flag r).testBit i) := by
    intro s r i hi
    rw [Nat.testBit_and, testBit_not8]
    simp [hi]
  apply sum_lt_of_le_of_lt _ _ r0 _ (List.mem_range.2 h1)
  · intro r _
    rw [countBits_eq_countP, countBits_eq_countP]
    apply List.countP_mono_left
    intro i hi hq
    have hi8 := List.mem_range.1 hi
    rw [hbit q r i hi8, g1, g2] at hq
    rw [hbit p r i hi8]
    simp only [Bool.and_eq_true, Bool.not_eq_true'] at hq ⊢
    refine ⟨hq.1, ?_⟩
    cases hp : (p.flag r).testBit i
    · rfl
    · rw [(g9 r i).1 hp] at hq; exact absurd hq.2 (by simp)
  · rw [countBits_eq_countP, countBits_eq_countP]
    apply countP_lt_of_imp _ _ i0 _ (List.mem_range.2 h2)
    · intro i hi hq
      have hi8 := List.mem_range.1 hi
      rw [hbit q r0 i hi8, g1, g2] at hq
      rw [hbit p r0 i hi8]
      simp only [Bool.and_eq_true, Bool.not_eq_true'] at hq ⊢
      refine ⟨hq.1, ?_⟩
      cases hp : (p.flag r0).testBit i
      · rfl
      · rw [(g9 r0 i).1 hp] at hq; exact absurd hq.2 (by simp)
    · rw [hbit q r0 i0 h2, h5]; simp
    · rw [hbit p r0 i0 h2, h3, h4]; rfl

/-- The loop of `checkFixedStones` stops before the fuel runs out when the fuel exceeds the
number of unflagged stones. -/
theorem checkFixedStonesLoop_isSome :
    ∀ (fuel : Nat) (p : BOARD_T), unfixedCount p < fuel →
      (checkFixedStonesLoop fuel p).isSome = true := by
  intro fuel
  induction fuel with
  | zero => intro p h; omega
  | succ n ih =>
    intro p h
    unfold checkFixedStonesLoop
    simp only
    by_cases hu : (fixedPass p).2 = true
    · simp only [hu, if_true]
      apply ih
      have := unfixedCount_lt p _ (fixedPass_frame p) (fixedPass_snd p hu)
      omega
    · simp [hu]

/-- Function `checkFixedStones` terminates: 65 passes are enough on every board, so the
result is the board of the last pass, which marked nothing new. -/
theorem checkFixedStones_terminates (p : BOARD_T) :
    ∃ q, checkFixedStonesLoop 65 p = some q ∧ checkFixedStones p = q := by
  have h := checkFixedStonesLoop_isSome 65 p (by
    have := maskCount_le (fun r => (p.black r ||| p.white r) &&& not8 (p.flag r))
    unfold unfixedCount; omega)
  unfold checkFixedStones
  cases hl : checkFixedStonesLoop 65 p with
  | none => rw [hl] at h; simp at h
  | some q => exact ⟨q, rfl, rfl⟩

/-! ## Terminal positions -/

theorem countBits_eq_zero (v : Nat) (h : ∀ i : Nat, i < 8 → v.testBit i = false) :
    countBits v = 0 := by
  unfold countBits
  rw [List.length_eq_zero, List.filter_eq_nil_iff]
  intro i hi
  rw [List.mem_range] at hi
  simp [h i hi]

theorem countBits_eq_eight (v : Nat) (h : ∀ i : Nat, i < 8 → v.testBit i = true) :
    countBits v = 8 := by
  unfold countBits
  have : (List.range 8).filter (fun i => v.testBit i) = List.range 8 := by
    rw [List.filter_eq_self]
    intro i hi
    rw [List.mem_range] at hi
    exact h i hi
  rw [this]; rfl

theorem maskCount_eq_zero_iff (a : Nat → Nat) :
    maskCount a = 0 ↔ ∀ r : Nat, r < 8 → ∀ i : Nat, i < 8 → (a r).testBit i = false := by
  constructor
  · intro h r hr i hi
    by_contra hc
    have := maskCount_pos a i r hi hr (by simpa using hc)
    omega
  · intro h
    unfold maskCount
    apply List.sum_eq_zero
    intro n hn
    rw [List.mem_map] at hn
    obtain ⟨r, hr, rfl⟩ := hn
    rw [List.mem_range] at hr
    exact countBits_eq_zero _ (h r hr)

theorem maskCount_eq_full_iff (a : Nat → Nat) :
    maskCount a = 64 ↔ ∀ r : Nat, r < 8 → ∀ i : Nat, i < 8 → (a r).testBit i = true := by
  constructor
  · intro h r hr i hi
    by_contra hc
    have := maskCount_le_sixtythree a i r hi hr (by simpa using hc)
    omega
  · intro h
    unfold maskCount
    have : (List.range 8).map (fun y => countBits (a y)) = (List.range 8).map (fun _ => 8) := by
      apply List.map_congr_left
      intro r hr
      rw [List.mem_range] at hr
      exact countBits_eq_eight _ (h r hr)
    rw [this]; rfl

/-- A statement about all cells of the board, in integer and in natural coordinates. -/
theorem forall_onBoard (P : Nat → Nat → Prop) :
    (∀ x y : Int, OnBoard x y → P x.toNat y.toNat) ↔
      ∀ r : Nat, r < 8 → ∀ i : Nat, i < 8 → P i r := by
  constructor
  · intro h r hr i hi
    have := h (i : Int) (r : Int) (by unfold OnBoard; omega)
    simpa using this
  · intro h x y hb
    unfold OnBoard at hb
    exact h y.toNat (by omega) x.toNat (by omega)

/-- A legal placement needs an empty cell. -/
theorem legal_not_full (p : BOARD_T) (hd : DisjointMasks p) (x y : Int) (hb : OnBoard x y)
    (hl : Legal p x y) : stoneCount p ≠ 64 := by
  rw [stoneCount_eq p hd]
  intro h
  rw [maskCount_eq_full_iff] at h
  have he := hl.1
  rw [emptyAt_eq] at he
  unfold OnBoard at hb
  have := h y.toNat (by omega) x.toNat (by omega)
  rw [this] at he
  simp at he

/-- On an analysed board the number of placeable cells is zero exactly when the side to move
has no legal placement. -/
theorem analyzeBoard_numPlaceable_zero (p : BOARD_T) (hd : DisjointMasks p) :
    (analyzeBoard p).numPlaceable = 0 ↔ ∀ x y : Int, OnBoard x y → ¬ Legal p x y := by
  have h := analyzeBoard_numPlaceable_pos p hd
  constructor
  · intro h0 x y hb hl
    have := h.2 ⟨x, y, hb, hl⟩
    omega
  · intro hn
    by_contra hc
    obtain ⟨x, y, hb, hl⟩ := h.1 (Nat.pos_of_ne_zero hc)
    exact hn x y hb hl

theorem isGameOver_iff (q : BOARD_T) :
    isGameOver q = true ↔ (q.numStones = 64 ∨ q.numBlack = 0 ∨ q.numWhite = 0 ∨
      (q.isLastPassed = true ∧ q.numPlaceable = 0)) := by
  unfold isGameOver
  simp only [Bool.or_eq_true, Bool.and_eq_true, beq_iff_eq]
  tauto

/-- The test of `isGameOver` on an analysed board, in terms of the cells of the board. -/
theorem isGameOver_analyzeBoard (p : BOARD_T) (hd : DisjointMasks p) :
    isGameOver (analyzeBoard p) = true ↔
      ((∀ x y : Int, OnBoard x y → occupiedAt p x y = true) ∨
       (∀ x y : Int, OnBoard x y → isBlackAt p x y = false) ∨
       (∀ x y : Int, OnBoard x y → isWhiteAt p x y = false) ∨
       (p.isLastPassed = true ∧ ∀ x y : Int, OnBoard x y → ¬ Legal p x y)) := by
  obtain ⟨hB, hW, hS, _⟩ := analyzeBoard_counters p hd
  have hL := (analyzeBoard_stones p hd).2.2.2
  have hP := analyzeBoard_numPlaceable_zero p hd
  have e1 : (∀ x y : Int, OnBoard x y → occupiedAt p x y = true) ↔ stoneCount p = 64 := by
    rw [stoneCount_eq p hd, maskCount_eq_full_iff]
    rw [← forall_onBoard (fun i r => (p.black r ||| p.white r).testBit i = true)]
    simp only [occupiedAt_eq]
  have e2 : (∀ x y : Int, OnBoard x y → isBlackAt p x y = false) ↔ maskCount p.black = 0 := by
    rw [maskCount_eq_zero_iff]
    rw [← forall_onBoard (fun i r => (p.black r).testBit i = false)]
    simp only [isBlackAt_eq]
  have e3 : (∀ x y : Int, OnBoard x y → isWhiteAt p x y = false) ↔ maskCount p.white = 0 := by
    rw [maskCount_eq_zero_iff]
    rw [← forall_onBoard (fun i r => (p.white r).testBit i = false)]
    simp only [isWhiteAt_eq]
  rw [e1, e2, e3, ← hP, isGameOver_iff, hB, hW, hS, hL]

/-- A board without a legal placement for the side to move that is terminal for another reason
than the last pass has no legal placement either: the three other tests exclude one. -/
theorem isGameOver_numPlaceable (p : BOARD_T) (hd : DisjointMasks p)
    (h : isGameOver (analyzeBoard p) = true) : (analyzeBoard p).numPlaceable = 0 := by
  rw [analyzeBoard_numPlaceable_zero p hd]
  intro x y hb hl
  have := analyzeBoard_not_over p hd x y hb hl
  rw [h] at this
  exact Bool.noConfusion this

/-- A board on which only the opponent can place a stone, and on which the last turn was not
a pass, is not terminal after analysis and has an empty placeable set. -/
theorem pass_not_over (q : BOARD_T) (hd : DisjointMasks q) (hlp : q.isLastPassed = false)
    (hno : ∀ x y : Int, OnBoard x y → ¬ Legal q x y)
    (hopp : ∃ x y : Int, OnBoard x y ∧ Legal (passBoard q) x y) :
    isGameOver (analyzeBoard q) = false ∧ (analyzeBoard q).numPlaceable = 0 := by
  obtain ⟨hB, hW, hS, _⟩ := analyzeBoard_counters q hd
  have hP := (analyzeBoard_numPlaceable_zero q hd).2 hno
  obtain ⟨x, y, hb, hl⟩ := hopp
  have hdq : DisjointMasks (passBoard q) := hd
  have h1 : stoneCount q ≠ 64 := legal_not_full (passBoard q) hdq x y hb hl
  have h2 : 1 ≤ maskCount q.black ∧ 1 ≤ maskCount q.white := legal_stones (passBoard q) x y hl
  refine ⟨?_, hP⟩
  rw [Bool.eq_false_iff]
  intro h
  rw [isGameOver_iff, hB, hW, hS, (analyzeBoard_stones q hd).2.2.2, hlp] at h
  rcases h with h | h | h | h
  · exact h1 h
  · omega
  · omega
  · exact Bool.noConfusion h.1

/-- The value of `evaluateBoard` on a terminal board without placeable cells. -/
theorem evaluateBoard_terminal (D : DATA_T) (b : BOARD_T) (h : isGameOver b = true)
    (h0 : b.numPlaceable = 0) :
    evaluateBoard D b =
      (if b.isWhiteTurn then -(terminalScore D b.numBlack b.numWhite)
        else terminalScore D b.numBlack b.numWhite) + D.EVAL_NOPLACEABLE := by
  unfold evaluateBoard terminalScore
  simp only [h, h0, if_true, Nat.cast_zero, add_zero]

/-- A flagged stone is still a flagged stone after a placement on an empty cell, the turn
update and `analyzeBoard`. -/
theorem endOfMove_keeps_flag (b : BOARD_T) (hd : DisjointMasks b) (x y : Int) (hb : OnBoard x y)
    (he : emptyAt b x y = true) (cx cy : Int) (hc : OnBoard cx cy)
    (ho : occupiedAt b cx cy = true) (hf : isFlagAt b cx cy = true) :
    occupiedAt (endOfMove (placeStone b x y)) cx cy = true ∧
    isFlagAt (endOfMove (placeStone b x y)) cx cy = true := by
  obtain ⟨hdq, _, _, _, _, _, hflag⟩ := placeStone_spec b hd x y hb he
  have hocc := placeStone_occupied b hd x y hb he cx cy hc
  have hne : ¬ (cx = x ∧ cy = y) := by
    rintro ⟨rfl, rfl⟩
    unfold emptyAt at he
    unfold occupiedAt at ho
    revert he ho
    cases isBlackAt b cx cy <;> cases isWhiteAt b cx cy <;> simp
  have hq1 : occupiedAt (placeStone b x y) cx cy = true := by rw [hocc, ho]; rfl
  have hq2 : isFlagAt (placeStone b x y) cx cy = true := by
    rw [hflag cx cy hc.1 hc.2.1 hc.2.2.1, hf]
    simp [hne]
  have key : ∀ r : BOARD_T, DisjointMasks r → occupiedAt r cx cy = true →
      isFlagAt r cx cy = true →
      occupiedAt (analyzeBoard r) cx cy = true ∧ isFlagAt (analyzeBoard r) cx cy = true := by
    intro r hr h1 h2
    obtain ⟨hb', hw', _, _⟩ := analyzeBoard_stones r hr
    constructor
    · rw [occupiedAt_eq, hb', hw', ← occupiedAt_eq]; exact h1
    · obtain ⟨_, _, _, _, hsc⟩ := analyzeScan_spec r hr
      have hg := (checkFixedStones_frame (analyzeScan r)).2.2.2.2.2.2.2.2
      rw [isFlagAt_eq, analyzeBoard_eq]
      apply (hg cy.toNat cx.toNat).1
      have hx8 : cx.toNat < 8 := by unfold OnBoard at hc; omega
      rw [hsc cy.toNat cx.toNat hx8]
      rw [occupiedAt_eq] at h1
      rw [isFlagAt_eq] at h2
      rw [if_neg (by rw [h1]; simp)]
      exact h2
  exact key _ hdq hq1 hq2

/-! ## The last pass of `checkFixedStones` -/

/-- Function `isFixed` reads the two stone masks and the flags only. -/
theorem isFixed_congr (p q : BOARD_T) (hb : p.black = q.black) (hw : p.white = q.white)
    (hf : p.flag = q.flag) (x y : Int) (c : Bool) : isFixed p x y c = isFixed q x y c := by
  have hloop : ∀ (vx vy : Int) (fuel : Nat) (ret : FIX_COND_T) (x y : Int),
      checkFixCondLoop p vx vy c fuel ret x y = checkFixCondLoop q vx vy c fuel ret x y := by
    intro vx vy fuel
    induction fuel with
    | zero => intro ret x y; rfl
    | succ n ih =>
      intro ret x y
      unfold checkFixCondLoop
      simp only [isBlackAt, isWhiteAt, isFlagAt, hb, hw, hf, ih]
  unfold isFixed checkFixCond
  simp only [hloop]

theorem fixedCell_eq (p : BOARD_T) (y : Int) (black stones flag : Nat) (u : Bool) (a : Nat) :
    fixedCell p y black stones (flag, u) a =
      if (stones.testBit a && (decide (a < 8) && !flag.testBit a) &&
          isFixed p a y (black.testBit a)) = true
      then (flag ||| bitOf a, true) else (flag, u) := by
  unfold fixedCell
  simp only [and_bitOf_ne_zero, testBit_not8, Int.toNat_ofNat]
  cases stones.testBit a <;> simp

/-- A column loop of `checkFixedStones` that ends with `isUpdated` false has changed nothing,
and every stone of the row without a flag fails `isFixed`. -/
theorem fixedCell_fold_false (p : BOARD_T) (y : Int) (black stones : Nat) :
    ∀ (l : List Nat) (flag : Nat) (u : Bool),
      (l.foldl (fixedCell p y black stones) (flag, u)).2 = false →
      u = false ∧ (l.foldl (fixedCell p y black stones) (flag, u)).1 = flag ∧
      ∀ i ∈ l, i < 8 → stones.testBit i = true → flag.testBit i = false →
        isFixed p i y (black.testBit i) = false := by
  intro l
  induction l with
  | nil => intro flag u h; exact ⟨h, rfl, by simp⟩
  | cons a l ih =>
    intro flag u h
    rw [List.foldl_cons] at h ⊢
    rw [fixedCell_eq] at h ⊢
    by_cases hc : (stones.testBit a && (decide (a < 8) && !flag.testBit a) &&
        isFixed p a y (black.testBit a)) = true
    · rw [if_pos hc] at h
      exact absurd (ih _ _ h).1 (by simp)
    · rw [if_neg hc] at h ⊢
      obtain ⟨h1, h2, h3⟩ := ih _ _ h
      refine ⟨h1, h2, ?_⟩
      intro i hi hi8 hs hfl
      rcases List.mem_cons.1 hi with rfl | hi'
      · simpa [hs, hi8, hfl] using hc
      · exact h3 i hi' hi8 hs hfl

theorem setRow_self (a : Nat → Nat) (y : Nat) : setRow a y (a y) = a := by
  funext r
  unfold setRow
  split_ifs with h
  · rw [h]
  · rfl

/-- A row step of `checkFixedStones` that ends with `isUpdated` false: masks and flags are
kept, the two counters grow by the flagged stones of the row, and every stone of the row
without a flag fails `isFixed`. -/
theorem fixedRow_false (b : BOARD_T) (u : Bool) (y : Nat) (h : (fixedRow (b, u) y).2 = false) :
    u = false ∧ (fixedRow (b, u) y).1.black = b.black ∧ (fixedRow (b, u) y).1.white = b.white ∧
    (fixedRow (b, u) y).1.flag = b.flag ∧
    (fixedRow (b, u) y).1.numFixedBlack =
      (if b.black y ||| b.white y = 0 then b.numFixedBlack
        else (b.numFixedBlack + countBits (b.black y &&& b.flag y)) % 256) ∧
    (fixedRow (b, u) y).1.numFixedWhite =
      (if b.black y ||| b.white y = 0 then b.numFixedWhite
        else (b.numFixedWhite + countBits (b.white y &&& b.flag y)) % 256) ∧
    ∀ i : Nat, i < 8 → (b.black y ||| b.white y).testBit i = true →
      (b.flag y).testBit i = false → isFixed b i y ((b.black y).testBit i) = false := by
  unfold fixedRow at h ⊢
  simp only at h ⊢
  by_cases hz : b.black y ||| b.white y = 0
  · rw [if_pos hz] at h ⊢
    rw [if_pos hz, if_pos hz]
    refine ⟨h, rfl, rfl, rfl, rfl, rfl, ?_⟩
    intro i _ hs
    rw [hz] at hs
    simp at hs
  · rw [if_neg hz] at h ⊢
    rw [if_neg hz, if_neg hz]
    obtain ⟨h1, h2, h3⟩ := fixedCell_fold_false b y (b.black y) (b.black y ||| b.white y)
      (List.range 8) (b.flag y) u h
    refine ⟨h1, rfl, rfl, ?_, ?_, ?_, ?_⟩
    · show setRow b.flag y _ = b.flag
      rw [h2, setRow_self]
    · show (b.numFixedBlack + countBits (b.black y &&& _)) % 256 = _
      rw [h2]
    · show (b.numFixedWhite + countBits (b.white y &&& _)) % 256 = _
      rw [h2]
    · intro i hi hs hfl
      exact h3 i (List.mem_range.2 hi) hi hs hfl

theorem countBits_zero_of_or (a b f : Nat) (h : a ||| b = 0) :
    countBits (a &&& f) = 0 ∧ countBits (b &&& f) = 0 := by
  have ha : ∀ i, a.testBit i = false := by
    intro i
    have := congrArg (fun v => v.testBit i) h
    simp only [Nat.testBit_or, Nat.zero_testBit, Bool.or_eq_false_iff] at this
    exact this.1
  have hb : ∀ i, b.testBit i = false := by
    intro i
    have := congrArg (fun v => v.testBit i) h
    simp only [Nat.testBit_or, Nat.zero_testBit, Bool.or_eq_false_iff] at this
    exact this.2
  constructor
  · apply countBits_eq_zero
    intro i _
    rw [Nat.testBit_and, ha i]; rfl
  · apply countBits_eq_zero
    intro i _
    rw [Nat.testBit_and, hb i]; rfl

/-- The row loop of `checkFixedStones` when it ends with `isUpdated` false. -/
theorem fixedRow_fold_false :
    ∀ (l : List Nat) (acc : BOARD_T × Bool), (l.foldl fixedRow acc).2 = false →
      acc.2 = false ∧ (l.foldl fixedRow acc).1.black = acc.1.black ∧
      (l.foldl fixedRow acc).1.white = acc.1.white ∧
      (l.foldl fixedRow acc).1.flag = acc.1.flag ∧
      (acc.1.numFixedBlack +
          (l.map (fun r => countBits (acc.1.black r &&& acc.1.flag r))).sum < 256 →
        (l.foldl fixedRow acc).1.numFixedBlack = acc.1.numFixedBlack +
          (l.map (fun r => countBits (acc.1.black r &&& acc.1.flag r))).sum) ∧
      (acc.1.numFixedWhite +
          (l.map (fun r => countBits (acc.1.white r &&& acc.1.flag r))).sum < 256 →
        (l.foldl fixedRow acc).1.numFixedWhite = acc.1.numFixedWhite +
          (l.map (fun r => countBits (acc.1.white r &&& acc.1.flag r))).sum) ∧
      ∀ y ∈ l, ∀ i : Nat, i < 8 → (acc.1.black y ||| acc.1.white y).testBit i = true →
        (acc.1.flag y).testBit i = false →
        isFixed acc.1 i y ((acc.1.black y).testBit i) = false := by
  intro l
  induction l with
  | nil =>
    intro acc h
    exact ⟨h, rfl, rfl, rfl, fun _ => by simp, fun _ => by simp, by simp⟩
  | cons a l ih =>
    intro acc h
    rw [List.foldl_cons] at h ⊢
    obtain ⟨h1, hb, hw, hf, hnb, hnw, hcells⟩ := ih _ h
    obtain ⟨g1, gb, gw, gf, gnb, gnw, gcells⟩ := fixedRow_false acc.1 acc.2 a h1
    have hacc : fixedRow (acc.1, acc.2) a = fixedRow acc a := rfl
    rw [hacc] at gb gw gf gnb gnw
    refine ⟨g1, hb.trans gb, hw.trans gw, hf.trans gf, ?_, ?_, ?_⟩
    · intro hlt
      simp only [List.map_cons, List.sum_cons] at hlt ⊢
      rw [gb, gf] at hnb
      have e : (fixedRow acc a).1.numFixedBlack =
          acc.1.numFixedBlack + countBits (acc.1.black a &&& acc.1.flag a) := by
        rw [gnb]
        split_ifs with hz
        · rw [(countBits_zero_of_or _ _ (acc.1.flag a) hz).1]; rfl
        · apply Nat.mod_eq_of_lt; omega
      rw [e] at hnb
      rw [hnb (by omega)]
      omega
    · intro hlt
      simp only [List.map_cons, List.sum_cons] at hlt ⊢
      rw [gw, gf] at hnw
      have e : (fixedRow acc a).1.numFixedWhite =
          acc.1.numFixedWhite + countBits (acc.1.white a &&& acc.1.flag a) := by
        rw [gnw]
        split_ifs with hz
        · rw [(countBits_zero_of_or _ _ (acc.1.flag a) hz).2]; rfl
        · apply Nat.mod_eq_of_lt; omega
      rw [e] at hnw
      rw [hnw (by omega)]
      omega
    · intro y hy i hi hs hfl
      rcases List.mem_cons.1 hy with rfl | hy'
      · exact gcells i hi hs hfl
      · rw [← isFixed_congr (fixedRow acc a).1 acc.1 gb gw gf, ← gb]
        rw [← gb, ← gw] at hs
        rw [← gf] at hfl
        exact hcells y hy' i hi hs hfl

/-- A pass of `checkFixedStones` that ends with `isUpdated` false: masks and flags are kept,
the two counters are the numbers of flagged black and white stones, and every stone without
a flag fails `isFixed`. -/
theorem fixedPass_false (p : BOARD_T) (h : (fixedPass p).2 = false) :
    (fixedPass p).1.black = p.black ∧ (fixedPass p).1.white = p.white ∧
    (fixedPass p).1.flag = p.flag ∧
    (fixedPass p).1.numFixedBlack = maskCount (fun r => p.black r &&& p.flag r) ∧
    (fixedPass p).1.numFixedWhite = maskCount (fun r => p.white r &&& p.flag r) ∧
    ∀ y : Nat, y < 8 → ∀ i : Nat, i < 8 → (p.black y ||| p.white y).testBit i = true →
      (p.flag y).testBit i = false → isFixed p i y ((p.black y).testBit i) = false := by
  unfold fixedPass at h ⊢
  simp only at h ⊢
  obtain ⟨_, hb, hw, hf, hnb, hnw, hcells⟩ := fixedRow_fold_false (List.range 8) _ h
  simp only at hb hw hf hnb hnw hcells
  have m1 := maskCount_le (fun r => p.black r &&& p.flag r)
  have m2 := maskCount_le (fun r => p.white r &&& p.flag r)
  unfold maskCount at m1 m2 ⊢
  beta_reduce at m1 m2 ⊢
  refine ⟨hb, hw, hf, ?_, ?_, ?_⟩
  · rw [hnb (by omega)]; omega
  · rw [hnw (by omega)]; omega
  · intro y hy i hi hs hfl
    rw [isFixed_congr p { p with numFixedBlack := 0, numFixedWhite := 0 } rfl rfl rfl]
    exact hcells y (List.mem_range.2 hy) i hi hs hfl

/-- The loop of `checkFixedStones` returns the board of a pass that marked nothing. -/
theorem checkFixedStonesLoop_last :
    ∀ (fuel : Nat) (p q : BOARD_T), checkFixedStonesLoop fuel p = some q →
      ∃ q', q = (fixedPass q').1 ∧ (fixedPass q').2 = false := by
  intro fuel
  induction fuel with
  | zero => intro p q h; simp [checkFixedStonesLoop] at h
  | succ n ih =>
    intro p q h
    unfold checkFixedStonesLoop at h
    simp only at h
    by_cases hu : (fixedPass p).2 = true
    · rw [if_pos hu] at h
      exact ih _ _ h
    · rw [if_neg hu] at h
      simp only [Option.some.injEq] at h
      exact ⟨p, h.symm, by simpa using hu⟩

/-- More fuel does not change the result of the loop of `checkFixedStones`. -/
theorem checkFixedStonesLoop_mono :
    ∀ (fuel : Nat) (p q : BOARD_T), checkFixedStonesLoop fuel p = some q →
      ∀ k : Nat, checkFixedStonesLoop (fuel + k) p = some q := by
  intro fuel
  induction fuel with
  | zero => intro p q h; simp [checkFixedStonesLoop] at h
  | succ n ih =>
    intro p q h k
    have e : n + 1 + k = (n + k) + 1 := by omega
    rw [e]
    unfold checkFixedStonesLoop at h ⊢
    simp only at h ⊢
    by_cases hu : (fixedPass p).2 = true
    · rw [if_pos hu] at h ⊢
      exact ih _ _ h k
    · rw [if_neg hu] at h ⊢
      exact h

theorem unfixedCount_le (p : BOARD_T) : unfixedCount p ≤ 64 := maskCount_le _

/-- Any fuel above the number of unflagged stones gives the result of `checkFixedStones`. -/
theorem checkFixedStonesLoop_fuel (p : BOARD_T) (fuel : Nat) (h : unfixedCount p < fuel) :
    checkFixedStonesLoop fuel p = some (checkFixedStones p) := by
  have hs := checkFixedStonesLoop_isSome (unfixedCount p + 1) p (by omega)
  obtain ⟨q, hq⟩ := Option.isSome_iff_exists.1 hs
  have h1 := checkFixedStonesLoop_mono _ p q hq (fuel - (unfixedCount p + 1))
  have h2 := checkFixedStonesLoop_mono _ p q hq (65 - (unfixedCount p + 1))
  have hle := unfixedCount_le p
  rw [show unfixedCount p + 1 + (fuel - (unfixedCount p + 1)) = fuel by omega] at h1
  rw [show unfixedCount p + 1 + (65 - (unfixedCount p + 1)) = 65 by omega] at h2
  unfold checkFixedStones
  rw [h1, h2]
  rfl

/-- On the board returned by `checkFixedStones` no stone without a flag satisfies `isFixed`,
and the two counters are the numbers of flagged black and white stones. -/
theorem checkFixedStones_fixpoint (p : BOARD_T) :
    (∃ q', checkFixedStones p = (fixedPass q').1 ∧ (fixedPass q').2 = false) ∧
    (checkFixedStones p).numFixedBlack =
      maskCount (fun r => (checkFixedStones p).black r &&& (checkFixedStones p).flag r) ∧
    (checkFixedStones p).numFixedWhite =
      maskCount (fun r => (checkFixedStones p).white r &&& (checkFixedStones p).flag r) ∧
    ∀ x y : Int, OnBoard x y → occupiedAt (checkFixedStones p) x y = true →
      isFlagAt (checkFixedStones p) x y = false →
      isFixed (checkFixedStones p) x y (isBlackAt (checkFixedStones p) x y) = false := by
  have hl := checkFixedStonesLoop_fuel p 65 (by have := unfixedCount_le p; omega)
  obtain ⟨q', hq, hu⟩ := checkFixedStonesLoop_last 65 p _ hl
  obtain ⟨hb, hw, hf, hnb, hnw, hcells⟩ := fixedPass_false q' hu
  refine ⟨⟨q', hq, hu⟩, ?_, ?_, ?_⟩
  · rw [hq, hnb, hb, hf]
  · rw [hq, hnw, hw, hf]
  · intro x y hxy ho hfl
    rw [hq] at ho hfl ⊢
    rw [isFixed_congr _ q' hb hw hf]
    rw [occupiedAt_eq, hb, hw] at ho
    rw [isFlagAt_eq, hf] at hfl
    rw [isBlackAt_eq, hb]
    unfold OnBoard at hxy
    have := hcells y.toNat (by omega) x.toNat (by omega) ho hfl
    rw [Int.toNat_of_nonneg hxy.1, Int.toNat_of_nonneg hxy.2.2.1] at this
    exact this

/-! ## Colour symmetry of the analysis and of the evaluation -/

theorem swapped_disjoint (p q : BOARD_T) (h : Swapped p q) (hd : DisjointMasks p) :
    DisjointMasks q := by
  intro y hy
  rw [h.1, h.2.1, Nat.land_comm]
  exact hd y hy

theorem swapped_own (p q : BOARD_T) (hb : q.black = p.white) (hw : q.white = p.black)
    (ht : q.isWhiteTurn = (!p.isWhiteTurn)) (x y : Int) :
    ownAt q x y = ownAt p x y ∧ oppAt q x y = oppAt p x y := by
  unfold ownAt oppAt isBlackAt isWhiteAt
  rw [hb, hw, ht]
  cases p.isWhiteTurn <;> simp

theorem swapped_flippable (p q : BOARD_T) (hb : q.black = p.white) (hw : q.white = p.black)
    (ht : q.isWhiteTurn = (!p.isWhiteTurn)) (x y vx vy : Int) :
    Flippable q x y vx vy ↔ Flippable p x y vx vy := by
  unfold Flippable FlipRun
  simp only [(swapped_own p q hb hw ht _ _).1, (swapped_own p q hb hw ht _ _).2]

/-- The probe of `isPlaceable` gives the same answer on the colour-swapped board. -/
theorem isPlaceable_probe_swap (p q : BOARD_T) (hd : DisjointMasks p) (hb : q.black = p.white)
    (hw : q.white = p.black) (ht : q.isWhiteTurn = (!p.isWhiteTurn)) (x y : Int) :
    (isPlaceable q x y false).1 = (isPlaceable p x y false).1 := by
  have hq : DisjointMasks q := by
    intro r hr
    rw [hb, hw, Nat.land_comm]
    exact hd r hr
  rw [Bool.eq_iff_iff, (isPlaceable_probe p hd x y).2, (isPlaceable_probe q hq x y).2]
  exact exists_congr (fun v => and_congr Iff.rfl (swapped_flippable p q hb hw ht x y v.1 v.2))

theorem analyzeCell_swapped (p q : BOARD_T) (hd : DisjointMasks p) (hb : q.black = p.white)
    (hw : q.white = p.black) (ht : q.isWhiteTurn = (!p.isWhiteTurn)) (y : Int)
    (black white flag x : Nat) :
    analyzeCell q y white black flag x = analyzeCell p y black white flag x := by
  unfold analyzeCell
  rw [Nat.lor_comm white black, isPlaceable_probe_swap p q hd hb hw ht]

/-- A row step of `analyzeBoard` keeps the two boards colour-swapped. -/
theorem analyzeRow_swapped (p q : BOARD_T) (h : Swapped p q) (hd : DisjointMasks p) (y : Nat) :
    Swapped (analyzeRow p y) (analyzeRow q y) := by
  obtain ⟨hb, hw, hf, ht, hl⟩ := h
  refine ⟨hb, hw, ?_, ht, hl⟩
  unfold analyzeRow
  simp only
  rw [hf, hb, hw]
  apply congrArg (setRow p.flag y)
  apply List.foldl_ext
  intro f x _
  refine analyzeCell_swapped _ _ ?_ ?_ ?_ ?_ _ _ _ _ _
  · exact hd
  · rfl
  · rfl
  · exact ht

theorem analyzeRow_fold_swapped :
    ∀ (l : List Nat) (p q : BOARD_T), Swapped p q → DisjointMasks p →
      Swapped (l.foldl analyzeRow p) (l.foldl analyzeRow q) := by
  intro l
  induction l with
  | nil => intro p q h _; exact h
  | cons a l ih =>
    intro p q h hd
    rw [List.foldl_cons, List.foldl_cons]
    apply ih _ _ (analyzeRow_swapped p q h hd a)
    have hfr := analyzeRow_frame p a
    exact disjointMasks_congr p _ hfr.1.symm hfr.2.1.symm hd

theorem analyzeScan_swapped (p q : BOARD_T) (h : Swapped p q) (hd : DisjointMasks p) :
    Swapped (analyzeScan p) (analyzeScan q) := by
  have key := analyzeRow_fold_swapped (List.range 8)
    { p with numBlack := 0, numWhite := 0, numPlaceable := 0 }
    { q with numBlack := 0, numWhite := 0, numPlaceable := 0 } h hd
  exact key

/-- Function `isFixed` gives the same answer on the colour-swapped board for the opposite
colour. -/
theorem isFixed_swapped (p q : BOARD_T) (hd : DisjointMasks p) (hb : q.black = p.white)
    (hw : q.white = p.black) (hf : q.flag = p.flag) (x y : Int) (c : Bool) :
    isFixed q x y (!c) = isFixed p x y c := by
  have hB : ∀ a b, isBlackAt q a b = isWhiteAt p a b := by
    intro a b; unfold isBlackAt isWhiteAt; rw [hb]
  have hW : ∀ a b, isWhiteAt q a b = isBlackAt p a b := by
    intro a b; unfold isBlackAt isWhiteAt; rw [hw]
  have hF : ∀ a b, isFlagAt q a b = isFlagAt p a b := by
    intro a b; unfold isFlagAt; rw [hf]
  have hloop : ∀ (vx vy : Int) (fuel : Nat) (ret : FIX_COND_T) (x y : Int),
      checkFixCondLoop q vx vy (!c) fuel ret x y = checkFixCondLoop p vx vy c fuel ret x y := by
    intro vx vy fuel
    induction fuel with
    | zero => intro ret x y; rfl
    | succ n ih =>
      intro ret x y
      unfold checkFixCondLoop
      simp only [hB, hW, hF, ih]
      by_cases hoff : offBoard (x + vx) (y + vy) = true
      · simp only [hoff, if_true]
      · have hon := (offBoard_eq_false_iff _ _).1 (by simpa using hoff)
        have nb := not_both p hd _ _ hon
        simp only [hoff]
        revert nb
        cases isBlackAt p (x + vx) (y + vy) <;> cases isWhiteAt p (x + vx) (y + vy) <;>
          cases c <;> simp
  unfold isFixed checkFixCond
  simp only [hloop]

theorem fixedCell_swapped (p q : BOARD_T) (hd : DisjointMasks p) (hb : q.black = p.white)
    (hw : q.white = p.black) (hf : q.flag = p.flag) (y : Nat) (hy : y < 8) (acc : Nat × Bool)
    (x : Nat) :
    fixedCell q y (p.white y) (p.black y ||| p.white y) acc x =
      fixedCell p y (p.black y) (p.black y ||| p.white y) acc x := by
  unfold fixedCell
  simp only [and_bitOf_ne_zero, Int.toNat_ofNat]
  by_cases hs : (p.black y ||| p.white y).testBit x = true
  · have hne : (p.white y).testBit x = !(p.black y).testBit x := by
      have h0 := congrArg (fun v => v.testBit x) (hd y hy)
      simp only [Nat.testBit_and, Nat.zero_testBit] at h0
      rw [Nat.testBit_or] at hs
      revert h0 hs
      cases (p.black y).testBit x <;> cases (p.white y).testBit x <;> simp
    rw [hne, isFixed_swapped p q hd hb hw hf]
  · simp only [hs]
    simp

/-- A row step of `checkFixedStones` keeps the two boards colour-swapped and sets
`isUpdated` alike. -/
theorem fixedRow_swapped (p q : BOARD_T) (h : Swapped p q) (hd : DisjointMasks p) (u : Bool)
    (y : Nat) (hy : y < 8) :
    Swapped (fixedRow (p, u) y).1 (fixedRow (q, u) y).1 ∧
      (fixedRow (q, u) y).2 = (fixedRow (p, u) y).2 := by
  obtain ⟨hb, hw, hf, ht, hl⟩ := h
  have hfold : (List.range 8).foldl (fixedCell q y (p.white y) (p.black y ||| p.white y))
        (p.flag y, u) =
      (List.range 8).foldl (fixedCell p y (p.black y) (p.black y ||| p.white y))
        (p.flag y, u) := by
    apply List.foldl_ext
    intro acc x _
    exact fixedCell_swapped p q hd hb hw hf y hy acc x
  unfold fixedRow
  simp only
  rw [hb, hw, hf, Nat.lor_comm (p.white y) (p.black y), hfold]
  by_cases hz : p.black y ||| p.white y = 0
  · simp only [hz, if_true]
    exact ⟨⟨hb, hw, hf, ht, hl⟩, trivial⟩
  · simp only [hz, if_false]
    exact ⟨⟨rfl, rfl, rfl, ht, hl⟩, trivial⟩

theorem fixedRow_fold_swapped :
    ∀ (l : List Nat), (∀ y ∈ l, y < 8) → ∀ (p q : BOARD_T) (u : Bool), Swapped p q →
      DisjointMasks p →
      Swapped (l.foldl fixedRow (p, u)).1 (l.foldl fixedRow (q, u)).1 ∧
        (l.foldl fixedRow (q, u)).2 = (l.foldl fixedRow (p, u)).2 := by
  intro l
  induction l with
  | nil => intro _ p q u h _; exact ⟨h, rfl⟩
  | cons a l ih =>
    intro hl p q u h hd
    rw [List.foldl_cons, List.foldl_cons]
    obtain ⟨h1, h2⟩ := fixedRow_swapped p q h hd u a (hl a (List.mem_cons_self a l))
    have hfr := fixedRow_frame p u a
    have hd' : DisjointMasks (fixedRow (p, u) a).1 :=
      disjointMasks_congr p _ hfr.1.symm hfr.2.1.symm hd
    have e1 : fixedRow (p, u) a = ((fixedRow (p, u) a).1, (fixedRow (p, u) a).2) := rfl
    have e2 : fixedRow (q, u) a = ((fixedRow (q, u) a).1, (fixedRow (p, u) a).2) := by
      rw [← h2]
    rw [e1, e2]
    exact ih (fun y hy => hl y (List.mem_cons_of_mem a hy)) _ _ _ h1 hd'

/-- One pass of `checkFixedStones` keeps the two boards colour-swapped and sets `isUpdated`
alike. -/
theorem fixedPass_swapped (p q : BOARD_T) (h : Swapped p q) (hd : DisjointMasks p) :
    Swapped (fixedPass p).1 (fixedPass q).1 ∧ (fixedPass q).2 = (fixedPass p).2 :=
  fixedRow_fold_swapped (List.range 8) (fun _ hy => List.mem_range.1 hy)
    { p with numFixedBlack := 0, numFixedWhite := 0 }
    { q with numFixedBlack := 0, numFixedWhite := 0 } false h hd

theorem checkFixedStonesLoop_swapped :
    ∀ (fuel : Nat) (p q a : BOARD_T), Swapped p q → DisjointMasks p →
      checkFixedStonesLoop fuel p = some a →
      ∃ b, checkFixedStonesLoop fuel q = some b ∧ Swapped a b := by
  intro fuel
  induction fuel with
  | zero => intro p q a _ _ h; simp [checkFixedStonesLoop] at h
  | succ n ih =>
    intro p q a h hd ha
    obtain ⟨h1, h2⟩ := fixedPass_swapped p q h hd
    have hfr := fixedPass_frame p
    have hd' : DisjointMasks (fixedPass p).1 :=
      disjointMasks_congr p _ hfr.1.symm hfr.2.1.symm hd
    unfold checkFixedStonesLoop at ha ⊢
    simp only [h2] at ha ⊢
    by_cases hu : (fixedPass p).2 = true
    · rw [if_pos hu] at ha ⊢
      exact ih _ _ a h1 hd' ha
    · rw [if_neg hu] at ha ⊢
      simp only [Option.some.injEq] at ha
      exact ⟨_, rfl, ha ▸ h1⟩

/-- Function `checkFixedStones` keeps two boards colour-swapped. -/
theorem checkFixedStones_swapped (p q : BOARD_T) (h : Swapped p q) (hd : DisjointMasks p) :
    Swapped (checkFixedStones p) (checkFixedStones q) := by
  obtain ⟨a, ha, hpa⟩ := checkFixedStones_terminates p
  obtain ⟨b, hb, hab⟩ := checkFixedStonesLoop_swapped 65 p q a h hd ha
  have hqb : checkFixedStones q = b := by
    unfold checkFixedStones
    rw [hb]
    rfl
  rw [hpa, hqb]
  exact hab

/-- Function `analyzeBoard` keeps two boards colour-swapped: the analysed boards have the
masks exchanged and the same flags. -/
theorem analyzeBoard_swapped (p q : BOARD_T) (h : Swapped p q) (hd : DisjointMasks p) :
    Swapped (analyzeBoard p) (analyzeBoard q) := by
  rw [analyzeBoard_eq, analyzeBoard_eq]
  apply checkFixedStones_swapped _ _ (analyzeScan_swapped p q h hd)
  obtain ⟨hb, hw, _, _, _⟩ := analyzeScan_spec p hd
  exact disjointMasks_congr p _ hb.symm hw.symm hd

theorem evaluateRow_fold_swapped (D : DATA_T) (a b : BOARD_T) (hb : b.black = a.white)
    (hw : b.white = a.black) (hf : b.flag = a.flag) :
    ∀ (l : List Nat) (e : Int),
      l.foldl (evaluateRow D b) (-e) = -(l.foldl (evaluateRow D a) e) := by
  intro l
  induction l with
  | nil => intro e; rfl
  | cons y l ih =>
    intro e
    rw [List.foldl_cons, List.foldl_cons]
    have hstep : evaluateRow D b (-e) y = -(evaluateRow D a e y) := by
      unfold evaluateRow
      simp only [hb, hw, hf]
      ring
    rw [hstep, ih]

/-- The evaluation of two analysed colour-swapped boards that are not terminal agrees. -/
theorem evaluateBoard_swapped (D : DATA_T) (p q : BOARD_T) (h : Swapped p q)
    (hd : DisjointMasks p) (hnt : isGameOver (analyzeBoard p) = false) :
    isGameOver (analyzeBoard q) = false ∧
    evaluateBoard D (analyzeBoard q) = evaluateBoard D (analyzeBoard p) := by
  have hdq := swapped_disjoint p q h hd
  obtain ⟨sb, sw, sf, st, sl⟩ := analyzeBoard_swapped p q h hd
  obtain ⟨pB, pW, pS, pP⟩ := analyzeBoard_counters p hd
  obtain ⟨qB, qW, qS, qP⟩ := analyzeBoard_counters q hdq
  have eB : (analyzeBoard q).numBlack = (analyzeBoard p).numWhite := by
    rw [qB, pW, h.1]
  have eW : (analyzeBoard q).numWhite = (analyzeBoard p).numBlack := by
    rw [qW, pB, h.2.1]
  have eS : (analyzeBoard q).numStones = (analyzeBoard p).numStones := by
    rw [qS, pS]
    unfold stoneCount
    rw [h.1, h.2.1, Nat.add_comm]
  have eP : (analyzeBoard q).numPlaceable = (analyzeBoard p).numPlaceable := by
    rw [qP, pP]
    unfold placeableCount
    congr 1
    funext y
    unfold placeableRow
    rw [sb, sw, sf, Nat.lor_comm]
  have hover : isGameOver (analyzeBoard q) = false := by
    rw [← hnt]
    unfold isGameOver
    rw [eB, eW, eS, eP, sl]
    cases ((analyzeBoard p).numStones == 64) <;> cases ((analyzeBoard p).numBlack == 0) <;>
      cases ((analyzeBoard p).numWhite == 0) <;> rfl
  refine ⟨hover, ?_⟩
  have hfold := evaluateRow_fold_swapped D (analyzeBoard p) (analyzeBoard q) sb sw sf
    (List.range 8) 0
  rw [neg_zero] at hfold
  unfold evaluateBoard
  simp only [hover, hnt, Bool.false_eq_true, if_false, hfold, st, eP]
  cases (analyzeBoard p).isWhiteTurn <;> simp

/-! ## Animation values written by `placeStone` -/

theorem flipBackAnim_animStones (vx vy : Int) :
    ∀ (m : Nat) (a : ANIM_T) (A X Y : Int),
      (flipBackAnim vx vy m a A X Y).animStones = a.animStones := by
  intro m
  induction m with
  | zero => intro a A X Y; rfl
  | succ m ih =>
    intro a A X Y
    unfold flipBackAnim
    simp only
    rw [ih]

/-- Cell view of the animation part of the inner loop of `isReversible`: the `k`-th cell
stepped back to receives the start value lowered by `4 * (k - 1)`, every other entry is
kept. No `int8_t` value wraps around when the start value is at most 127 and the last
value is at least -128. -/
theorem flipBackAnim_cells (vx vy : Int) (hv : UnitDir vx vy) :
    ∀ (m : Nat) (a : ANIM_T) (A X Y : Int),
      (∀ k : Nat, 1 ≤ k → k ≤ m → 0 ≤ X - k * vx ∧ 0 ≤ Y - k * vy) →
      -128 ≤ A - 4 * m → A ≤ 127 →
      ∀ cx cy : Int, 0 ≤ cx → 0 ≤ cy →
        (∀ k : Nat, 1 ≤ k → k ≤ m → cx = X - k * vx → cy = Y - k * vy →
          (flipBackAnim vx vy m a A X Y).animTable cy.toNat cx.toNat = A - 4 * ((k : Int) - 1)) ∧
        ((¬ ∃ k : Nat, 1 ≤ k ∧ k ≤ m ∧ cx = X - k * vx ∧ cy = Y - k * vy) →
          (flipBackAnim vx vy m a A X Y).animTable cy.toNat cx.toNat =
            a.animTable cy.toNat cx.toNat) := by
  intro m
  induction m with
  | zero =>
    intro a A X Y _ _ _ cx cy _ _
    constructor
    · intro k h1 h2; omega
    · intro _; rfl
  | succ m ih =>
    intro a A X Y hpos hlo hhi cx cy hx hy
    have h1 := hpos 1 (by omega) (by omega)
    simp only [Nat.cast_one, one_mul] at h1
    unfold flipBackAnim
    simp only
    have hA : toInt8 (A - 4) = A - 4 := by
      unfold toInt8
      push_cast at hlo
      omega
    rw [hA]
    have e : ∀ (k : Nat) (a v : Int), a - v - (k : Int) * v = a - ((k + 1 : Nat) : Int) * v := by
      intro k a v; push_cast; ring
    have hpos' : ∀ k : Nat, 1 ≤ k → k ≤ m → 0 ≤ X - vx - k * vx ∧ 0 ≤ Y - vy - k * vy := by
      intro k hk1 hk2
      rw [e, e]
      exact hpos (k + 1) (by omega) (by omega)
    obtain ⟨ih1, ih2⟩ := ih { a with animTable := setCell a.animTable (Y - vy).toNat (X - vx).toNat A }
      (A - 4) (X - vx) (Y - vy) hpos' (by push_cast at hlo ⊢; omega) (by omega) cx cy hx hy
    have hset : setCell a.animTable (Y - vy).toNat (X - vx).toNat A cy.toNat cx.toNat =
        if cx = X - vx ∧ cy = Y - vy then A else a.animTable cy.toNat cx.toNat := by
      unfold setCell
      by_cases hc : cx = X - vx ∧ cy = Y - vy
      · rw [if_pos hc, if_pos ⟨by rw [hc.2], by rw [hc.1]⟩]
      · rw [if_neg hc, if_neg]
        rintro ⟨c1, c2⟩
        apply hc
        constructor <;> omega
    by_cases hfirst : cx = X - vx ∧ cy = Y - vy
    · have hrest : ¬ ∃ k : Nat, 1 ≤ k ∧ k ≤ m ∧ cx = X - vx - k * vx ∧ cy = Y - vy - k * vy := by
        rintro ⟨k, hk1, hk2, hk3, hk4⟩
        obtain ⟨a1, a2, a3, a4, a5⟩ := hv
        have hk0 : (1 : Int) ≤ k := by exact_mod_cast hk1
        rcases a5 with a5 | a5
        · have : (k : Int) * vx = 0 := by omega
          rcases mul_eq_zero.1 this with h | h <;> omega
        · have : (k : Int) * vy = 0 := by omega
          rcases mul_eq_zero.1 this with h | h <;> omega
      have hval := ih2 hrest
      simp only at hval
      rw [hset, if_pos hfirst] at hval
      constructor
      · intro k hk1 hk2 hk3 hk4
        rw [hval]
        have hk : k = 1 := by
          by_contra hne
          obtain ⟨j, rfl⟩ : ∃ j, k = j + 1 := ⟨k - 1, by omega⟩
          apply hrest
          exact ⟨j, by omega, by omega, by rw [e]; exact hk3, by rw [e]; exact hk4⟩
        subst hk
        simp
      · intro hne
        exact absurd ⟨1, by omega, by omega, by simpa using hfirst⟩ hne
    · constructor
      · intro k hk1 hk2 hk3 hk4
        obtain ⟨j, rfl⟩ : ∃ j, k = j + 1 := ⟨k - 1, by omega⟩
        have hj : 1 ≤ j := by
          by_contra hj
          have : j = 0 := by omega
          subst this
          simp only [Nat.zero_add, Nat.cast_one, one_mul] at hk3 hk4
          exact hfirst ⟨hk3, hk4⟩
        have := ih1 j hj (by omega) (by rw [e]; exact hk3) (by rw [e]; exact hk4)
        rw [this]
        push_cast
        ring
      · intro hne
        have hrest : ¬ ∃ k : Nat, 1 ≤ k ∧ k ≤ m ∧ cx = X - vx - k * vx ∧ cy = Y - vy - k * vy := by
          rintro ⟨k, hk1, hk2, hk3, hk4⟩
          exact hne ⟨k + 1, by omega, by omega, by rw [← e]; exact hk3, by rw [← e]; exact hk4⟩
        have hval := ih2 hrest
        simp only at hval
        rw [hset, if_neg hfirst] at hval
        exact hval

/-- Completeness of the scan for the animation globals: a run that satisfies the flip
condition is handed to the inner loop. -/
theorem isReversibleAnimLoop_of_run (p : BOARD_T) (hd : DisjointMasks p) (vx vy : Int)
    (a : ANIM_T) :
    ∀ (n fuel s : Nat) (x y : Int), Run p vx vy n x y → 1 ≤ s + n → n < fuel →
      isReversibleAnimLoop vx vy fuel p a s x y =
        some (flipBackAnim vx vy (s + n)
          { a with animStones := (a.animStones + (s + n)) % 256 }
          (toInt8 ((((a.animStones + (s + n)) % 256 : Nat) : Int) * 4 + 32))
          (x + (n + 1 : Nat) * vx) (y + (n + 1 : Nat) * vy)) := by
  intro n
  induction n with
  | zero =>
    intro fuel s x y hr hs hf
    obtain ⟨f, rfl⟩ : ∃ f, fuel = f + 1 := ⟨fuel - 1, by omega⟩
    obtain ⟨hb, ho⟩ := hr
    have hoff := (offBoard_eq_false_iff _ _).2 hb
    obtain ⟨h1, h2⟩ := (own_iff p hd _ _ hb).2 ho
    have hs0 : s ≠ 0 := by omega
    unfold isReversibleAnimLoop
    simp only [hoff, h1, h2, hs0]
    simp
  | succ n ih =>
    intro fuel s x y hr hs hf
    obtain ⟨f, rfl⟩ : ∃ f, fuel = f + 1 := ⟨fuel - 1, by omega⟩
    obtain ⟨hb, ho, hr2⟩ := hr
    have hoff := (offBoard_eq_false_iff _ _).2 hb
    obtain ⟨h1, h2⟩ := (opp_iff p hd _ _ hb).2 ho
    unfold isReversibleAnimLoop
    simp only [hoff, h1, h2]
    have := ih f (s + 1) _ _ hr2 (by omega) (by omega)
    simp only [Bool.false_eq_true, if_false]
    rw [this]
    have e : ∀ (a v : Int), a + v + ((n + 1 : Nat) : Int) * v = a + ((n + 1 + 1 : Nat) : Int) * v := by
      intro a v; push_cast; ring
    rw [e, e]
    have e2 : s + 1 + n = s + (n + 1) := by omega
    rw [e2]

/-- A failed scan leaves the animation globals as they were. -/
theorem isReversibleAnimLoop_of_false (p : BOARD_T) (vx vy : Int) (a : ANIM_T) :
    ∀ (fuel s : Nat) (x y : Int) (q : BOARD_T),
      isReversibleLoop vx vy true fuel p s x y = some (false, q) →
      isReversibleAnimLoop vx vy fuel p a s x y = some a := by
  intro fuel
  induction fuel with
  | zero => intro s x y q h; simp [isReversibleLoop] at h
  | succ f ih =>
    intro s x y q h
    unfold isReversibleLoop at h
    unfold isReversibleAnimLoop
    simp only at h ⊢
    by_cases hoff : offBoard (x + vx) (y + vy) = true
    · simp only [hoff, if_true]
    · have hoff2 : offBoard (x + vx) (y + vy) = false := by simpa using hoff
      simp only [hoff2, Bool.false_eq_true, if_false] at h ⊢
      by_cases he : (!isBlackAt p (x + vx) (y + vy) && !isWhiteAt p (x + vx) (y + vy)) = true
      · simp only [he, if_true]
      · have he2 : (!isBlackAt p (x + vx) (y + vy) && !isWhiteAt p (x + vx) (y + vy)) = false := by
          simpa using he
        simp only [he2, Bool.false_eq_true, if_false] at h ⊢
        by_cases ht : (isWhiteAt p (x + vx) (y + vy) == p.isWhiteTurn) = true
        · simp only [ht, if_true] at h ⊢
          by_cases hs : s = 0
          · simp only [hs, if_true]
          · simp [hs] at h
        · have ht2 : (isWhiteAt p (x + vx) (y + vy) == p.isWhiteTurn) = false := by simpa using ht
          simp only [ht2, Bool.false_eq_true, if_false] at h ⊢
          exact ih _ _ _ _ h

/-- The animation globals after a direction that satisfies the flip condition with a run of
`s` stones. -/
theorem isReversibleAnim_of_flipRun (p : BOARD_T) (hd : DisjointMasks p) (x y vx vy : Int)
    (hv : UnitDir vx vy) (a : ANIM_T) (s : Nat) (h : FlipRun p x y vx vy s) :
    isReversibleAnim p a x y vx vy =
      flipBackAnim vx vy s { a with animStones := (a.animStones + s) % 256 }
        (toInt8 ((((a.animStones + s) % 256 : Nat) : Int) * 4 + 32))
        (x + (s + 1 : Nat) * vx) (y + (s + 1 : Nat) * vy) := by
  obtain ⟨h1, hr⟩ := (flipRun_iff_run p x y vx vy s).1 h
  have hle := run_le p vx vy hv s x y hr
  have := isReversibleAnimLoop_of_run p hd vx vy a s 9 0 x y hr (by omega) (by omega)
  unfold isReversibleAnim
  rw [this]
  simp only [Nat.zero_add, Option.getD_some]

/-- The animation globals after a direction that does not satisfy the flip condition. -/
theorem isReversibleAnim_of_not_flippable (p : BOARD_T) (hd : DisjointMasks p)
    (x y vx vy : Int) (hv : UnitDir vx vy) (a : ANIM_T) (h : ¬ Flippable p x y vx vy) :
    isReversibleAnim p a x y vx vy = a := by
  have hs := isReversibleLoop_nine p vx vy true hv x y
  obtain ⟨r, hr⟩ := Option.isSome_iff_exists.1 hs
  have hf := isReversible_of_not_flippable p hd x y vx vy hv true h
  unfold isReversible at hf
  rw [hr] at hf
  simp only [Option.getD_some] at hf
  rw [hf] at hr
  unfold isReversibleAnim
  rw [isReversibleAnimLoop_of_false p vx vy a 9 0 x y p hr]
  rfl

theorem runLengthLoop_of_run (p : BOARD_T) (hd : DisjointMasks p) (vx vy : Int) :
    ∀ (n fuel s : Nat) (x y : Int), Run p vx vy n x y → n < fuel →
      runLengthLoop p vx vy fuel s x y = s + n := by
  intro n
  induction n with
  | zero =>
    intro fuel s x y hr hf
    obtain ⟨f, rfl⟩ : ∃ f, fuel = f + 1 := ⟨fuel - 1, by omega⟩
    obtain ⟨hb, ho⟩ := hr
    have hoff := (offBoard_eq_false_iff _ _).2 hb
    have he : emptyAt p (x + vx) (y + vy) = false := by
      unfold emptyAt
      exact ((own_iff p hd _ _ hb).2 ho).1
    unfold runLengthLoop
    simp only [hoff, he, ho, Bool.false_eq_true, if_false, if_true, Nat.add_zero]
  | succ n ih =>
    intro fuel s x y hr hf
    obtain ⟨f, rfl⟩ : ∃ f, fuel = f + 1 := ⟨fuel - 1, by omega⟩
    obtain ⟨hb, ho, hr2⟩ := hr
    have hoff := (offBoard_eq_false_iff _ _).2 hb
    have he : emptyAt p (x + vx) (y + vy) = false := by
      unfold emptyAt
      exact ((opp_iff p hd _ _ hb).2 ho).1
    have hown : ownAt p (x + vx) (y + vy) = false := by
      have := own_not_opp p hd _ _ hb
      rw [ho] at this
      simpa using this
    unfold runLengthLoop
    simp only [hoff, he, hown, Bool.false_eq_true, if_false]
    rw [ih f (s + 1) _ _ hr2 (by omega)]
    omega

theorem runLengthLoop_of_no_run (p : BOARD_T) (vx vy : Int) :
    ∀ (fuel s : Nat) (x y : Int), (∀ n, Run p vx vy n x y → s + n = 0) →
      runLengthLoop p vx vy fuel s x y = 0 := by
  intro fuel
  induction fuel with
  | zero => intro s x y _; rfl
  | succ f ih =>
    intro s x y h
    unfold runLengthLoop
    simp only
    by_cases hoff : offBoard (x + vx) (y + vy) = true
    · simp only [hoff, if_true]
    · have hoff2 : offBoard (x + vx) (y + vy) = false := by simpa using hoff
      have hb := (offBoard_eq_false_iff _ _).1 hoff2
      simp only [hoff2, Bool.false_eq_true, if_false]
      by_cases he : emptyAt p (x + vx) (y + vy) = true
      · simp only [he, if_true]
      · have he2 : emptyAt p (x + vx) (y + vy) = false := by simpa using he
        simp only [he2, Bool.false_eq_true, if_false]
        by_cases ho : ownAt p (x + vx) (y + vy) = true
        · simp only [ho, if_true]
          have := h 0 ⟨hb, ho⟩
          omega
        · have ho2 : ownAt p (x + vx) (y + vy) = false := by simpa using ho
          simp only [ho2, Bool.false_eq_true, if_false]
          apply ih
          intro n hr
          have hopp : oppAt p (x + vx) (y + vy) = true := by
            unfold emptyAt at he2
            unfold ownAt at ho2
            unfold oppAt
            revert he2 ho2
            cases isBlackAt p (x + vx) (y + vy) <;> cases isWhiteAt p (x + vx) (y + vy) <;>
              cases p.isWhiteTurn <;> simp
          have := h (n + 1) ⟨hb, hopp, hr⟩
          omega

/-- The run length of a direction that satisfies the flip condition. -/
theorem runLength_of_flipRun (p : BOARD_T) (hd : DisjointMasks p) (x y vx vy : Int)
    (hv : UnitDir vx vy) (s : Nat) (h : FlipRun p x y vx vy s) : runLength p x y vx vy = s := by
  obtain ⟨_, hr⟩ := (flipRun_iff_run p x y vx vy s).1 h
  have hle := run_le p vx vy hv s x y hr
  unfold runLength
  rw [runLengthLoop_of_run p hd vx vy s 9 0 x y hr (by omega)]
  omega

/-- The run length of a direction that does not satisfy the flip condition is zero. -/
theorem runLength_of_not_flippable (p : BOARD_T) (x y vx vy : Int)
    (h : ¬ Flippable p x y vx vy) : runLength p x y vx vy = 0 := by
  unfold runLength
  apply runLengthLoop_of_no_run p
  intro n hr
  by_contra hne
  exact h ⟨n, (flipRun_iff_run p x y vx vy n).2 ⟨by omega, hr⟩⟩

/-- The run length is zero or the length of the run of the flip condition. -/
theorem runLength_cases (p : BOARD_T) (hd : DisjointMasks p) (x y vx vy : Int)
    (hv : UnitDir vx vy) :
    (¬ Flippable p x y vx vy ∧ runLength p x y vx vy = 0) ∨
      FlipRun p x y vx vy (runLength p x y vx vy) := by
  by_cases h : Flippable p x y vx vy
  · obtain ⟨s, hs⟩ := h
    right
    rw [runLength_of_flipRun p hd x y vx vy hv s hs]
    exact hs
  · exact Or.inl ⟨h, runLength_of_not_flippable p x y vx vy h⟩

/-- The animation globals after one direction of `isPlaceable`, when no value wraps around:
`animStones` grows by the run length, the flipped cell at distance `d` receives
`32 + 4 * (animStones + d)` for the value of `animStones` before the direction, and every
other entry is kept. -/
theorem isReversibleAnim_spec (p : BOARD_T) (hd : DisjointMasks p) (x y vx vy : Int)
    (hv : UnitDir vx vy) (a : ANIM_T) (hsmall : a.animStones + runLength p x y vx vy ≤ 23) :
    (isReversibleAnim p a x y vx vy).animStones = a.animStones + runLength p x y vx vy ∧
    (∀ (s d : Nat), FlipRun p x y vx vy s → 1 ≤ d → d ≤ s →
      (isReversibleAnim p a x y vx vy).animTable (y + d * vy).toNat (x + d * vx).toNat =
        32 + 4 * ((a.animStones + d : Nat) : Int)) ∧
    (∀ cx cy : Int, 0 ≤ cx → 0 ≤ cy → ¬ OnRun p x y vx vy cx cy →
      (isReversibleAnim p a x y vx vy).animTable cy.toNat cx.toNat =
        a.animTable cy.toNat cx.toNat) := by
  rcases runLength_cases p hd x y vx vy hv with ⟨hnf, h0⟩ | hrun
  · rw [isReversibleAnim_of_not_flippable p hd x y vx vy hv a hnf, h0]
    refine ⟨rfl, ?_, fun _ _ _ _ _ => rfl⟩
    intro s d hs
    exact absurd ⟨s, hs⟩ hnf
  · generalize hr : runLength p x y vx vy = r at hrun hsmall
    rw [isReversibleAnim_of_flipRun p hd x y vx vy hv a r hrun]
    have hmod : (a.animStones + r) % 256 = a.animStones + r := Nat.mod_eq_of_lt (by omega)
    rw [hmod]
    have hA : toInt8 (((a.animStones + r : Nat) : Int) * 4 + 32) =
        ((a.animStones + r : Nat) : Int) * 4 + 32 := by
      unfold toInt8
      push_cast
      omega
    rw [hA]
    obtain ⟨hr1, hcells, hlast, _⟩ := hrun
    have e : ∀ (k : Nat) (a v : Int), k ≤ r →
        a + ((r + 1 : Nat) : Int) * v - (k : Int) * v = a + ((r + 1 - k : Nat) : Int) * v := by
      intro k a v hk
      rw [Nat.cast_sub (by omega)]
      push_cast
      ring
    have hpos : ∀ k : Nat, 1 ≤ k → k ≤ r →
        0 ≤ x + ((r + 1 : Nat) : Int) * vx - k * vx ∧ 0 ≤ y + ((r + 1 : Nat) : Int) * vy - k * vy := by
      intro k hk1 hk2
      rw [e k x vx hk2, e k y vy hk2]
      have := (hcells (r + 1 - k) (by omega) (by omega)).1
      exact ⟨this.1, this.2.2.1⟩
    have key := flipBackAnim_cells vx vy hv r { a with animStones := a.animStones + r }
      (((a.animStones + r : Nat) : Int) * 4 + 32) (x + ((r + 1 : Nat) : Int) * vx)
      (y + ((r + 1 : Nat) : Int) * vy) hpos (by push_cast; omega) (by push_cast; omega)
    refine ⟨by rw [flipBackAnim_animStones], ?_, ?_⟩
    · intro s d hs hd1 hd2
      have hsr : s = r := by
        rw [← runLength_of_flipRun p hd x y vx vy hv s hs, hr]
      subst hsr
      have hon := (hcells d hd1 hd2).1
      have := (key (x + d * vx) (y + d * vy) hon.1 hon.2.2.1).1 (s + 1 - d) (by omega) (by omega)
        (by rw [e _ x vx (by omega)]; congr 2; omega)
        (by rw [e _ y vy (by omega)]; congr 2; omega)
      rw [this]
      rw [Nat.cast_sub (by omega)]
      push_cast
      ring
    · intro cx cy hx hy hnr
      apply (key cx cy hx hy).2
      rintro ⟨k, hk1, hk2, hk3, hk4⟩
      apply hnr
      refine ⟨r, r + 1 - k, ⟨hr1, hcells, hlast, by assumption⟩, by omega, by omega, ?_, ?_⟩
      · rw [hk3, e k x vx hk2]
      · rw [hk4, e k y vy hk2]

/-- The run length of a direction reads only the cells of its ray and the turn. -/
theorem runLength_congr_ray (p q : BOARD_T) (hdp : DisjointMasks p) (hdq : DisjointMasks q)
    (ht : p.isWhiteTurn = q.isWhiteTurn) (x y vx vy : Int) (hv : UnitDir vx vy)
    (hc : ∀ k : Nat, 1 ≤ k → OnBoard (x + k * vx) (y + k * vy) →
      isBlackAt p (x + k * vx) (y + k * vy) = isBlackAt q (x + k * vx) (y + k * vy) ∧
      isWhiteAt p (x + k * vx) (y + k * vy) = isWhiteAt q (x + k * vx) (y + k * vy)) :
    runLength q x y vx vy = runLength p x y vx vy := by
  have hc' : ∀ k : Nat, 1 ≤ k → OnBoard (x + k * vx) (y + k * vy) →
      isBlackAt q (x + k * vx) (y + k * vy) = isBlackAt p (x + k * vx) (y + k * vy) ∧
      isWhiteAt q (x + k * vx) (y + k * vy) = isWhiteAt p (x + k * vx) (y + k * vy) :=
    fun k hk hb => ⟨(hc k hk hb).1.symm, (hc k hk hb).2.symm⟩
  rcases runLength_cases p hdp x y vx vy hv with ⟨hnf, h0⟩ | hrun
  · rw [h0]
    apply runLength_of_not_flippable
    rintro ⟨s, hs⟩
    exact hnf ⟨s, flipRun_congr_ray q p ht.symm x y vx vy hc' s hs⟩
  · exact runLength_of_flipRun q hdq x y vx vy hv _
      (flipRun_congr_ray p q ht x y vx vy hc _ hrun)

theorem flipsIn_cons (p : BOARD_T) (x y : Int) (v : Int × Int) (ds : List (Int × Int)) :
    flipsIn p x y (v :: ds) = runLength p x y v.1 v.2 + flipsIn p x y ds := rfl

theorem flipsIn_append (p : BOARD_T) (x y : Int) (l1 l2 : List (Int × Int)) :
    flipsIn p x y (l1 ++ l2) = flipsIn p x y l1 + flipsIn p x y l2 := by
  unfold flipsIn
  rw [List.map_append, List.sum_append]

theorem flipsIn_congr (p q : BOARD_T) (x y : Int) (ds : List (Int × Int))
    (h : ∀ v ∈ ds, runLength q x y v.1 v.2 = runLength p x y v.1 v.2) :
    flipsIn q x y ds = flipsIn p x y ds := by
  unfold flipsIn
  rw [List.map_congr_left h]

/-- The direction loop of `isPlaceable` in placing mode, for the animation globals, when no
value wraps around: `animStones` grows by the number of flipped stones, and the flipped
cell at distance `d` in a direction receives `32 + 4 * (n + d)`, where `n` is `animStones`
at the start plus the number of stones flipped in the directions scanned before. -/
theorem isPlaceableAnimLoop_spec (x y : Int) :
    ∀ (ds : List (Int × Int)) (p : BOARD_T) (a : ANIM_T), DisjointMasks p →
      (∀ v ∈ ds, UnitDir v.1 v.2) → ds.Nodup → a.animStones + flipsIn p x y ds ≤ 23 →
      (isPlaceableAnimLoop x y ds p a).animStones = a.animStones + flipsIn p x y ds ∧
      (∀ (l1 : List (Int × Int)) (v : Int × Int) (l2 : List (Int × Int)),
        ds = l1 ++ v :: l2 → ∀ s d : Nat, FlipRun p x y v.1 v.2 s → 1 ≤ d → d ≤ s →
        (isPlaceableAnimLoop x y ds p a).animTable (y + d * v.2).toNat (x + d * v.1).toNat =
          32 + 4 * ((a.animStones + flipsIn p x y l1 + d : Nat) : Int)) ∧
      (∀ cx cy : Int, 0 ≤ cx → 0 ≤ cy → (¬ ∃ v ∈ ds, OnRun p x y v.1 v.2 cx cy) →
        (isPlaceableAnimLoop x y ds p a).animTable cy.toNat cx.toNat =
          a.animTable cy.toNat cx.toNat) := by
  intro ds
  induction ds with
  | nil =>
    intro p a _ _ _ _
    refine ⟨rfl, ?_, fun _ _ _ _ _ => rfl⟩
    intro l1 v l2 h
    simp at h
  | cons v ds ih =>
    intro p a hd hu hn hsmall
    have hv : UnitDir v.1 v.2 := hu v (List.mem_cons_self _ _)
    have hu' : ∀ w ∈ ds, UnitDir w.1 w.2 := fun w h => hu w (List.mem_cons_of_mem _ h)
    have hvn : v ∉ ds := (List.nodup_cons.1 hn).1
    have hn' : ds.Nodup := (List.nodup_cons.1 hn).2
    have hstep : isPlaceableAnimLoop x y (v :: ds) p a =
        isPlaceableAnimLoop x y ds (isReversible p x y v.1 v.2 true).2
          (isReversibleAnim p a x y v.1 v.2) := rfl
    rw [hstep]
    rw [flipsIn_cons] at hsmall ⊢
    set p1 := (isReversible p x y v.1 v.2 true).2 with hp1
    set a1 := isReversibleAnim p a x y v.1 v.2 with ha1
    have hd1 : DisjointMasks p1 := isReversible_disjoint p hd x y v.1 v.2 hv
    have hs1 : SameAux p p1 := isReversible_sameAux p hd x y v.1 v.2 hv true
    obtain ⟨s1, s2, s3⟩ := isReversibleAnim_spec p hd x y v.1 v.2 hv a (by omega)
    -- the rays of the remaining directions are the same on `p` and on `p1`
    have hcell : ∀ w ∈ ds, ∀ k : Nat, 1 ≤ k → OnBoard (x + k * w.1) (y + k * w.2) →
        isBlackAt p (x + k * w.1) (y + k * w.2) = isBlackAt p1 (x + k * w.1) (y + k * w.2) ∧
        isWhiteAt p (x + k * w.1) (y + k * w.2) = isWhiteAt p1 (x + k * w.1) (y + k * w.2) := by
      intro w hw k hk hb
      have hnot : ¬ OnRun p x y v.1 v.2 (x + k * w.1) (y + k * w.2) := by
        rintro ⟨s, j, hs, hj1, hj2, e1, e2⟩
        have := ray_disjoint x y w.1 w.2 v.1 v.2 (hu' w hw) hv k j hk hj1 e1 e2
        have : w = v := Prod.ext this.1 this.2
        exact hvn (this ▸ hw)
      have := (isReversible_cells p hd x y v.1 v.2 hv _ _ hb.1 hb.2.2.1).2 hnot
      exact ⟨this.1.symm, this.2.symm⟩
    have hray : ∀ w ∈ ds, ∀ cx cy : Int,
        OnRun p x y w.1 w.2 cx cy ↔ OnRun p1 x y w.1 w.2 cx cy :=
      fun w hw cx cy => onRun_congr_ray p p1 hs1.2.1.symm x y w.1 w.2 (hcell w hw) cx cy
    have hlen : ∀ w ∈ ds, runLength p1 x y w.1 w.2 = runLength p x y w.1 w.2 :=
      fun w hw => runLength_congr_ray p p1 hd hd1 hs1.2.1.symm x y w.1 w.2 (hu' w hw)
        (hcell w hw)
    have hflips : flipsIn p1 x y ds = flipsIn p x y ds := flipsIn_congr p p1 x y ds hlen
    obtain ⟨i1, i2, i3⟩ := ih p1 a1 hd1 hu' hn' (by rw [s1, hflips]; omega)
    refine ⟨by rw [i1, s1, hflips]; omega, ?_, ?_⟩
    · intro l1 w l2 hsplit s d hs hd1' hd2
      have hon := (hs.2.1 d hd1' hd2).1
      rcases l1 with _ | ⟨u, l1'⟩
      · -- the first direction of the list
        simp only [List.nil_append, List.cons.injEq] at hsplit
        obtain ⟨rfl, rfl⟩ := hsplit
        have hrest : ¬ ∃ w ∈ ds, OnRun p1 x y w.1 w.2 (x + d * v.1) (y + d * v.2) := by
          rintro ⟨w, hw, hr⟩
          obtain ⟨s', k, -, hk1, -, e1, e2⟩ := (hray w hw _ _).2 hr
          have := ray_disjoint x y w.1 w.2 v.1 v.2 (hu' w hw) hv k d hk1 hd1' e1.symm e2.symm
          have : w = v := Prod.ext this.1 this.2
          exact hvn (this ▸ hw)
        rw [i3 _ _ hon.1 hon.2.2.1 hrest, s2 s d hs hd1' hd2]
        simp [flipsIn]
      · simp only [List.cons_append, List.cons.injEq] at hsplit
        obtain ⟨rfl, rfl⟩ := hsplit
        have hw : w ∈ l1' ++ w :: l2 := by simp
        have hs' : FlipRun p1 x y w.1 w.2 s :=
          flipRun_congr_ray p p1 hs1.2.1.symm x y w.1 w.2 (hcell w hw) s hs
        rw [i2 l1' w l2 rfl s d hs' hd1' hd2, s1, flipsIn_cons]
        have : flipsIn p1 x y l1' = flipsIn p x y l1' :=
          flipsIn_congr p p1 x y l1' (fun z hz => hlen z (by simp [hz]))
        rw [this]
        congr 2
        push_cast
        ring
    · intro cx cy hx hy hne
      have hrest : ¬ ∃ w ∈ ds, OnRun p1 x y w.1 w.2 cx cy := by
        rintro ⟨w, hw, hr⟩
        exact hne ⟨w, List.mem_cons_of_mem _ hw, (hray w hw cx cy).2 hr⟩
      rw [i3 cx cy hx hy hrest]
      apply s3 cx cy hx hy
      intro hr
      exact hne ⟨v, List.mem_cons_self _ _, hr⟩

/-- A placement flips at most 19 stones: each run ends on the board. -/
theorem flipsIn_directions_le (p : BOARD_T) (hd : DisjointMasks p) (x y : Int)
    (hb : OnBoard x y) : flipsIn p x y directions ≤ 19 := by
  have key : ∀ vx vy : Int, UnitDir vx vy →
      (runLength p x y vx vy = 0 ∨
        OnBoard (x + ((runLength p x y vx vy + 1 : Nat) : Int) * vx)
          (y + ((runLength p x y vx vy + 1 : Nat) : Int) * vy)) := by
    intro vx vy hv
    rcases runLength_cases p hd x y vx vy hv with ⟨_, h0⟩ | hrun
    · exact Or.inl h0
    · exact Or.inr hrun.2.2.1
  have h1 := key (-1) (-1) (by unfold UnitDir; omega)
  have h2 := key 0 (-1) (by unfold UnitDir; omega)
  have h3 := key 1 (-1) (by unfold UnitDir; omega)
  have h4 := key (-1) 0 (by unfold UnitDir; omega)
  have h5 := key 1 0 (by unfold UnitDir; omega)
  have h6 := key (-1) 1 (by unfold UnitDir; omega)
  have h7 := key 0 1 (by unfold UnitDir; omega)
  have h8 := key 1 1 (by unfold UnitDir; omega)
  unfold flipsIn directions
  simp only [List.map_cons, List.map_nil, List.sum_cons, List.sum_nil]
  unfold OnBoard at h1 h2 h3 h4 h5 h6 h7 h8 hb
  push_cast at h1 h2 h3 h4 h5 h6 h7 h8
  omega

/-- The animation globals after `placeStone` on an empty cell, starting from reset
parameters: `animStones` is the number of flipped stones, the entry of the placed cell is 0,
the flipped cell at distance `d` in a direction holds `32 + 4 * (n + d)` with `n` the number
of stones flipped in the directions scanned before, and every other entry is still -1. -/
theorem placeStoneAnim_spec (p : BOARD_T) (hd : DisjointMasks p) (x y : Int) (hb : OnBoard x y)
    (he : emptyAt p x y = true) :
    (placeStoneAnim p resetAnimationParams x y).animStones = flipsIn p x y directions ∧
    (placeStoneAnim p resetAnimationParams x y).animTable y.toNat x.toNat = 0 ∧
    (∀ (l1 : List (Int × Int)) (v : Int × Int) (l2 : List (Int × Int)),
      directions = l1 ++ v :: l2 → ∀ s d : Nat, FlipRun p x y v.1 v.2 s → 1 ≤ d → d ≤ s →
      (placeStoneAnim p resetAnimationParams x y).animTable
          (y + d * v.2).toNat (x + d * v.1).toNat =
        32 + 4 * ((flipsIn p x y l1 + d : Nat) : Int)) ∧
    (∀ cx cy : Int, 0 ≤ cx → 0 ≤ cy → ¬ (cx = x ∧ cy = y) → ¬ FlippedBy p x y cx cy →
      (placeStoneAnim p resetAnimationParams x y).animTable cy.toNat cx.toNat = -1) := by
  have hd0 : DisjointMasks (putStone p x y) := putStone_disjoint p hd x y hb he
  obtain ⟨ht, -, -, -, -, -, hc, -⟩ := putStone_spec p x y hb.1 hb.2.2.1
  have hcell : ∀ w ∈ directions, ∀ k : Nat, 1 ≤ k → OnBoard (x + k * w.1) (y + k * w.2) →
      isBlackAt p (x + k * w.1) (y + k * w.2) =
        isBlackAt (putStone p x y) (x + k * w.1) (y + k * w.2) ∧
      isWhiteAt p (x + k * w.1) (y + k * w.2) =
        isWhiteAt (putStone p x y) (x + k * w.1) (y + k * w.2) := by
    intro w hw k hk hon
    obtain ⟨e1, e2⟩ := hc _ _ hon.1 hon.2.2.1
    have hne := ray_ne_origin x y w.1 w.2 (directions_unit w hw) k hk
    rw [e1, e2, decide_eq_false hne]
    simp
  have hlen : ∀ w ∈ directions,
      runLength (putStone p x y) x y w.1 w.2 = runLength p x y w.1 w.2 :=
    fun w hw => runLength_congr_ray p (putStone p x y) hd hd0 ht.symm x y w.1 w.2
      (directions_unit w hw) (hcell w hw)
  have hflips : flipsIn (putStone p x y) x y directions = flipsIn p x y directions :=
    flipsIn_congr p (putStone p x y) x y directions hlen
  have hle := flipsIn_directions_le p hd x y hb
  have hnd : directions.Nodup := by unfold directions; decide
  obtain ⟨i1, i2, i3⟩ := isPlaceableAnimLoop_spec x y directions (putStone p x y)
    { resetAnimationParams with
      animTable := setCell resetAnimationParams.animTable y.toNat x.toNat 0 }
    hd0 directions_unit hnd (by rw [hflips]; show 0 + _ ≤ 23; omega)
  have hRun := flippedBy_putStone p x y hb
  refine ⟨?_, ?_, ?_, ?_⟩
  · show (isPlaceableAnimLoop x y directions (putStone p x y) _).animStones = _
    rw [i1, hflips]
    show 0 + _ = _
    omega
  · show (isPlaceableAnimLoop x y directions (putStone p x y) _).animTable _ _ = _
    rw [i3 x y hb.1 hb.2.2.1]
    · show setCell _ _ _ _ _ _ = _
      unfold setCell
      simp
    · rintro ⟨w, hw, s, k, -, hk1, -, e1, e2⟩
      exact ray_ne_origin x y w.1 w.2 (directions_unit w hw) k hk1 ⟨e1.symm, e2.symm⟩
  · intro l1 v l2 hsplit s d hs hd1 hd2
    have hv : v ∈ directions := by rw [hsplit]; simp
    have hs' : FlipRun (putStone p x y) x y v.1 v.2 s :=
      flipRun_congr_ray p (putStone p x y) ht.symm x y v.1 v.2 (hcell v hv) s hs
    show (isPlaceableAnimLoop x y directions (putStone p x y) _).animTable _ _ = _
    rw [i2 l1 v l2 hsplit s d hs' hd1 hd2]
    have : flipsIn (putStone p x y) x y l1 = flipsIn p x y l1 :=
      flipsIn_congr p (putStone p x y) x y l1
        (fun z hz => hlen z (by rw [hsplit]; simp [hz]))
    rw [this]
    show 32 + 4 * ((0 + flipsIn p x y l1 + d : Nat) : Int) = _
    rw [Nat.zero_add]
  · intro cx cy hx hy hne hnf
    show (isPlaceableAnimLoop x y directions (putStone p x y) _).animTable _ _ = _
    rw [i3 cx cy hx hy]
    · show setCell _ _ _ _ _ _ = _
      unfold setCell
      rw [if_neg]
      · rfl
      · rintro ⟨c1, c2⟩
        apply hne
        have := hb.1
        have := hb.2.2.1
        constructor <;> omega
    · rintro ⟨w, hw, hr⟩
      exact hnf ⟨w, hw, (hRun cx cy w hw).1 hr⟩

/-! ## The guard of the human move -/

theorem stepCursor_lt (v : Nat) (pad : Int) : stepCursor v pad < 8 := by
  unfold stepCursor
  omega

/-- The cursor stays on the board. -/
theorem moveCursor_lt (cursorPos : POS_T) (padX padY : Int) (hx : cursorPos.x < 8)
    (hy : cursorPos.y < 8) :
    (moveCursor cursorPos padX padY).x < 8 ∧ (moveCursor cursorPos padX padY).y < 8 := by
  unfold moveCursor
  split_ifs
  · exact ⟨stepCursor_lt _ _, stepCursor_lt _ _⟩
  · exact ⟨hx, hy⟩

/-- The human move in terms of the placeable set: a B press on a placeable cursor cell
places the stone, anything else leaves board and state as they are. -/
theorem humanMove_eq (g : PLAY_T) (padX padY : Int) (bDown : Bool) :
    humanMove g padX padY bDown =
      if bDown = true ∧ placeableAt g.board (moveCursor g.cursorPos padX padY).x
          (moveCursor g.cursorPos padX padY).y = true then
        { board := placeStone g.board (moveCursor g.cursorPos padX padY).x
            (moveCursor g.cursorPos padX padY).y,
          cursorPos := moveCursor g.cursorPos padX padY, state := STATE_T.STATE_ANIMATION }
      else { g with cursorPos := moveCursor g.cursorPos padX padY } := by
  unfold humanMove placeableAt
  simp only [Int.toNat_ofNat]
  cases bDown
  · simp
  · simp only [if_true, true_and]


/-! ## The claims -/

/-- Claim C1. For every board with disjoint masks (either side to move, any prior flag
rows) and every cell `(x, y)` of the board, after `analyzeBoard` the cell is in the
placeable set (bit `x` of `~(black[y] | white[y]) & flag[y]`) if and only if it is empty and
in at least one of the eight directions one or more opposing stones follow immediately and
are terminated by a stone of the side to move before an empty cell or the edge. -/
theorem C1_placeable_iff_legal (p : BOARD_T) (hd : DisjointMasks p) (x y : Int)
    (hb : OnBoard x y) : placeableAt (analyzeBoard p) x y = true ↔ Legal p x y :=
  analyzeBoard_placeable p hd x y hb

set_option maxRecDepth 100000 in
/-- Claim C1 applied to the opening position and the cell (4, 2). -/
theorem C1_placeable_iff_legal_witness :
    DisjointMasks openingBoard ∧ OnBoard 4 2 ∧
      (placeableAt (analyzeBoard openingBoard) 4 2 = true ↔ Legal openingBoard 4 2) :=
  ⟨by unfold DisjointMasks; decide, by unfold OnBoard; decide,
    C1_placeable_iff_legal openingBoard (by unfold DisjointMasks; decide) 4 2
      (by unfold OnBoard; decide)⟩

/-- Claim C2. For every board with disjoint masks and every empty cell `(x, y)`, after
`placeStone` the cell holds a stone of the side to move, every cell that lies in one of the
eight directions in a run of opposing stones starting next to `(x, y)` and terminated by a
stone of the side to move holds the mover's colour, and every other cell of the two masks is
unchanged; the runs are those of the board before the placement, so flips made for one
direction do not alter the outcome of another. -/
theorem C2_placeStone_cells (p : BOARD_T) (hd : DisjointMasks p) (x y : Int)
    (hb : OnBoard x y) (he : emptyAt p x y = true) :
    (isWhiteAt (placeStone p x y) x y = p.isWhiteTurn ∧
      isBlackAt (placeStone p x y) x y = !p.isWhiteTurn) ∧
    (∀ cx cy : Int, OnBoard cx cy → FlippedBy p x y cx cy →
      isWhiteAt (placeStone p x y) cx cy = p.isWhiteTurn ∧
      isBlackAt (placeStone p x y) cx cy = !p.isWhiteTurn) ∧
    (∀ cx cy : Int, OnBoard cx cy → ¬ (cx = x ∧ cy = y) → ¬ FlippedBy p x y cx cy →
      isWhiteAt (placeStone p x y) cx cy = isWhiteAt p cx cy ∧
      isBlackAt (placeStone p x y) cx cy = isBlackAt p cx cy) := by
  obtain ⟨-, -, -, h1, h2, h3, -⟩ := placeStone_spec p hd x y hb he
  exact ⟨h1, h2, fun cx cy hc => h3 cx cy hc.1 hc.2.2.1⟩

set_option maxRecDepth 100000 in
/-- Claim C2 applied to the opening position and the cell (4, 2). -/
theorem C2_placeStone_cells_witness :
    DisjointMasks openingBoard ∧ OnBoard 4 2 ∧ emptyAt openingBoard 4 2 = true ∧
    ((isWhiteAt (placeStone openingBoard 4 2) 4 2 = openingBoard.isWhiteTurn ∧
      isBlackAt (placeStone openingBoard 4 2) 4 2 = !openingBoard.isWhiteTurn) ∧
    (∀ cx cy : Int, OnBoard cx cy → FlippedBy openingBoard 4 2 cx cy →
      isWhiteAt (placeStone openingBoard 4 2) cx cy = openingBoard.isWhiteTurn ∧
      isBlackAt (placeStone openingBoard 4 2) cx cy = !openingBoard.isWhiteTurn) ∧
    (∀ cx cy : Int, OnBoard cx cy → ¬ (cx = 4 ∧ cy = 2) → ¬ FlippedBy openingBoard 4 2 cx cy →
      isWhiteAt (placeStone openingBoard 4 2) cx cy = isWhiteAt openingBoard cx cy ∧
      isBlackAt (placeStone openingBoard 4 2) cx cy = isBlackAt openingBoard cx cy)) :=
  ⟨by unfold DisjointMasks; decide, by unfold OnBoard; decide, by decide,
    C2_placeStone_cells openingBoard (by unfold DisjointMasks; decide) 4 2
      (by unfold OnBoard; decide) (by decide)⟩

/-- Claim C8. Stone conservation: for every board with disjoint masks and every legal
placement `(x, y)`, the number of set bits of the black masks plus the number of set bits of
the white masks after `placeStone` is the number before plus exactly one, and so is
`numBlack + numWhite` as `analyzeBoard` computes it. -/
theorem C8_stone_conservation (p : BOARD_T) (hd : DisjointMasks p) (x y : Int)
    (hb : OnBoard x y) (hl : Legal p x y) :
    stoneCount (placeStone p x y) = stoneCount p + 1 ∧
    (analyzeBoard (placeStone p x y)).numBlack + (analyzeBoard (placeStone p x y)).numWhite =
      (analyzeBoard p).numBlack + (analyzeBoard p).numWhite + 1 := by
  have h := placeStone_stoneCount p hd x y hb hl.1
  have hdq := (placeStone_spec p hd x y hb hl.1).1
  obtain ⟨a1, a2, -, -⟩ := analyzeBoard_counters p hd
  obtain ⟨b1, b2, -, -⟩ := analyzeBoard_counters _ hdq
  refine ⟨h, ?_⟩
  rw [a1, a2, b1, b2]
  exact h

set_option maxRecDepth 100000 in
/-- Claim C8 applied to the opening position and the legal cell (4, 2). -/
theorem C8_stone_conservation_witness :
    DisjointMasks openingBoard ∧ OnBoard 4 2 ∧ Legal openingBoard 4 2 ∧
    (stoneCount (placeStone openingBoard 4 2) = stoneCount openingBoard + 1 ∧
    (analyzeBoard (placeStone openingBoard 4 2)).numBlack +
      (analyzeBoard (placeStone openingBoard 4 2)).numWhite =
      (analyzeBoard openingBoard).numBlack + (analyzeBoard openingBoard).numWhite + 1) :=
  have hd : DisjointMasks openingBoard := by unfold DisjointMasks; decide
  have hb : OnBoard 4 2 := by unfold OnBoard; decide
  have hl : Legal openingBoard 4 2 := (analyzeBoard_placeable openingBoard hd 4 2 hb).1 (by decide)
  ⟨hd, hb, hl, C8_stone_conservation openingBoard hd 4 2 hb hl⟩

/-- Claim C9. The predicate `black[y] & white[y] == 0` for all rows is an invariant: it
holds on the zeroed initial board and is preserved by `placeStone` at any empty cell (for
either side to move), by a pass (turn flipped, `isLastPassed` set) and by `analyzeBoard`. -/
theorem C9_disjoint_invariant :
    DisjointMasks zeroBoard ∧
    (∀ (p : BOARD_T) (x y : Int), DisjointMasks p → OnBoard x y → emptyAt p x y = true →
      DisjointMasks (placeStone p x y)) ∧
    (∀ p : BOARD_T, DisjointMasks p →
      DisjointMasks { p with isWhiteTurn := !p.isWhiteTurn, isLastPassed := true }) ∧
    (∀ p : BOARD_T, DisjointMasks p → DisjointMasks (passTurn p)) ∧
    (∀ p : BOARD_T, DisjointMasks p → DisjointMasks (analyzeBoard p)) := by
  have han : ∀ p : BOARD_T, DisjointMasks p → DisjointMasks (analyzeBoard p) := by
    intro p hd
    obtain ⟨h1, h2, -, -⟩ := analyzeBoard_stones p hd
    exact disjointMasks_congr p _ h1.symm h2.symm hd
  refine ⟨?_, ?_, ?_, ?_, han⟩
  · intro y _
    show (0 : Nat) &&& 0 = 0
    decide
  · intro p x y hd hb he
    exact (placeStone_spec p hd x y hb he).1
  · intro p hd
    exact hd
  · intro p hd
    exact han _ hd

set_option maxRecDepth 100000 in
/-- Claim C9 applied to the opening position: a placement at (4, 2), a pass and an
analysis keep the masks disjoint. -/
theorem C9_disjoint_invariant_witness :
    DisjointMasks openingBoard ∧ OnBoard 4 2 ∧ emptyAt openingBoard 4 2 = true ∧
    DisjointMasks (placeStone openingBoard 4 2) ∧ DisjointMasks (passTurn openingBoard) ∧
    DisjointMasks (analyzeBoard openingBoard) :=
  have hd : DisjointMasks openingBoard := by unfold DisjointMasks; decide
  have hb : OnBoard 4 2 := by unfold OnBoard; decide
  ⟨hd, hb, by decide, C9_disjoint_invariant.2.1 openingBoard 4 2 hd hb (by decide),
    C9_disjoint_invariant.2.2.2.1 openingBoard hd, C9_disjoint_invariant.2.2.2.2 openingBoard hd⟩

set_option maxRecDepth 1000000 in
/-- Claim C10 as stated fails: after the four forced opening moves the cell (3, 4) does not
hold a black stone and the cell (3, 3) does not hold a white one. -/
theorem C10_opening_counterexample :
    ¬ ∃ b, afterOpening = some b ∧
      isBlackAt b 3 4 = true ∧ isBlackAt b 4 3 = true ∧
      isWhiteAt b 3 3 = true ∧ isWhiteAt b 4 4 = true ∧ b.isWhiteTurn = false := by
  have h : ∃ b, afterOpening = some b ∧ isBlackAt b 3 4 = false := ⟨_, rfl, by decide⟩
  obtain ⟨b, hb, h34⟩ := h
  rintro ⟨b2, hb2, h1, -⟩
  rw [hb] at hb2
  cases hb2
  rw [h34] at h1
  exact absurd h1 (by simp)

set_option maxRecDepth 1000000 in
/-- Claim C10, amended. Starting from the zeroed board of `initGame` (black to move), the
four forced opening placements made while `numStones < 4`, each followed by the turn toggle
and `analyzeBoard` of `handleAnimation`, produce the position with black on (3,3) and (4,4),
white on (4,3) and (3,4), no other stone, four stones counted and black to move. -/
theorem C10_opening_position :
    ∃ b, afterOpening = some b ∧
      (∀ y : Nat, y < 8 → b.black y = openingBoard.black y ∧ b.white y = openingBoard.white y) ∧
      isBlackAt b 3 3 = true ∧ isBlackAt b 4 4 = true ∧
      isWhiteAt b 4 3 = true ∧ isWhiteAt b 3 4 = true ∧
      b.numStones = 4 ∧ b.isWhiteTurn = false :=
  ⟨_, rfl, by decide, by decide, by decide, by decide, by decide, by decide, by decide⟩

/-- Claim C4. For every board (with an 8-bit `numPlaceable` when it is the root board, which
is not analysed again) and every depth, provided every `evaluateBoard` value lies strictly
between `-EVAL_INF` and `EVAL_INF`, `alphabeta` called with the full window
`(-EVAL_INF, EVAL_INF)` returns exactly the negation of the value of plain depth-limited
negamax without pruning. -/
theorem C4_alphabeta_eq_negamax (D : DATA_T) (hE : EvalBounded D) (isRoot : Bool)
    (p : BOARD_T) (hr : isRoot = true → p.numPlaceable < 256) (depth : Int) (cursorPos : POS_T) :
    (alphabeta D isRoot p depth (-D.EVAL_INF) D.EVAL_INF cursorPos).1 =
      -(negamax D isRoot p depth) :=
  alphabetaAux_full D hE depth.toNat isRoot p hr cursorPos

/-- Claim C4 applied to the sample constants, the analysed opening position as root board
and depth 3. -/
theorem C4_alphabeta_eq_negamax_witness :
    EvalBounded sampleData ∧ (true = true → (analyzeBoard openingBoard).numPlaceable < 256) ∧
    (alphabeta sampleData true (analyzeBoard openingBoard) 3 (-sampleData.EVAL_INF)
      sampleData.EVAL_INF (POS_T.mk 0 0)).1 = -(negamax sampleData true (analyzeBoard openingBoard) 3) :=
  ⟨sampleData_bounded, fun _ => analyzeBoard_numPlaceable_lt openingBoard,
    C4_alphabeta_eq_negamax sampleData sampleData_bounded true (analyzeBoard openingBoard)
      (fun _ => analyzeBoard_numPlaceable_lt openingBoard) 3 (POS_T.mk 0 0)⟩

/-- Claim C5. For every analysed board with at least one legal placement (and constants for
which all evaluations lie strictly inside `(-EVAL_INF, EVAL_INF)`), the root call of
`alphabeta` with depth 1 and the full window leaves in `cursorPos` a placeable cell `m` such
that the negated evaluation of the re-analysed, turn-flipped board after placing at `m` is
greater than or equal to the same quantity for every other legal placement. -/
theorem C5_depth_one_best_response (D : DATA_T) (hE : EvalBounded D) (p0 : BOARD_T)
    (hd : DisjointMasks p0) (hl : ∃ x y : Int, OnBoard x y ∧ Legal p0 x y) (cursorPos : POS_T) :
    (alphabeta D true (analyzeBoard p0) 1 (-D.EVAL_INF) D.EVAL_INF cursorPos).2.x < 8 ∧
    (alphabeta D true (analyzeBoard p0) 1 (-D.EVAL_INF) D.EVAL_INF cursorPos).2.y < 8 ∧
    placeableAt (analyzeBoard p0)
      (alphabeta D true (analyzeBoard p0) 1 (-D.EVAL_INF) D.EVAL_INF cursorPos).2.x
      (alphabeta D true (analyzeBoard p0) 1 (-D.EVAL_INF) D.EVAL_INF cursorPos).2.y = true ∧
    ∀ x y : Nat, x < 8 → y < 8 → placeableAt (analyzeBoard p0) x y = true →
      -(evaluateBoard D (analyzeBoard (childBoard (analyzeBoard p0) x y))) ≤
        -(evaluateBoard D (analyzeBoard (childBoard (analyzeBoard p0)
          (alphabeta D true (analyzeBoard p0) 1 (-D.EVAL_INF) D.EVAL_INF cursorPos).2.x
          (alphabeta D true (analyzeBoard p0) 1 (-D.EVAL_INF) D.EVAL_INF cursorPos).2.y))) := by
  have hn := (analyzeBoard_numPlaceable_pos p0 hd).2 hl
  obtain ⟨m, h1, h2, h3, h4, h5⟩ := alphabetaAux_root D hE p0 hd hn 0 cursorPos
  have e : alphabeta D true (analyzeBoard p0) 1 (-D.EVAL_INF) D.EVAL_INF cursorPos =
      (-(moveScore D 0 (analyzeBoard p0) m), POS_T.mk m.1 m.2) := h4
  rw [e]
  refine ⟨h1, h2, h3, ?_⟩
  intro x y hx hy hp
  exact (h5 (x, y) hx hy hp).1

set_option maxRecDepth 100000 in
/-- Claim C5 applied to the sample constants and the opening position. -/
theorem C5_depth_one_best_response_witness :
    EvalBounded sampleData ∧ DisjointMasks openingBoard ∧
    (∃ x y : Int, OnBoard x y ∧ Legal openingBoard x y) ∧
    placeableAt (analyzeBoard openingBoard)
      (alphabeta sampleData true (analyzeBoard openingBoard) 1 (-sampleData.EVAL_INF)
        sampleData.EVAL_INF (POS_T.mk 0 0)).2.x
      (alphabeta sampleData true (analyzeBoard openingBoard) 1 (-sampleData.EVAL_INF)
        sampleData.EVAL_INF (POS_T.mk 0 0)).2.y = true :=
  have hd : DisjointMasks openingBoard := by unfold DisjointMasks; decide
  have hb : OnBoard 4 2 := by unfold OnBoard; decide
  have hl : ∃ x y : Int, OnBoard x y ∧ Legal openingBoard x y :=
    ⟨4, 2, hb, (analyzeBoard_placeable openingBoard hd 4 2 hb).1 (by decide)⟩
  ⟨sampleData_bounded, hd, hl,
    (C5_depth_one_best_response sampleData sampleData_bounded openingBoard hd hl
      (POS_T.mk 0 0)).2.2.1⟩

/-- Claim C6. For every analysed root board with at least one legal placement and every
depth of at least 1 (evaluations strictly inside `(-EVAL_INF, EVAL_INF)`), the cell that
`alphabeta` with the full window leaves in `cursorPos` is placeable, no placeable cell has a
higher unpruned negamax score, and every placeable cell that comes earlier in scan order
(rows `y = 0..7`, within a row `x = 0..7`) has a strictly lower score: it is the first cell
with the maximal score, and a later cell with an equal score does not replace it. -/
theorem C6_first_best_move (D : DATA_T) (hE : EvalBounded D) (p0 : BOARD_T)
    (hd : DisjointMasks p0) (hl : ∃ x y : Int, OnBoard x y ∧ Legal p0 x y)
    (depth : Int) (hdepth : 1 ≤ depth) (cursorPos : POS_T) :
    (alphabeta D true (analyzeBoard p0) depth (-D.EVAL_INF) D.EVAL_INF cursorPos).2.x < 8 ∧
    (alphabeta D true (analyzeBoard p0) depth (-D.EVAL_INF) D.EVAL_INF cursorPos).2.y < 8 ∧
    placeableAt (analyzeBoard p0)
      (alphabeta D true (analyzeBoard p0) depth (-D.EVAL_INF) D.EVAL_INF cursorPos).2.x
      (alphabeta D true (analyzeBoard p0) depth (-D.EVAL_INF) D.EVAL_INF cursorPos).2.y = true ∧
    ∀ x y : Nat, x < 8 → y < 8 → placeableAt (analyzeBoard p0) x y = true →
      moveScore D (depth.toNat - 1) (analyzeBoard p0) (x, y) ≤
        moveScore D (depth.toNat - 1) (analyzeBoard p0)
          ((alphabeta D true (analyzeBoard p0) depth (-D.EVAL_INF) D.EVAL_INF cursorPos).2.x,
           (alphabeta D true (analyzeBoard p0) depth (-D.EVAL_INF) D.EVAL_INF cursorPos).2.y) ∧
      (8 * y + x <
          8 * (alphabeta D true (analyzeBoard p0) depth (-D.EVAL_INF) D.EVAL_INF cursorPos).2.y +
            (alphabeta D true (analyzeBoard p0) depth (-D.EVAL_INF) D.EVAL_INF cursorPos).2.x →
        moveScore D (depth.toNat - 1) (analyzeBoard p0) (x, y) <
          moveScore D (depth.toNat - 1) (analyzeBoard p0)
            ((alphabeta D true (analyzeBoard p0) depth (-D.EVAL_INF) D.EVAL_INF cursorPos).2.x,
             (alphabeta D true (analyzeBoard p0) depth (-D.EVAL_INF) D.EVAL_INF
               cursorPos).2.y)) := by
  have hn := (analyzeBoard_numPlaceable_pos p0 hd).2 hl
  obtain ⟨m, h1, h2, h3, h4, h5⟩ :=
    alphabetaAux_root D hE p0 hd hn (depth.toNat - 1) cursorPos
  have hdn : depth.toNat = depth.toNat - 1 + 1 := by omega
  have e : alphabeta D true (analyzeBoard p0) depth (-D.EVAL_INF) D.EVAL_INF cursorPos =
      (-(moveScore D (depth.toNat - 1) (analyzeBoard p0) m), POS_T.mk m.1 m.2) := by
    unfold alphabeta
    rw [hdn]
    exact h4
  rw [e]
  refine ⟨h1, h2, h3, ?_⟩
  intro x y hx hy hp
  exact h5 (x, y) hx hy hp

set_option maxRecDepth 100000 in
/-- Claim C6 applied to the sample constants, the opening position and depth 2. -/
theorem C6_first_best_move_witness :
    EvalBounded sampleData ∧ DisjointMasks openingBoard ∧
    (∃ x y : Int, OnBoard x y ∧ Legal openingBoard x y) ∧ (1 : Int) ≤ 2 ∧
    placeableAt (analyzeBoard openingBoard)
      (alphabeta sampleData true (analyzeBoard openingBoard) 2 (-sampleData.EVAL_INF)
        sampleData.EVAL_INF (POS_T.mk 0 0)).2.x
      (alphabeta sampleData true (analyzeBoard openingBoard) 2 (-sampleData.EVAL_INF)
        sampleData.EVAL_INF (POS_T.mk 0 0)).2.y = true :=
  have hd : DisjointMasks openingBoard := by unfold DisjointMasks; decide
  have hb : OnBoard 4 2 := by unfold OnBoard; decide
  have hl : ∃ x y : Int, OnBoard x y ∧ Legal openingBoard x y :=
    ⟨4, 2, hb, (analyzeBoard_placeable openingBoard hd 4 2 hb).1 (by decide)⟩
  ⟨sampleData_bounded, hd, hl, by decide,
    (C6_first_best_move sampleData sampleData_bounded openingBoard hd hl 2 (by decide)
      (POS_T.mk 0 0)).2.2.1⟩

/-- Claim C7. For every analysed board with `numPlaceable > 0` (evaluations strictly inside
`(-EVAL_INF, EVAL_INF)`), after `cpuThinking` the position `cursorPos` is on the board, in
the placeable set and a legal placement of that board for the side to move, whatever
`cursorPos` held before the call. -/
theorem C7_cpu_move_legal (D : DATA_T) (hE : EvalBounded D) (p0 : BOARD_T)
    (hd : DisjointMasks p0) (hn : 0 < (analyzeBoard p0).numPlaceable) (cursorPos : POS_T) :
    (cpuThinking D (analyzeBoard p0) cursorPos).x < 8 ∧
    (cpuThinking D (analyzeBoard p0) cursorPos).y < 8 ∧
    placeableAt (analyzeBoard p0) (cpuThinking D (analyzeBoard p0) cursorPos).x
      (cpuThinking D (analyzeBoard p0) cursorPos).y = true ∧
    Legal (analyzeBoard p0) (cpuThinking D (analyzeBoard p0) cursorPos).x
      (cpuThinking D (analyzeBoard p0) cursorPos).y := by
  obtain ⟨m, h1, h2, h3, h4, -⟩ := alphabetaAux_root D hE p0 hd hn 4 cursorPos
  have e : cpuThinking D (analyzeBoard p0) cursorPos = POS_T.mk m.1 m.2 := by
    unfold cpuThinking alphabeta
    have : (5 : Int).toNat = 4 + 1 := by decide
    rw [this, h4]
  rw [e]
  exact ⟨h1, h2, h3,
    (analyzeBoard_placeable_self p0 hd (m.1 : Int) (m.2 : Int)
      (by unfold OnBoard; omega)).1 h3⟩

set_option maxRecDepth 100000 in
/-- Claim C7 applied to the sample constants and the opening position, with the cursor
starting in the occupied cell (3, 3). -/
theorem C7_cpu_move_legal_witness :
    EvalBounded sampleData ∧ DisjointMasks openingBoard ∧
    0 < (analyzeBoard openingBoard).numPlaceable ∧
    Legal (analyzeBoard openingBoard)
      (cpuThinking sampleData (analyzeBoard openingBoard) (POS_T.mk 3 3)).x
      (cpuThinking sampleData (analyzeBoard openingBoard) (POS_T.mk 3 3)).y :=
  have hd : DisjointMasks openingBoard := by unfold DisjointMasks; decide
  have hn : 0 < (analyzeBoard openingBoard).numPlaceable := by decide
  ⟨sampleData_bounded, hd, hn,
    (C7_cpu_move_legal sampleData sampleData_bounded openingBoard hd hn (POS_T.mk 3 3)).2.2.2⟩

/-- Claim C3. A stone marked stable is never flipped: for every board with disjoint masks on
which no occupied cell carries a flag bit before analysis, every occupied cell whose flag bit
is set after `analyzeBoard` keeps its colour under `placeStone` at any empty cell by either
side, and along every subsequent sequence of legal placements and passes, each followed by
the turn update and `analyzeBoard`. -/
theorem C3_stable_never_flipped (p0 : BOARD_T) (hd : DisjointMasks p0)
    (hf : ∀ x y : Int, OnBoard x y → occupiedAt p0 x y = true → isFlagAt p0 x y = false)
    (x y : Int) (hb : OnBoard x y) (ho : occupiedAt (analyzeBoard p0) x y = true)
    (hfl : isFlagAt (analyzeBoard p0) x y = true) :
    (∀ (t : Bool) (ex ey : Int), OnBoard ex ey → emptyAt (analyzeBoard p0) ex ey = true →
      isWhiteAt (placeStone { analyzeBoard p0 with isWhiteTurn := t } ex ey) x y =
        isWhiteAt (analyzeBoard p0) x y ∧
      isBlackAt (placeStone { analyzeBoard p0 with isWhiteTurn := t } ex ey) x y =
        isBlackAt (analyzeBoard p0) x y) ∧
    (∀ ms : List MOVE_T, LegalGame (analyzeBoard p0) ms →
      isWhiteAt (playMoves (analyzeBoard p0) ms) x y = isWhiteAt (analyzeBoard p0) x y ∧
      isBlackAt (playMoves (analyzeBoard p0) ms) x y = isBlackAt (analyzeBoard p0) x y) := by
  have hs := analyzeBoard_flag_stable p0 hd hf x y hb ho hfl
  have hdb := analyzeBoard_disjoint p0 hd
  constructor
  · intro t ex ey hbe he
    have hdt : DisjointMasks { analyzeBoard p0 with isWhiteTurn := t } := hdb
    have hst : Stable { analyzeBoard p0 with isWhiteTurn := t } x y :=
      stable_congr (analyzeBoard p0) { analyzeBoard p0 with isWhiteTurn := t } rfl rfl x y hs
    exact stable_keeps_colour _ hdt ex ey hbe he x y hst
  · intro ms hg
    exact playMoves_stable ms (analyzeBoard p0) hdb hg x y hs

set_option maxRecDepth 100000 in
/-- Claim C3 applied to a position with a black stone in the corner (0, 0), which
`analyzeBoard` flags. -/
theorem C3_stable_never_flipped_witness :
    DisjointMasks cornerBoard ∧
    (∀ x y : Int, OnBoard x y → occupiedAt cornerBoard x y = true →
      isFlagAt cornerBoard x y = false) ∧
    OnBoard 0 0 ∧ occupiedAt (analyzeBoard cornerBoard) 0 0 = true ∧
    isFlagAt (analyzeBoard cornerBoard) 0 0 = true ∧
    (∀ ms : List MOVE_T, LegalGame (analyzeBoard cornerBoard) ms →
      isWhiteAt (playMoves (analyzeBoard cornerBoard) ms) 0 0 =
        isWhiteAt (analyzeBoard cornerBoard) 0 0 ∧
      isBlackAt (playMoves (analyzeBoard cornerBoard) ms) 0 0 =
        isBlackAt (analyzeBoard cornerBoard) 0 0) :=
  have hd : DisjointMasks cornerBoard := by unfold DisjointMasks; decide
  have hf : ∀ x y : Int, OnBoard x y → occupiedAt cornerBoard x y = true →
      isFlagAt cornerBoard x y = false := by
    intro x y _ _
    show ((0 : Nat) &&& bitOf x != 0) = false
    simp
  have hb : OnBoard 0 0 := by unfold OnBoard; decide
  ⟨hd, hf, hb, by decide, by decide,
    (C3_stable_never_flipped cornerBoard hd hf 0 0 hb (by decide) (by decide)).2⟩

set_option maxRecDepth 1000000 in
/-- Claim C11. On the board with black stones on (3,4) and (4,3), white stones on (3,3) and
(4,4) and black to move, the cell (2,3) is placeable and legal after `analyzeBoard`;
`placeStone` at (2,3) turns the white stone on (3,3) black and leaves every other cell but
(2,3) as it was, so that the row masks are black `0,0,0,28,8,0,0,0` and white
`0,0,0,0,16,0,0,0`; after `analyzeBoard` (with or without the turn update) `numBlack = 4`
and `numWhite = 1`. -/
theorem C11_first_move_scenario :
    placeableAt (analyzeBoard specOpeningBoard) 2 3 = true ∧
    Legal (analyzeBoard specOpeningBoard) 2 3 ∧
    (∀ y : Nat, y < 8 →
      (placeStone (analyzeBoard specOpeningBoard) 2 3).black y =
        [0, 0, 0, 28, 8, 0, 0, 0].getD y 0 ∧
      (placeStone (analyzeBoard specOpeningBoard) 2 3).white y =
        [0, 0, 0, 0, 16, 0, 0, 0].getD y 0) ∧
    isWhiteAt (analyzeBoard specOpeningBoard) 3 3 = true ∧
    isBlackAt (placeStone (analyzeBoard specOpeningBoard) 2 3) 3 3 = true ∧
    isWhiteAt (placeStone (analyzeBoard specOpeningBoard) 2 3) 3 3 = false ∧
    (∀ x ∈ List.range 8, ∀ y ∈ List.range 8, ¬ (x = 2 ∧ y = 3) → ¬ (x = 3 ∧ y = 3) →
      isBlackAt (placeStone (analyzeBoard specOpeningBoard) 2 3) x y =
        isBlackAt (analyzeBoard specOpeningBoard) x y ∧
      isWhiteAt (placeStone (analyzeBoard specOpeningBoard) 2 3) x y =
        isWhiteAt (analyzeBoard specOpeningBoard) x y) ∧
    (analyzeBoard (placeStone (analyzeBoard specOpeningBoard) 2 3)).numBlack = 4 ∧
    (analyzeBoard (placeStone (analyzeBoard specOpeningBoard) 2 3)).numWhite = 1 ∧
    (endOfMove (placeStone (analyzeBoard specOpeningBoard) 2 3)).numBlack = 4 ∧
    (endOfMove (placeStone (analyzeBoard specOpeningBoard) 2 3)).numWhite = 1 := by
  have hd : DisjointMasks specOpeningBoard := by unfold DisjointMasks; decide
  have hb : OnBoard 2 3 := by unfold OnBoard; decide
  have hp : placeableAt (analyzeBoard specOpeningBoard) 2 3 = true := by decide
  exact ⟨hp, (analyzeBoard_placeable_self specOpeningBoard hd 2 3 hb).1 hp, by decide,
    by decide, by decide, by decide, by decide, by decide, by decide, by decide, by decide⟩

/-- Claim C12. For every analysed board with disjoint masks, `isGameOver` returns true if
and only if all 64 cells hold a stone, or no cell holds a black stone, or no cell holds a
white stone, or `isLastPassed` is set and no cell is a legal placement for the side to move.
In particular a full board, a board without black stones and a board without white stones
are terminal. -/
theorem C12_game_over_iff (p : BOARD_T) (hd : DisjointMasks p) :
    (isGameOver (analyzeBoard p) = true ↔
      ((∀ x y : Int, OnBoard x y → occupiedAt (analyzeBoard p) x y = true) ∨
       (∀ x y : Int, OnBoard x y → isBlackAt (analyzeBoard p) x y = false) ∨
       (∀ x y : Int, OnBoard x y → isWhiteAt (analyzeBoard p) x y = false) ∨
       ((analyzeBoard p).isLastPassed = true ∧
         ∀ x y : Int, OnBoard x y → ¬ Legal (analyzeBoard p) x y))) ∧
    ((∀ x y : Int, OnBoard x y → occupiedAt (analyzeBoard p) x y = true) →
      isGameOver (analyzeBoard p) = true) ∧
    ((∀ x y : Int, OnBoard x y → isBlackAt (analyzeBoard p) x y = false) →
      isGameOver (analyzeBoard p) = true) ∧
    ((∀ x y : Int, OnBoard x y → isWhiteAt (analyzeBoard p) x y = false) →
      isGameOver (analyzeBoard p) = true) := by
  obtain ⟨hb, hw, ht, hl⟩ := analyzeBoard_stones p hd
  have key := isGameOver_analyzeBoard p hd
  have e1 : ∀ x y : Int, occupiedAt (analyzeBoard p) x y = occupiedAt p x y := by
    intro x y; simp only [occupiedAt_eq, hb, hw]
  have e2 : ∀ x y : Int, isBlackAt (analyzeBoard p) x y = isBlackAt p x y := by
    intro x y; simp only [isBlackAt_eq, hb]
  have e3 : ∀ x y : Int, isWhiteAt (analyzeBoard p) x y = isWhiteAt p x y := by
    intro x y; simp only [isWhiteAt_eq, hw]
  have e4 : ∀ x y : Int, Legal (analyzeBoard p) x y ↔ Legal p x y :=
    fun x y => legal_congr (analyzeBoard p) p hb hw ht x y
  simp only [e1, e2, e3, e4, hl]
  exact ⟨key, fun h => key.2 (Or.inl h), fun h => key.2 (Or.inr (Or.inl h)),
    fun h => key.2 (Or.inr (Or.inr (Or.inl h)))⟩

set_option maxRecDepth 100000 in
/-- Claim C12 applied to the position with a single black stone, which is terminal because
it has no white stone. -/
theorem C12_game_over_iff_witness :
    DisjointMasks loneBlackBoard ∧
    ((∀ x y : Int, OnBoard x y → isWhiteAt (analyzeBoard loneBlackBoard) x y = false) →
      isGameOver (analyzeBoard loneBlackBoard) = true) :=
  ⟨by unfold DisjointMasks; decide,
    (C12_game_over_iff loneBlackBoard (by unfold DisjointMasks; decide)).2.2.2⟩

/-- Claim C13. On an analysed board with disjoint masks and `isLastPassed` false, on which
the side to move has no legal placement and the opponent has one, `isGameOver` is false, and
`alphabeta` with a depth above zero returns the negated result of the recursive call on the
copy with the turn flipped and `isLastPassed` set (the pass branch), for the root call on
the board itself and for an inner call, which analyses its board first. -/
theorem C13_pass_branch (D : DATA_T) (p : BOARD_T) (hd : DisjointMasks p)
    (hlp : (analyzeBoard p).isLastPassed = false)
    (hno : ∀ x y : Int, OnBoard x y → ¬ Legal (analyzeBoard p) x y)
    (hopp : ∃ x y : Int, OnBoard x y ∧ Legal (passBoard (analyzeBoard p)) x y) :
    isGameOver (analyzeBoard p) = false ∧
    (passBoard (analyzeBoard p)).isWhiteTurn = (!(analyzeBoard p).isWhiteTurn) ∧
    (passBoard (analyzeBoard p)).isLastPassed = true ∧
    ∀ (isRoot : Bool) (depth : Int), 0 < depth → ∀ (alpha beta : Int) (cursorPos : POS_T),
      alphabeta D isRoot (analyzeBoard p) depth alpha beta cursorPos =
        (-(alphabeta D false
            (passBoard (if isRoot then analyzeBoard p else analyzeBoard (analyzeBoard p)))
            (depth - 1) (-beta) (-alpha) cursorPos).1,
          (alphabeta D false
            (passBoard (if isRoot then analyzeBoard p else analyzeBoard (analyzeBoard p)))
            (depth - 1) (-beta) (-alpha) cursorPos).2) := by
  have hdb := analyzeBoard_disjoint p hd
  have h1 := pass_not_over (analyzeBoard p) hdb hlp hno hopp
  obtain ⟨hb, hw, ht, hl⟩ := analyzeBoard_stones p hd
  have h0 : isGameOver (analyzeBoard p) = false ∧ (analyzeBoard p).numPlaceable = 0 := by
    apply pass_not_over p hd (hl ▸ hlp)
    · intro x y hxy hL
      exact hno x y hxy ((legal_congr (analyzeBoard p) p hb hw ht x y).2 hL)
    · obtain ⟨x, y, hxy, hL⟩ := hopp
      refine ⟨x, y, hxy, (legal_congr (passBoard (analyzeBoard p)) (passBoard p) hb hw ?_ x y).1 hL⟩
      show (!(analyzeBoard p).isWhiteTurn) = !p.isWhiteTurn
      rw [ht]
  refine ⟨h0.1, rfl, rfl, ?_⟩
  intro isRoot depth hdepth alpha beta cursorPos
  obtain ⟨n, rfl⟩ : ∃ n : Nat, depth = n + 1 := ⟨(depth - 1).toNat, by omega⟩
  have e1 : ((n : Int) + 1).toNat = n + 1 := by omega
  have e2 : ((n : Int) + 1 - 1).toNat = n := by omega
  unfold alphabeta
  rw [e1, e2, alphabetaAux_succ]
  cases isRoot
  · simp only [Bool.false_eq_true, if_false, h1.1, h1.2, if_true]
  · simp only [if_true, h0.1, h0.2, Bool.false_eq_true, if_false]

set_option maxRecDepth 100000 in
/-- Claim C13 applied to the corner position with white to move: white has no placement,
black can place on (2, 0). -/
theorem C13_pass_branch_witness :
    DisjointMasks { cornerBoard with isWhiteTurn := true } ∧
    (analyzeBoard { cornerBoard with isWhiteTurn := true }).isLastPassed = false ∧
    isGameOver (analyzeBoard { cornerBoard with isWhiteTurn := true }) = false :=
  have hd : DisjointMasks { cornerBoard with isWhiteTurn := true } := by
    unfold DisjointMasks; decide
  have hdb := analyzeBoard_disjoint _ hd
  ⟨hd, by decide,
    (C13_pass_branch sampleData { cornerBoard with isWhiteTurn := true } hd (by decide)
      ((analyzeBoard_numPlaceable_zero _ hdb).1 (by decide))
      ⟨2, 0, by unfold OnBoard; decide,
        (analyzeBoard_placeable (passBoard (analyzeBoard { cornerBoard with isWhiteTurn := true }))
          hdb 2 0 (by unfold OnBoard; decide)).1 (by decide)⟩).1⟩

/-- Claim C14. After a pass (turn flipped, `isLastPassed` set, `analyzeBoard` run again) on a
board with disjoint masks, `isGameOver` is true if and only if the new side to move has no
legal placement. Hence, when a side without a legal placement passes and the other side has
no legal placement either, the board after the first pass is terminal, and so is the board
after a second pass. -/
theorem C14_pass_terminal (p : BOARD_T) (hd : DisjointMasks p) :
    (isGameOver (passTurn p) = true ↔ ∀ x y : Int, OnBoard x y → ¬ Legal (passTurn p) x y) ∧
    ((passTurn p).isWhiteTurn = (!p.isWhiteTurn) ∧ (passTurn p).isLastPassed = true) ∧
    ((∀ x y : Int, OnBoard x y → ¬ Legal p x y) →
      (∀ x y : Int, OnBoard x y → ¬ Legal (passTurn p) x y) →
      isGameOver (passTurn p) = true ∧ isGameOver (passTurn (passTurn p)) = true) := by
  have pass_over : ∀ q : BOARD_T, DisjointMasks q →
      ((isGameOver (passTurn q) = true ↔ ∀ x y : Int, OnBoard x y → ¬ Legal (passTurn q) x y) ∧
        (passTurn q).black = q.black ∧ (passTurn q).white = q.white ∧
        (passTurn q).isWhiteTurn = (!q.isWhiteTurn) ∧ (passTurn q).isLastPassed = true) := by
    intro q hq
    have hdq : DisjointMasks (passBoard q) := hq
    obtain ⟨hb, hw, ht, hl⟩ := analyzeBoard_stones (passBoard q) hdq
    have e : ∀ x y : Int, Legal (passTurn q) x y ↔ Legal (passBoard q) x y :=
      fun x y => legal_congr (analyzeBoard (passBoard q)) (passBoard q) hb hw ht x y
    refine ⟨?_, hb, hw, ht, hl⟩
    simp only [e]
    constructor
    · intro h x y hxy hL
      have := analyzeBoard_not_over (passBoard q) hdq x y hxy hL
      rw [show analyzeBoard (passBoard q) = passTurn q from rfl, h] at this
      exact Bool.noConfusion this
    · intro h
      exact (isGameOver_analyzeBoard (passBoard q) hdq).2 (Or.inr (Or.inr (Or.inr ⟨rfl, h⟩)))
  obtain ⟨h1, hb, hw, ht, hl⟩ := pass_over p hd
  refine ⟨h1, ⟨ht, hl⟩, ?_⟩
  intro hno hno'
  refine ⟨h1.2 hno', ?_⟩
  have hd1 : DisjointMasks (passTurn p) := analyzeBoard_disjoint (passBoard p) hd
  obtain ⟨h2, hb2, hw2, ht2, _⟩ := pass_over (passTurn p) hd1
  apply h2.2
  intro x y hxy hL
  apply hno x y hxy
  refine (legal_congr (passTurn (passTurn p)) p (hb2.trans hb) (hw2.trans hw) ?_ x y).1 hL
  rw [ht2, ht, Bool.not_not]

set_option maxRecDepth 100000 in
/-- Claim C14 applied to the position with a single black stone: neither side can place. -/
theorem C14_pass_terminal_witness :
    DisjointMasks loneBlackBoard ∧
    (isGameOver (passTurn loneBlackBoard) = true ↔
      ∀ x y : Int, OnBoard x y → ¬ Legal (passTurn loneBlackBoard) x y) ∧
    isGameOver (passTurn loneBlackBoard) = true :=
  ⟨by unfold DisjointMasks; decide,
    (C14_pass_terminal loneBlackBoard (by unfold DisjointMasks; decide)).1, by decide⟩

set_option maxRecDepth 100000 in
/-- Claim C15, counterexample. The analysed position with a single black stone and black to
move is terminal and the side to move has strictly more stones, yet `evaluateBoard` returns
`EVAL_WIN + EVAL_NOPLACEABLE` for all constants; with the sample constants this is
`9967`, not `EVAL_WIN = 9999`. -/
theorem C15_terminal_counterexample :
    isGameOver (analyzeBoard loneBlackBoard) = true ∧
    (analyzeBoard loneBlackBoard).isWhiteTurn = false ∧
    (analyzeBoard loneBlackBoard).numBlack = 1 ∧
    (analyzeBoard loneBlackBoard).numWhite = 0 ∧
    (∀ D : DATA_T,
      evaluateBoard D (analyzeBoard loneBlackBoard) = D.EVAL_WIN + D.EVAL_NOPLACEABLE) ∧
    sampleData.EVAL_WIN = 9999 ∧
    evaluateBoard sampleData (analyzeBoard loneBlackBoard) = 9967 ∧
    evaluateBoard sampleData (analyzeBoard loneBlackBoard) ≠ sampleData.EVAL_WIN := by
  have h1 : isGameOver (analyzeBoard loneBlackBoard) = true := by decide
  have h2 : (analyzeBoard loneBlackBoard).isWhiteTurn = false := by decide
  have h3 : (analyzeBoard loneBlackBoard).numBlack = 1 := by decide
  have h4 : (analyzeBoard loneBlackBoard).numWhite = 0 := by decide
  have h5 : (analyzeBoard loneBlackBoard).numPlaceable = 0 := by decide
  refine ⟨h1, h2, h3, h4, ?_, rfl, by decide, by decide⟩
  intro D
  rw [evaluateBoard_terminal D (analyzeBoard loneBlackBoard) h1 h5, h2, h3, h4]
  simp [terminalScore]

/-- Claim C15, amended. On every analysed terminal board with disjoint masks `numPlaceable`
is zero, `numBlack` and `numWhite` are the numbers of black and white stones, and
`evaluateBoard` returns `s * e + EVAL_NOPLACEABLE`, where `e` is `EVAL_WIN` if black has
strictly more stones than white, `EVAL_LOSE` if black has strictly fewer and `0` on a tie,
and `s` is `1` with black to move and `-1` with white to move. -/
theorem C15_terminal_value (D : DATA_T) (p : BOARD_T) (hd : DisjointMasks p)
    (h : isGameOver (analyzeBoard p) = true) :
    (analyzeBoard p).numPlaceable = 0 ∧
    (analyzeBoard p).numBlack = maskCount (analyzeBoard p).black ∧
    (analyzeBoard p).numWhite = maskCount (analyzeBoard p).white ∧
    evaluateBoard D (analyzeBoard p) =
      (if (analyzeBoard p).isWhiteTurn then
          -(terminalScore D (analyzeBoard p).numBlack (analyzeBoard p).numWhite)
        else terminalScore D (analyzeBoard p).numBlack (analyzeBoard p).numWhite) +
        D.EVAL_NOPLACEABLE := by
  have h0 := isGameOver_numPlaceable p hd h
  obtain ⟨hB, hW, _, _⟩ := analyzeBoard_counters p hd
  obtain ⟨hb, hw, _, _⟩ := analyzeBoard_stones p hd
  refine ⟨h0, ?_, ?_, evaluateBoard_terminal D (analyzeBoard p) h h0⟩
  · rw [hB, hb]
  · rw [hW, hw]

set_option maxRecDepth 100000 in
/-- Claim C15 (amended) applied to the position with a single black stone and the sample
constants. -/
theorem C15_terminal_value_witness :
    DisjointMasks loneBlackBoard ∧ isGameOver (analyzeBoard loneBlackBoard) = true ∧
    evaluateBoard sampleData (analyzeBoard loneBlackBoard) =
      (if (analyzeBoard loneBlackBoard).isWhiteTurn then
          -(terminalScore sampleData (analyzeBoard loneBlackBoard).numBlack
            (analyzeBoard loneBlackBoard).numWhite)
        else terminalScore sampleData (analyzeBoard loneBlackBoard).numBlack
          (analyzeBoard loneBlackBoard).numWhite) + sampleData.EVAL_NOPLACEABLE :=
  ⟨by unfold DisjointMasks; decide, by decide,
    (C15_terminal_value sampleData loneBlackBoard (by unfold DisjointMasks; decide)
      (by decide)).2.2.2⟩

/-- Claim C16. For every board with disjoint masks and every legal placement on the analysed
board, every occupied cell of the analysed board whose flag bit is set is still occupied and
still has its flag bit set after `placeStone`, the turn update and `analyzeBoard`. -/
theorem C16_stable_superset (p : BOARD_T) (hd : DisjointMasks p) (x y : Int)
    (hb : OnBoard x y) (hl : Legal (analyzeBoard p) x y) (cx cy : Int) (hc : OnBoard cx cy)
    (ho : occupiedAt (analyzeBoard p) cx cy = true)
    (hf : isFlagAt (analyzeBoard p) cx cy = true) :
    occupiedAt (endOfMove (placeStone (analyzeBoard p) x y)) cx cy = true ∧
    isFlagAt (endOfMove (placeStone (analyzeBoard p) x y)) cx cy = true :=
  endOfMove_keeps_flag (analyzeBoard p) (analyzeBoard_disjoint p hd) x y hb hl.1 cx cy hc ho hf

set_option maxRecDepth 100000 in
/-- Claim C16 applied to the corner position: black places on (2, 0); the black stone in the
corner (0, 0) is flagged before and after. -/
theorem C16_stable_superset_witness :
    DisjointMasks cornerBoard ∧ OnBoard 2 0 ∧ Legal (analyzeBoard cornerBoard) 2 0 ∧
    OnBoard 0 0 ∧ occupiedAt (analyzeBoard cornerBoard) 0 0 = true ∧
    isFlagAt (analyzeBoard cornerBoard) 0 0 = true ∧
    occupiedAt (endOfMove (placeStone (analyzeBoard cornerBoard) 2 0)) 0 0 = true ∧
    isFlagAt (endOfMove (placeStone (analyzeBoard cornerBoard) 2 0)) 0 0 = true :=
  have hd : DisjointMasks cornerBoard := by unfold DisjointMasks; decide
  have hb : OnBoard 2 0 := by unfold OnBoard; decide
  have hc : OnBoard 0 0 := by unfold OnBoard; decide
  have hl : Legal (analyzeBoard cornerBoard) 2 0 :=
    (analyzeBoard_placeable_self cornerBoard hd 2 0 hb).1 (by decide)
  ⟨hd, hb, hl, hc, by decide, by decide,
    C16_stable_superset cornerBoard hd 2 0 hb hl 0 0 hc (by decide) (by decide)⟩

set_option maxRecDepth 100000 in
/-- Claim C17, counterexample. On the board with black on (0,0) and (4,0), white on (1,0) and
(3,0) and black to move, the placement on (2,0) is legal and flips the white stones on (1,0)
and (3,0), both at distance 1 from the placed stone. Starting from reset parameters,
`animTable[0][1]` becomes 36 and `animTable[0][3]` becomes 40: the two cells do not receive
the same value, and the second value is not `32 + 4 * 1`. -/
theorem C17_anim_counterexample :
    Legal twoRunBoard 2 0 ∧
    isWhiteAt twoRunBoard 1 0 = true ∧ isBlackAt (placeStone twoRunBoard 2 0) 1 0 = true ∧
    isWhiteAt twoRunBoard 3 0 = true ∧ isBlackAt (placeStone twoRunBoard 2 0) 3 0 = true ∧
    resetAnimationParams.animStones = 0 ∧
    (∀ y ∈ List.range 8, ∀ x ∈ List.range 8, resetAnimationParams.animTable y x = -1) ∧
    (placeStoneAnim twoRunBoard resetAnimationParams 2 0).animTable 0 1 = 36 ∧
    (placeStoneAnim twoRunBoard resetAnimationParams 2 0).animTable 0 3 = 40 ∧
    (placeStoneAnim twoRunBoard resetAnimationParams 2 0).animTable 0 3 ≠ 32 + 4 * 1 := by
  have hd : DisjointMasks twoRunBoard := by unfold DisjointMasks; decide
  have hl : Legal twoRunBoard 2 0 :=
    (analyzeBoard_placeable twoRunBoard hd 2 0 (by unfold OnBoard; decide)).1 (by decide)
  exact ⟨hl, by decide, by decide, by decide, by decide, rfl, by decide, by decide, by decide,
    by decide⟩

/-- Claim C17, amended. After `placeStone` on a legal cell of a board with disjoint masks,
starting from reset animation parameters, the entry of `animTable` of a flipped cell at
distance `d` from the placed stone along its flip direction is `32 + 4 * (n + d)`, where `n`
is the number of stones flipped in the directions scanned before that direction; it is
`32 + 4 * d` in the first direction that flips only. The counter `animStones` ends as the
number of flipped stones, which is at most 19, so that no `int8_t` value wraps around; the
entry of the placed cell is 0 and every cell that is neither placed nor flipped keeps -1. -/
theorem C17_anim_values (p : BOARD_T) (hd : DisjointMasks p) (x y : Int) (hb : OnBoard x y)
    (hl : Legal p x y) :
    (∀ (l1 : List (Int × Int)) (v : Int × Int) (l2 : List (Int × Int)),
      directions = l1 ++ v :: l2 → ∀ s d : Nat, FlipRun p x y v.1 v.2 s → 1 ≤ d → d ≤ s →
      (placeStoneAnim p resetAnimationParams x y).animTable
          (y + d * v.2).toNat (x + d * v.1).toNat =
        32 + 4 * ((flipsIn p x y l1 + d : Nat) : Int)) ∧
    (placeStoneAnim p resetAnimationParams x y).animStones = flipsIn p x y directions ∧
    flipsIn p x y directions ≤ 19 ∧
    (placeStoneAnim p resetAnimationParams x y).animTable y.toNat x.toNat = 0 ∧
    (∀ cx cy : Int, 0 ≤ cx → 0 ≤ cy → ¬ (cx = x ∧ cy = y) → ¬ FlippedBy p x y cx cy →
      (placeStoneAnim p resetAnimationParams x y).animTable cy.toNat cx.toNat = -1) := by
  obtain ⟨h1, h2, h3, h4⟩ := placeStoneAnim_spec p hd x y hb hl.1
  exact ⟨h3, h1, flipsIn_directions_le p hd x y hb, h2, h4⟩

set_option maxRecDepth 100000 in
/-- Claim C17 (amended) applied to the placement on (2,0) of the board with two runs: the
white stone on (3,0) lies at distance 1 in direction (1,0), which is scanned after
direction (-1,0) has flipped one stone, and its entry is `32 + 4 * (1 + 1) = 40`. -/
theorem C17_anim_values_witness :
    DisjointMasks twoRunBoard ∧ OnBoard 2 0 ∧ Legal twoRunBoard 2 0 ∧
    FlipRun twoRunBoard 2 0 1 0 1 ∧
    flipsIn twoRunBoard 2 0 [(-1, -1), (0, -1), (1, -1), (-1, 0)] = 1 ∧
    (placeStoneAnim twoRunBoard resetAnimationParams 2 0).animTable 0 3 =
      32 + 4 * ((flipsIn twoRunBoard 2 0 [(-1, -1), (0, -1), (1, -1), (-1, 0)] + 1 : Nat) : Int) :=
  have hd : DisjointMasks twoRunBoard := by unfold DisjointMasks; decide
  have hb : OnBoard 2 0 := by unfold OnBoard; decide
  have hl : Legal twoRunBoard 2 0 := (analyzeBoard_placeable twoRunBoard hd 2 0 hb).1 (by decide)
  have hr : FlipRun twoRunBoard 2 0 1 0 1 := by
    refine ⟨le_refl 1, ?_, by unfold OnBoard; decide, by decide⟩
    intro k h1 h2
    obtain rfl : k = 1 := by omega
    exact ⟨by unfold OnBoard; decide, by decide⟩
  ⟨hd, hb, hl, hr, by decide,
    (C17_anim_values twoRunBoard hd 2 0 hb hl).1 [(-1, -1), (0, -1), (1, -1), (-1, 0)] (1, 0)
      [(-1, 1), (0, 1), (1, 1)] rfl 1 1 hr (le_refl 1) (le_refl 1)⟩

/-- Claim C18. For every board with disjoint masks that is not terminal after analysis, the
colour-swapped counterpart (black and white masks exchanged, `isWhiteTurn` toggled) is not
terminal after analysis either, and `evaluateBoard` after `analyzeBoard` returns the same
score for both boards. No condition on the flag bits before the analysis is needed. -/
theorem C18_colour_symmetry (D : DATA_T) (p : BOARD_T) (hd : DisjointMasks p)
    (hnt : isGameOver (analyzeBoard p) = false) :
    isGameOver (analyzeBoard (swapColours p)) = false ∧
    evaluateBoard D (analyzeBoard (swapColours p)) = evaluateBoard D (analyzeBoard p) :=
  evaluateBoard_swapped D p (swapColours p) ⟨rfl, rfl, rfl, rfl, rfl⟩ hd hnt

set_option maxRecDepth 100000 in
/-- Claim C18 applied to the opening position and the sample constants. -/
theorem C18_colour_symmetry_witness :
    DisjointMasks openingBoard ∧ isGameOver (analyzeBoard openingBoard) = false ∧
    evaluateBoard sampleData (analyzeBoard (swapColours openingBoard)) =
      evaluateBoard sampleData (analyzeBoard openingBoard) :=
  ⟨by unfold DisjointMasks; decide, by decide,
    (C18_colour_symmetry sampleData openingBoard (by unfold DisjointMasks; decide)
      (by decide)).2⟩

/-- Claim C19. Function `checkFixedStones` terminates on every board: its loop returns within
the 65 passes of the embedding, every pass that repeats has set a new flag bit on an occupied
cell and so lowers the number of unflagged stones, which is at most 64, and any number of
passes above that number gives the same result. It returns the board of a pass that marked
nothing, and on the returned board no occupied cell whose flag bit is clear satisfies
`isFixed`. -/
theorem C19_fixpoint_terminates (p : BOARD_T) :
    (∃ q, checkFixedStonesLoop 65 p = some q ∧ checkFixedStones p = q) ∧
    (∀ q : BOARD_T, (fixedPass q).2 = true →
      NewBit q (fixedPass q).1 ∧ unfixedCount (fixedPass q).1 < unfixedCount q) ∧
    unfixedCount p ≤ 64 ∧
    (∀ fuel : Nat, unfixedCount p < fuel →
      checkFixedStonesLoop fuel p = some (checkFixedStones p)) ∧
    (∃ q', checkFixedStones p = (fixedPass q').1 ∧ (fixedPass q').2 = false) ∧
    (∀ x y : Int, OnBoard x y → occupiedAt (checkFixedStones p) x y = true →
      isFlagAt (checkFixedStones p) x y = false →
      isFixed (checkFixedStones p) x y (isBlackAt (checkFixedStones p) x y) = false) := by
  obtain ⟨h1, _, _, h4⟩ := checkFixedStones_fixpoint p
  refine ⟨checkFixedStones_terminates p, ?_, unfixedCount_le p,
    checkFixedStonesLoop_fuel p, h1, h4⟩
  intro q hq
  have hn := fixedPass_snd q hq
  exact ⟨hn, unfixedCount_lt q _ (fixedPass_frame q) hn⟩

/-- Claim C20. After `analyzeBoard` on a board with disjoint masks, whatever its counters
held, `numBlack` and `numWhite` are the numbers of set bits of the black and white masks,
`numStones` is their sum, `numPlaceable` is the number of cells of the placeable set, which
are the empty cells that are legal for the side to move, and `numFixedBlack` and
`numFixedWhite` are the numbers of black and white stones whose flag bit is set; all six
values are at most 64, so no 8-bit counter wraps around. -/
theorem C20_counters (p : BOARD_T) (hd : DisjointMasks p) :
    (analyzeBoard p).numBlack = maskCount (analyzeBoard p).black ∧
    (analyzeBoard p).numWhite = maskCount (analyzeBoard p).white ∧
    (analyzeBoard p).numStones =
      maskCount (analyzeBoard p).black + maskCount (analyzeBoard p).white ∧
    (analyzeBoard p).numPlaceable = placeableCount (analyzeBoard p) ∧
    (∀ x y : Int, OnBoard x y →
      (placeableAt (analyzeBoard p) x y = true ↔
        emptyAt (analyzeBoard p) x y = true ∧ Legal (analyzeBoard p) x y)) ∧
    (analyzeBoard p).numFixedBlack =
      maskCount (fun r => (analyzeBoard p).black r &&& (analyzeBoard p).flag r) ∧
    (analyzeBoard p).numFixedWhite =
      maskCount (fun r => (analyzeBoard p).white r &&& (analyzeBoard p).flag r) ∧
    (analyzeBoard p).numBlack ≤ 64 ∧ (analyzeBoard p).numWhite ≤ 64 ∧
    (analyzeBoard p).numStones ≤ 64 ∧ (analyzeBoard p).numPlaceable ≤ 64 ∧
    (analyzeBoard p).numFixedBlack ≤ 64 ∧ (analyzeBoard p).numFixedWhite ≤ 64 := by
  obtain ⟨hB, hW, hS, hP⟩ := analyzeBoard_counters p hd
  obtain ⟨hb, hw, _, _⟩ := analyzeBoard_stones p hd
  obtain ⟨_, hfb, hfw, _⟩ := checkFixedStones_fixpoint (analyzeScan p)
  rw [← analyzeBoard_eq] at hfb hfw
  have hS' : (analyzeBoard p).numStones = maskCount (fun y => p.black y ||| p.white y) := by
    rw [hS, stoneCount_eq p hd]
  refine ⟨by rw [hB, hb], by rw [hW, hw], by rw [hS, hb, hw]; rfl, hP, ?_, hfb, hfw,
    by rw [hB]; exact maskCount_le _, by rw [hW]; exact maskCount_le _,
    by rw [hS']; exact maskCount_le _, by rw [hP]; exact maskCount_le _,
    by rw [hfb]; exact maskCount_le _, by rw [hfw]; exact maskCount_le _⟩
  intro x y hxy
  have h := analyzeBoard_placeable_self p hd x y hxy
  exact ⟨fun hp => ⟨(h.1 hp).1, h.1 hp⟩, fun hl => h.2 hl.2⟩

set_option maxRecDepth 100000 in
/-- Claim C20 applied to the corner position, on which the black stone in the corner is the
only flagged stone. -/
theorem C20_counters_witness :
    DisjointMasks cornerBoard ∧
    (analyzeBoard cornerBoard).numFixedBlack =
      maskCount (fun r => (analyzeBoard cornerBoard).black r &&& (analyzeBoard cornerBoard).flag r) ∧
    (analyzeBoard cornerBoard).numFixedBlack = 1 :=
  ⟨by unfold DisjointMasks; decide,
    (C20_counters cornerBoard (by unfold DisjointMasks; decide)).2.2.2.2.2.1, by decide⟩

/-- Claim C21. In the human-move branch of `handlePlaying` on an analysed board with disjoint
masks and a cursor within the 3-bit range, the cursor stays on the board; a B press on a
cursor cell that is legal for the side to move (hence empty) calls `placeStone` on that cell
and sets `state` to `STATE_ANIMATION`; in every other case, in particular when the cursor
cell is occupied or no direction satisfies the flip condition, the whole board record and
`state` are left as they were. -/
theorem C21_human_move_guard (p : BOARD_T) (hd : DisjointMasks p) (cursorPos : POS_T)
    (hx : cursorPos.x < 8) (hy : cursorPos.y < 8) (state : STATE_T) (padX padY : Int)
    (bDown : Bool) :
    OnBoard (moveCursor cursorPos padX padY).x (moveCursor cursorPos padX padY).y ∧
    (humanMove (PLAY_T.mk (analyzeBoard p) cursorPos state) padX padY bDown).cursorPos =
      moveCursor cursorPos padX padY ∧
    (bDown = true →
      Legal (analyzeBoard p) (moveCursor cursorPos padX padY).x
        (moveCursor cursorPos padX padY).y →
      emptyAt (analyzeBoard p) (moveCursor cursorPos padX padY).x
        (moveCursor cursorPos padX padY).y = true ∧
      (humanMove (PLAY_T.mk (analyzeBoard p) cursorPos state) padX padY bDown).board =
        placeStone (analyzeBoard p) (moveCursor cursorPos padX padY).x
          (moveCursor cursorPos padX padY).y ∧
      (humanMove (PLAY_T.mk (analyzeBoard p) cursorPos state) padX padY bDown).state =
        STATE_T.STATE_ANIMATION) ∧
    (¬ (bDown = true ∧ Legal (analyzeBoard p) (moveCursor cursorPos padX padY).x
        (moveCursor cursorPos padX padY).y) →
      (humanMove (PLAY_T.mk (analyzeBoard p) cursorPos state) padX padY bDown).board =
        analyzeBoard p ∧
      (humanMove (PLAY_T.mk (analyzeBoard p) cursorPos state) padX padY bDown).state = state) ∧
    (occupiedAt (analyzeBoard p) (moveCursor cursorPos padX padY).x
          (moveCursor cursorPos padX padY).y = true ∨
        (∀ v ∈ directions, ¬ Flippable (analyzeBoard p) (moveCursor cursorPos padX padY).x
          (moveCursor cursorPos padX padY).y v.1 v.2) →
      (humanMove (PLAY_T.mk (analyzeBoard p) cursorPos state) padX padY bDown).board =
        analyzeBoard p ∧
      (humanMove (PLAY_T.mk (analyzeBoard p) cursorPos state) padX padY bDown).state = state) := by
  obtain ⟨cx, cy⟩ := moveCursor_lt cursorPos padX padY hx hy
  have hb : OnBoard (moveCursor cursorPos padX padY).x (moveCursor cursorPos padX padY).y := by
    unfold OnBoard; omega
  have hpl := analyzeBoard_placeable_self p hd _ _ hb
  have hno : ¬ (bDown = true ∧ Legal (analyzeBoard p) (moveCursor cursorPos padX padY).x
        (moveCursor cursorPos padX padY).y) →
      (humanMove (PLAY_T.mk (analyzeBoard p) cursorPos state) padX padY bDown).board =
        analyzeBoard p ∧
      (humanMove (PLAY_T.mk (analyzeBoard p) cursorPos state) padX padY bDown).state = state := by
    intro h
    rw [humanMove_eq, if_neg]
    · exact ⟨rfl, rfl⟩
    · rintro ⟨h1, h2⟩
      exact h ⟨h1, hpl.1 h2⟩
  refine ⟨hb, ?_, ?_, hno, ?_⟩
  · rw [humanMove_eq]
    split_ifs <;> rfl
  · intro hB hl
    rw [humanMove_eq, if_pos ⟨hB, hpl.2 hl⟩]
    exact ⟨hl.1, rfl, rfl⟩
  · intro h
    apply hno
    rintro ⟨_, hl⟩
    rcases h with h | h
    · exact empty_not_occupied _ _ _ hl.1 h
    · obtain ⟨v, hv, hf⟩ := hl.2
      exact h v hv hf

set_option maxRecDepth 100000 in
/-- Claim C21 applied to the opening position: a B press with the cursor on the occupied
cell (3, 3) leaves the board and the state as they were. -/
theorem C21_human_move_guard_witness :
    DisjointMasks openingBoard ∧ (POS_T.mk 3 3).x < 8 ∧ (POS_T.mk 3 3).y < 8 ∧
    occupiedAt (analyzeBoard openingBoard) (moveCursor (POS_T.mk 3 3) 0 0).x
      (moveCursor (POS_T.mk 3 3) 0 0).y = true ∧
    (humanMove (PLAY_T.mk (analyzeBoard openingBoard) (POS_T.mk 3 3) STATE_T.STATE_PLAYING)
        0 0 true).board = analyzeBoard openingBoard ∧
    (humanMove (PLAY_T.mk (analyzeBoard openingBoard) (POS_T.mk 3 3) STATE_T.STATE_PLAYING)
        0 0 true).state = STATE_T.STATE_PLAYING :=
  have ho : occupiedAt (analyzeBoard openingBoard) (moveCursor (POS_T.mk 3 3) 0 0).x
      (moveCursor (POS_T.mk 3 3) 0 0).y = true := by decide
  ⟨by unfold DisjointMasks; decide, by decide, by decide, ho,
    (C21_human_move_guard openingBoard (by unfold DisjointMasks; decide) (POS_T.mk 3 3)
      (by decide) (by decide) STATE_T.STATE_PLAYING 0 0 true).2.2.2.2 (Or.inl ho)⟩
end Reversi
